import Mathlib

/-!
Verification development for the cliprelay repository.

Bytes are modelled as natural numbers below 256 in `List Nat`.
Rust `String` values are modelled as lists of Unicode scalar values
(`List Nat`), with `utf8Enc`/`utf8Dec` giving the byte view used by
`str::len`, `str::as_bytes` and `std::str::from_utf8`.
-/

set_option maxRecDepth 8000

namespace ClipRelay

/-- Little-endian byte encoding of a `u16` value (`put_u16_le`). -/
def u16le (n : Nat) : List Nat := [n % 256, n / 256 % 256]

/-- Little-endian byte encoding of a `u32` value (`put_u32_le`). -/
def u32le (n : Nat) : List Nat :=
  [n % 256, n / 256 % 256, n / 65536 % 256, n / 16777216 % 256]

/-- Little-endian byte encoding of a `u64` value (`put_u64_le` and
`u64::to_le_bytes`). -/
def u64le (n : Nat) : List Nat :=
  [n % 256, n / 256 % 256, n / 65536 % 256, n / 16777216 % 256,
   n / 4294967296 % 256, n / 1099511627776 % 256,
   n / 281474976710656 % 256, n / 72057594037927936 % 256]

/-- Value read by `get_u16_le` from two bytes. -/
def le2 (a b : Nat) : Nat := a + 256 * b

/-- Value read by `get_u32_le` from four bytes. -/
def le4 (a b c d : Nat) : Nat := a + 256 * b + 65536 * c + 16777216 * d

/-- Value read by `get_u64_le` from eight bytes. -/
def le8 (a b c d e f g h : Nat) : Nat :=
  a + 256 * b + 65536 * c + 16777216 * d + 4294967296 * e +
  1099511627776 * f + 281474976710656 * g + 72057594037927936 * h

theorem u16le_length (n : Nat) : (u16le n).length = 2 := rfl

theorem u32le_length (n : Nat) : (u32le n).length = 4 := rfl

theorem u64le_length (n : Nat) : (u64le n).length = 8 := rfl

theorem le2_u16le (n : Nat) (h : n < 65536) :
    le2 (n % 256) (n / 256 % 256) = n := by
  unfold le2; omega

theorem le4_u32le (n : Nat) (h : n < 4294967296) :
    le4 (n % 256) (n / 256 % 256) (n / 65536 % 256) (n / 16777216 % 256) = n := by
  unfold le4; omega

theorem le8_u64le (n : Nat) (h : n < 18446744073709551616) :
    le8 (n % 256) (n / 256 % 256) (n / 65536 % 256) (n / 16777216 % 256)
      (n / 4294967296 % 256) (n / 1099511627776 % 256)
      (n / 281474976710656 % 256) (n / 72057594037927936 % 256) = n := by
  unfold le8; omega

theorem u64le_inj {m n : Nat} (hm : m < 18446744073709551616)
    (hn : n < 18446744073709551616) (h : u64le m = u64le n) : m = n := by
  simp only [u64le, List.cons.injEq, and_true] at h
  omega

/-! ## Unicode scalar values and UTF-8 -/

/-- Valid Unicode scalar value: the codepoints a Rust `char` can hold. -/
def ValidChar (c : Nat) : Prop := c < 0xD800 ∨ (0xE000 ≤ c ∧ c < 0x110000)

instance (c : Nat) : Decidable (ValidChar c) := by unfold ValidChar; infer_instance

/-- Valid Rust string contents: every codepoint is a Unicode scalar value. -/
def ValidStr (s : List Nat) : Prop := ∀ c ∈ s, ValidChar c

instance (s : List Nat) : Decidable (ValidStr s) := by unfold ValidStr; infer_instance

/-- Number of bytes of the UTF-8 encoding of one scalar value. -/
def utf8Len (c : Nat) : Nat :=
  if c < 0x80 then 1 else if c < 0x800 then 2 else if c < 0x10000 then 3 else 4

/-- UTF-8 encoding of one Unicode scalar value. -/
def utf8EncChar (c : Nat) : List Nat :=
  if c < 0x80 then [c]
  else if c < 0x800 then [0xC0 + c / 64, 0x80 + c % 64]
  else if c < 0x10000 then
    [0xE0 + c / 4096, 0x80 + c / 64 % 64, 0x80 + c % 64]
  else
    [0xF0 + c / 262144, 0x80 + c / 4096 % 64, 0x80 + c / 64 % 64, 0x80 + c % 64]

/-- UTF-8 encoding of a whole string (the byte view behind `str::as_bytes`). -/
def utf8Enc : List Nat → List Nat
  | [] => []
  | c :: cs => utf8EncChar c ++ utf8Enc cs

/-- Byte length of a Rust string, as returned by `str::len`. -/
def strByteLen (s : List Nat) : Nat := (utf8Enc s).length

/-- Strict UTF-8 decoding of one scalar value from the front of a byte list,
rejecting overlong forms, surrogates and out-of-range codepoints exactly as
`std::str::from_utf8` does. -/
def utf8DecChar : List Nat → Option (Nat × List Nat)
  | [] => none
  | b :: r =>
    if b < 0x80 then some (b, r)
    else if b < 0xC2 then none
    else if b < 0xE0 then
      match r with
      | b1 :: r1 =>
        if 0x80 ≤ b1 ∧ b1 < 0xC0 then some ((b - 0xC0) * 64 + (b1 - 0x80), r1)
        else none
      | [] => none
    else if b < 0xF0 then
      match r with
      | b1 :: b2 :: r2 =>
        if (0x80 ≤ b1 ∧ b1 < 0xC0) ∧ (0x80 ≤ b2 ∧ b2 < 0xC0) then
          if (b - 0xE0) * 4096 + (b1 - 0x80) * 64 + (b2 - 0x80) < 0x800 ∨
             (0xD800 ≤ (b - 0xE0) * 4096 + (b1 - 0x80) * 64 + (b2 - 0x80) ∧
              (b - 0xE0) * 4096 + (b1 - 0x80) * 64 + (b2 - 0x80) < 0xE000) then
            none
          else some ((b - 0xE0) * 4096 + (b1 - 0x80) * 64 + (b2 - 0x80), r2)
        else none
      | _ => none
    else if b < 0xF5 then
      match r with
      | b1 :: b2 :: b3 :: r3 =>
        if (0x80 ≤ b1 ∧ b1 < 0xC0) ∧ (0x80 ≤ b2 ∧ b2 < 0xC0) ∧
           (0x80 ≤ b3 ∧ b3 < 0xC0) then
          if (b - 0xF0) * 262144 + (b1 - 0x80) * 4096 + (b2 - 0x80) * 64 +
               (b3 - 0x80) < 0x10000 ∨
             0x110000 ≤ (b - 0xF0) * 262144 + (b1 - 0x80) * 4096 +
               (b2 - 0x80) * 64 + (b3 - 0x80) then
            none
          else
            some ((b - 0xF0) * 262144 + (b1 - 0x80) * 4096 + (b2 - 0x80) * 64 +
              (b3 - 0x80), r3)
        else none
      | _ => none
    else none

/-- Fuel-driven UTF-8 decoding of a whole byte list. -/
def utf8DecAux : Nat → List Nat → Option (List Nat)
  | _, [] => some []
  | 0, _ :: _ => none
  | fuel + 1, b :: r =>
    match utf8DecChar (b :: r) with
    | some (c, rest) => (utf8DecAux fuel rest).map (fun s => c :: s)
    | none => none

/-- UTF-8 decoding of a whole byte list (model of `std::str::from_utf8`). -/
def utf8Dec (l : List Nat) : Option (List Nat) := utf8DecAux l.length l

theorem utf8EncChar_length (c : Nat) : (utf8EncChar c).length = utf8Len c := by
  unfold utf8EncChar utf8Len
  split_ifs <;> rfl

theorem utf8Len_pos (c : Nat) : 1 ≤ utf8Len c := by
  unfold utf8Len; split_ifs <;> omega

theorem utf8DecChar_enc (c : Nat) (h : ValidChar c) (r : List Nat) :
    utf8DecChar (utf8EncChar c ++ r) = some (c, r) := by
  unfold ValidChar at h
  unfold utf8EncChar
  split_ifs with h1 h2 h3
  · simp only [List.cons_append, List.nil_append, utf8DecChar]
    rw [if_pos h1]
  · simp only [List.cons_append, List.nil_append, utf8DecChar]
    have hb : ¬ (0xC0 + c / 64 < 0x80) := by omega
    have hb2 : ¬ (0xC0 + c / 64 < 0xC2) := by omega
    have hb3 : 0xC0 + c / 64 < 0xE0 := by omega
    rw [if_neg hb, if_neg hb2, if_pos hb3]
    have hc : 0x80 ≤ 0x80 + c % 64 ∧ 0x80 + c % 64 < 0xC0 := by omega
    rw [if_pos hc]
    congr 1
    congr 1
    omega
  · simp only [List.cons_append, List.nil_append, utf8DecChar]
    have hb : ¬ (0xE0 + c / 4096 < 0x80) := by omega
    have hb2 : ¬ (0xE0 + c / 4096 < 0xC2) := by omega
    have hb3 : ¬ (0xE0 + c / 4096 < 0xE0) := by omega
    have hb4 : 0xE0 + c / 4096 < 0xF0 := by omega
    rw [if_neg hb, if_neg hb2, if_neg hb3, if_pos hb4]
    have hc : (0x80 ≤ 0x80 + c / 64 % 64 ∧ 0x80 + c / 64 % 64 < 0xC0) ∧
        (0x80 ≤ 0x80 + c % 64 ∧ 0x80 + c % 64 < 0xC0) := by omega
    rw [if_pos hc]
    have hval : (0xE0 + c / 4096 - 0xE0) * 4096 +
        (0x80 + c / 64 % 64 - 0x80) * 64 + (0x80 + c % 64 - 0x80) = c := by
      omega
    rw [hval]
    have hrange : ¬ (c < 0x800 ∨ (0xD800 ≤ c ∧ c < 0xE000)) := by omega
    rw [if_neg hrange]
  · simp only [List.cons_append, List.nil_append, utf8DecChar]
    have hcu : c < 0x110000 := by omega
    have hb : ¬ (0xF0 + c / 262144 < 0x80) := by omega
    have hb2 : ¬ (0xF0 + c / 262144 < 0xC2) := by omega
    have hb3 : ¬ (0xF0 + c / 262144 < 0xE0) := by omega
    have hb4 : ¬ (0xF0 + c / 262144 < 0xF0) := by omega
    have hb5 : 0xF0 + c / 262144 < 0xF5 := by omega
    rw [if_neg hb, if_neg hb2, if_neg hb3, if_neg hb4, if_pos hb5]
    have hc : (0x80 ≤ 0x80 + c / 4096 % 64 ∧ 0x80 + c / 4096 % 64 < 0xC0) ∧
        (0x80 ≤ 0x80 + c / 64 % 64 ∧ 0x80 + c / 64 % 64 < 0xC0) ∧
        (0x80 ≤ 0x80 + c % 64 ∧ 0x80 + c % 64 < 0xC0) := by omega
    rw [if_pos hc]
    have hval : (0xF0 + c / 262144 - 0xF0) * 262144 +
        (0x80 + c / 4096 % 64 - 0x80) * 4096 +
        (0x80 + c / 64 % 64 - 0x80) * 64 + (0x80 + c % 64 - 0x80) = c := by
      omega
    rw [hval]
    have hrange : ¬ (c < 0x10000 ∨ 0x110000 ≤ c) := by omega
    rw [if_neg hrange]

theorem utf8DecChar_sound {l : List Nat} {c : Nat} {r : List Nat}
    (h : utf8DecChar l = some (c, r)) :
    ValidChar c ∧ l = utf8EncChar c ++ r ∧ r.length < l.length := by
  match l with
  | [] => simp [utf8DecChar] at h
  | b :: t =>
    simp only [utf8DecChar] at h
    split_ifs at h with h1 h2 h3 h4
    · simp only [Option.some.injEq, Prod.mk.injEq] at h
      obtain ⟨hc, hr⟩ := h
      subst hc; subst hr
      refine ⟨Or.inl (by omega), ?_, by simp⟩
      unfold utf8EncChar
      rw [if_pos h1]
      simp
    · match t with
      | [] => simp at h
      | b1 :: r1 =>
        simp only at h
        split_ifs at h with hcont
        simp only [Option.some.injEq, Prod.mk.injEq] at h
        obtain ⟨hc, hr⟩ := h
        subst hc; subst hr
        constructor
        · exact Or.inl (by omega)
        constructor
        · unfold utf8EncChar
          have hge : ¬ ((b - 0xC0) * 64 + (b1 - 0x80) < 0x80) := by omega
          have hlt : (b - 0xC0) * 64 + (b1 - 0x80) < 0x800 := by omega
          rw [if_neg hge, if_pos hlt]
          simp only [List.cons_append, List.nil_append, List.cons.injEq, and_true]
          omega
        · simp only [List.length_cons]; omega
    · match t with
      | [] => simp at h
      | [b1] => simp at h
      | b1 :: b2 :: r2 =>
        simp only at h
        split_ifs at h with hcont hrange
        simp only [Option.some.injEq, Prod.mk.injEq] at h
        obtain ⟨hc, hr⟩ := h
        subst hc; subst hr
        constructor
        · unfold ValidChar; omega
        constructor
        · unfold utf8EncChar
          have hge : ¬ ((b - 0xE0) * 4096 + (b1 - 0x80) * 64 + (b2 - 0x80) < 0x80) := by
            omega
          have hge2 : ¬ ((b - 0xE0) * 4096 + (b1 - 0x80) * 64 + (b2 - 0x80) < 0x800) := by
            omega
          have hlt : (b - 0xE0) * 4096 + (b1 - 0x80) * 64 + (b2 - 0x80) < 0x10000 := by
            omega
          rw [if_neg hge, if_neg hge2, if_pos hlt]
          simp only [List.cons_append, List.nil_append, List.cons.injEq, and_true]
          omega
        · simp only [List.length_cons]; omega
    · match t with
      | [] => simp at h
      | [b1] => simp at h
      | [b1, b2] => simp at h
      | b1 :: b2 :: b3 :: r3 =>
        simp only at h
        split_ifs at h with hcont hrange
        simp only [Option.some.injEq, Prod.mk.injEq] at h
        obtain ⟨hc, hr⟩ := h
        subst hc; subst hr
        constructor
        · unfold ValidChar; omega
        constructor
        · unfold utf8EncChar
          have hge : ¬ ((b - 0xF0) * 262144 + (b1 - 0x80) * 4096 + (b2 - 0x80) * 64 +
              (b3 - 0x80) < 0x80) := by omega
          have hge2 : ¬ ((b - 0xF0) * 262144 + (b1 - 0x80) * 4096 + (b2 - 0x80) * 64 +
              (b3 - 0x80) < 0x800) := by omega
          have hge3 : ¬ ((b - 0xF0) * 262144 + (b1 - 0x80) * 4096 + (b2 - 0x80) * 64 +
              (b3 - 0x80) < 0x10000) := by omega
          rw [if_neg hge, if_neg hge2, if_neg hge3]
          simp only [List.cons_append, List.nil_append, List.cons.injEq, and_true]
          omega
        · simp only [List.length_cons]; omega

theorem utf8DecAux_enc (s : List Nat) (fuel : Nat) (h : ValidStr s)
    (hfuel : (utf8Enc s).length ≤ fuel) : utf8DecAux fuel (utf8Enc s) = some s := by
  induction s generalizing fuel with
  | nil => cases fuel <;> rfl
  | cons c cs ih =>
    have hvc : ValidChar c := h c (by simp)
    have hvs : ValidStr cs := fun x hx => h x (by simp [hx])
    have henc : utf8Enc (c :: cs) = utf8EncChar c ++ utf8Enc cs := rfl
    have hlen : 1 ≤ (utf8EncChar c).length := by
      rw [utf8EncChar_length]; exact utf8Len_pos c
    rw [henc] at hfuel ⊢
    have hlen2 : (utf8EncChar c ++ utf8Enc cs).length =
        (utf8EncChar c).length + (utf8Enc cs).length := by simp
    cases fuel with
    | zero => exact absurd hfuel (by omega)
    | succ fuel2 =>
      have hne : utf8EncChar c ++ utf8Enc cs ≠ [] := by
        intro hcontra
        have h0 : (utf8EncChar c).length + (utf8Enc cs).length = 0 := by
          rw [← hlen2, hcontra]
          rfl
        omega
      match hl : utf8EncChar c ++ utf8Enc cs with
      | [] => exact absurd hl hne
      | b :: rest =>
        show utf8DecAux (fuel2 + 1) (b :: rest) = some (c :: cs)
        unfold utf8DecAux
        rw [← hl, utf8DecChar_enc c hvc]
        simp only
        rw [ih fuel2 hvs (by omega)]
        rfl

theorem utf8Dec_enc (s : List Nat) (h : ValidStr s) : utf8Dec (utf8Enc s) = some s :=
  utf8DecAux_enc s (utf8Enc s).length h (le_refl _)

theorem utf8DecAux_sound (fuel : Nat) (l : List Nat) (s : List Nat)
    (h : utf8DecAux fuel l = some s) : utf8Enc s = l ∧ ValidStr s := by
  induction fuel generalizing l s with
  | zero =>
    match l with
    | [] =>
      simp only [utf8DecAux, Option.some.injEq] at h
      subst h
      exact ⟨rfl, fun c hc => absurd hc (List.not_mem_nil c)⟩
    | b :: t => simp [utf8DecAux] at h
  | succ fuel ih =>
    match l with
    | [] =>
      simp only [utf8DecAux, Option.some.injEq] at h
      subst h
      exact ⟨rfl, fun c hc => absurd hc (List.not_mem_nil c)⟩
    | b :: t =>
      unfold utf8DecAux at h
      split at h
      case h_2 => exact absurd h (by simp)
      case h_1 c rest hdc =>
        simp only [Option.map_eq_some'] at h
        obtain ⟨s2, hs2, hs⟩ := h
        subst hs
        obtain ⟨hvc, heq, _⟩ := utf8DecChar_sound hdc
        obtain ⟨henc, hvs⟩ := ih rest s2 hs2
        constructor
        · show utf8EncChar c ++ utf8Enc s2 = b :: t
          rw [henc, ← heq]
        · intro x hx
          rcases List.mem_cons.mp hx with hx | hx
          · subst hx; exact hvc
          · exact hvs x hx

theorem utf8Dec_sound {l s : List Nat} (h : utf8Dec l = some s) :
    utf8Enc s = l ∧ ValidStr s :=
  utf8DecAux_sound l.length l s h

theorem utf8Enc_append (a b : List Nat) :
    utf8Enc (a ++ b) = utf8Enc a ++ utf8Enc b := by
  induction a with
  | nil => rfl
  | cons c cs ih =>
    show utf8EncChar c ++ utf8Enc (cs ++ b) = (utf8EncChar c ++ utf8Enc cs) ++ utf8Enc b
    rw [ih, List.append_assoc]

/-! ## Unicode whitespace and `str::trim` -/

/-- Codepoints with the White_Space property, as tested by `char::is_whitespace`. -/
def wsChars : List Nat :=
  [0x09, 0x0A, 0x0B, 0x0C, 0x0D, 0x20, 0x85, 0xA0, 0x1680,
   0x2000, 0x2001, 0x2002, 0x2003, 0x2004, 0x2005, 0x2006, 0x2007,
   0x2008, 0x2009, 0x200A, 0x2028, 0x2029, 0x202F, 0x205F, 0x3000]

/-- Boolean model of `char::is_whitespace`. -/
def isWs (c : Nat) : Bool := wsChars.contains c

/-- Model of `str::trim`: drop whitespace characters from both ends. -/
def trimStr (s : List Nat) : List Nat :=
  ((s.dropWhile isWs).reverse.dropWhile isWs).reverse

/-! ## SHA-256 (the `sha2` crate's `Sha256::digest`) -/

/-- Reduction modulo 2^32, the wrap-around of 32-bit words. -/
def w32 (n : Nat) : Nat := n % 4294967296

/-- Right rotation of a 32-bit word by `n` places. -/
def rotr32 (x n : Nat) : Nat := w32 (x / 2 ^ n + x * 2 ^ (32 - n))

/-- SHA-256 choice function. -/
def shaCh (x y z : Nat) : Nat := (x &&& y) ^^^ ((x ^^^ 0xFFFFFFFF) &&& z)

/-- SHA-256 majority function. -/
def shaMaj (x y z : Nat) : Nat := (x &&& y) ^^^ (x &&& z) ^^^ (y &&& z)

/-- SHA-256 big sigma 0. -/
def bsig0 (x : Nat) : Nat := rotr32 x 2 ^^^ rotr32 x 13 ^^^ rotr32 x 22

/-- SHA-256 big sigma 1. -/
def bsig1 (x : Nat) : Nat := rotr32 x 6 ^^^ rotr32 x 11 ^^^ rotr32 x 25

/-- SHA-256 small sigma 0. -/
def ssig0 (x : Nat) : Nat := rotr32 x 7 ^^^ rotr32 x 18 ^^^ x / 8

/-- SHA-256 small sigma 1. -/
def ssig1 (x : Nat) : Nat := rotr32 x 17 ^^^ rotr32 x 19 ^^^ x / 1024

/-- SHA-256 round constants. -/
def sha256K : List Nat :=
  [1116352408, 1899447441, 3049323471, 3921009573, 961987163, 1508970993,
   2453635748, 2870763221, 3624381080, 310598401, 607225278, 1426881987,
   1925078388, 2162078206, 2614888103, 3248222580, 3835390401, 4022224774,
   264347078, 604807628, 770255983, 1249150122, 1555081692, 1996064986,
   2554220882, 2821834349, 2952996808, 3210313671, 3336571891, 3584528711,
   113926993, 338241895, 666307205, 773529912, 1294757372, 1396182291,
   1695183700, 1986661051, 2177026350, 2456956037, 2730485921, 2820302411,
   3259730800, 3345764771, 3516065817, 3600352804, 4094571909, 275423344,
   430227734, 506948616, 659060556, 883997877, 958139571, 1322822218,
   1537002063, 1747873779, 1955562222, 2024104815, 2227730452, 2361852424,
   2428436474, 2756734187, 3204031479, 3329325298]

/-- SHA-256 initial hash state. -/
def sha256Init : List Nat :=
  [1779033703, 3144134277, 1013904242, 2773480762, 1359893119, 2600822924,
   528734635, 1541459225]

/-- Big-endian packing of bytes into 32-bit words. -/
def bytesToWordsBE : List Nat → List Nat
  | b0 :: b1 :: b2 :: b3 :: rest =>
    (((b0 * 256 + b1) * 256 + b2) * 256 + b3) :: bytesToWordsBE rest
  | _ => []

/-- Big-endian byte encoding of a 32-bit word. -/
def be32 (n : Nat) : List Nat :=
  [n / 16777216 % 256, n / 65536 % 256, n / 256 % 256, n % 256]

/-- Big-endian byte encoding of a 64-bit value. -/
def be64 (n : Nat) : List Nat :=
  [n / 72057594037927936 % 256, n / 281474976710656 % 256,
   n / 1099511627776 % 256, n / 4294967296 % 256,
   n / 16777216 % 256, n / 65536 % 256, n / 256 % 256, n % 256]

/-- One extension step of the SHA-256 message schedule. -/
def schedStep (ws : List Nat) : List Nat :=
  ws ++ [w32 (ssig1 (ws.getD (ws.length - 2) 0) + ws.getD (ws.length - 7) 0 +
    ssig0 (ws.getD (ws.length - 15) 0) + ws.getD (ws.length - 16) 0)]

/-- Full 64-word SHA-256 message schedule from a 16-word block. -/
def schedule (ws : List Nat) : List Nat :=
  (List.range 48).foldl (fun acc _ => schedStep acc) ws

/-- One SHA-256 compression round applied to the eight working variables. -/
def compress1 (s : List Nat) (kw : Nat × Nat) : List Nat :=
  match s with
  | [a, b, c, d, e, f, g, h] =>
    [w32 (w32 (h + bsig1 e + shaCh e f g + kw.1 + kw.2) +
       w32 (bsig0 a + shaMaj a b c)),
     a, b, c,
     w32 (d + w32 (h + bsig1 e + shaCh e f g + kw.1 + kw.2)),
     e, f, g]
  | _ => s

/-- Process one 64-byte block into a running SHA-256 state. -/
def processBlock (h0 : List Nat) (block : List Nat) : List Nat :=
  let ws := schedule (bytesToWordsBE block)
  let s := (sha256K.zip ws).foldl compress1 h0
  List.zipWith (fun x y => w32 (x + y)) h0 s

/-- SHA-256 padding: append 0x80, zeros, and the 64-bit big-endian bit length. -/
def sha256Pad (msg : List Nat) : List Nat :=
  msg ++ 0x80 :: (List.replicate ((119 - msg.length % 64) % 64) 0 ++
    be64 (8 * msg.length))

/-- Fuel-driven split of a byte list into 64-byte blocks. -/
def splitBlocksAux : Nat → List Nat → List (List Nat)
  | _, [] => []
  | 0, _ :: _ => []
  | fuel + 1, b :: r => (b :: r).take 64 :: splitBlocksAux fuel ((b :: r).drop 64)

/-- SHA-256 digest of a byte list (model of `Sha256::digest`). -/
def sha256 (msg : List Nat) : List Nat :=
  let p := sha256Pad msg
  let hs := (splitBlocksAux p.length p).foldl processBlock sha256Init
  hs.foldr (fun word acc => be32 word ++ acc) []

theorem compress1_length {s : List Nat} (h : s.length = 8) (kw : Nat × Nat) :
    (compress1 s kw).length = 8 := by
  match s, h with
  | [a, b, c, d, e, f, g, h8], _ => rfl

theorem foldl_compress1_length {l : List (Nat × Nat)} {s : List Nat}
    (h : s.length = 8) : (l.foldl compress1 s).length = 8 := by
  induction l generalizing s with
  | nil => exact h
  | cons kw rest ih => exact ih (compress1_length h kw)

theorem processBlock_length {h0 : List Nat} (h : h0.length = 8)
    (block : List Nat) : (processBlock h0 block).length = 8 := by
  unfold processBlock
  rw [List.length_zipWith, h, foldl_compress1_length h]
  rfl

theorem foldl_processBlock_length {bs : List (List Nat)} {h0 : List Nat}
    (h : h0.length = 8) : (bs.foldl processBlock h0).length = 8 := by
  induction bs generalizing h0 with
  | nil => exact h
  | cons b rest ih => exact ih (processBlock_length h b)

theorem sha256_length (msg : List Nat) : (sha256 msg).length = 32 := by
  unfold sha256
  simp only
  have h8 : ((splitBlocksAux (sha256Pad msg).length (sha256Pad msg)).foldl
      processBlock sha256Init).length = 8 := foldl_processBlock_length rfl
  generalize hs :
    (splitBlocksAux (sha256Pad msg).length (sha256Pad msg)).foldl
      processBlock sha256Init = l at h8
  match l, h8 with
  | [a, b, c, d, e, f, g, h], _ => rfl

theorem sha256_lt_256 (msg : List Nat) : ∀ b ∈ sha256 msg, b < 256 := by
  unfold sha256
  simp only
  generalize (splitBlocksAux (sha256Pad msg).length (sha256Pad msg)).foldl
      processBlock sha256Init = l
  induction l with
  | nil => intro b hb; exact absurd hb (List.not_mem_nil b)
  | cons w rest ih =>
    intro b hb
    simp only [List.foldr_cons] at hb
    rcases List.mem_append.mp hb with hb | hb
    · unfold be32 at hb
      simp only [List.mem_cons, List.not_mem_nil] at hb
      rcases hb with h | h | h | h | h <;> first | (subst h; omega) | exact absurd h (by simp)
    · exact ih b hb

/-! ## HMAC-SHA-256 and HKDF-SHA-256 (the `hkdf` crate) -/

/-- HMAC key normalization: hash long keys, zero-pad to the 64-byte block. -/
def hmacKey (k : List Nat) : List Nat :=
  let k0 := if k.length > 64 then sha256 k else k
  k0 ++ List.replicate (64 - k0.length) 0

/-- HMAC-SHA-256 of a message under a key. -/
def hmac (key msg : List Nat) : List Nat :=
  let k0 := hmacKey key
  sha256 ((k0.map (fun b => b ^^^ 0x5c)) ++
    sha256 ((k0.map (fun b => b ^^^ 0x36)) ++ msg))

theorem hmac_length (key msg : List Nat) : (hmac key msg).length = 32 :=
  sha256_length _

/-- HKDF-SHA-256 extract step: `Hkdf::new(Some(salt), ikm)`. -/
def hkdfExtract (salt ikm : List Nat) : List Nat := hmac salt ikm

/-- HKDF-SHA-256 expand to 32 bytes: the single output block
`T(1) = HMAC(prk, info || 0x01)`. -/
def hkdfExpand32 (prk info : List Nat) : List Nat := hmac prk (info ++ [1])

theorem hkdfExpand32_length (prk info : List Nat) :
    (hkdfExpand32 prk info).length = 32 := sha256_length _

/-! ## ChaCha20, Poly1305 and XChaCha20-Poly1305
(the `chacha20poly1305` crate) -/

/-- Left rotation of a 32-bit word by `n` places. -/
def rotl32 (x n : Nat) : Nat := w32 (x * 2 ^ n + x / 2 ^ (32 - n))

/-- List read with default 0, for the 16-word ChaCha state. -/
def lget (s : List Nat) (i : Nat) : Nat := s.getD i 0

/-- ChaCha quarter round on state positions `ia ib ic id`. -/
def qround (s : List Nat) (ia ib ic id : Nat) : List Nat :=
  let a0 := w32 (lget s ia + lget s ib)
  let d0 := rotl32 (lget s id ^^^ a0) 16
  let c0 := w32 (lget s ic + d0)
  let b0 := rotl32 (lget s ib ^^^ c0) 12
  let a1 := w32 (a0 + b0)
  let d1 := rotl32 (d0 ^^^ a1) 8
  let c1 := w32 (c0 + d1)
  let b1 := rotl32 (b0 ^^^ c1) 7
  (((s.set ia a1).set ib b1).set ic c1).set id d1

/-- ChaCha double round: four column rounds then four diagonal rounds. -/
def doubleRound (s : List Nat) : List Nat :=
  qround (qround (qround (qround (qround (qround (qround (qround s
    0 4 8 12) 1 5 9 13) 2 6 10 14) 3 7 11 15)
    0 5 10 15) 1 6 11 12) 2 7 8 13) 3 4 9 14

/-- Twenty ChaCha rounds (ten double rounds). -/
def rounds20 (s : List Nat) : List Nat :=
  (List.range 10).foldl (fun t _ => doubleRound t) s

/-- Little-endian packing of bytes into 32-bit words. -/
def bytesToWordsLE : List Nat → List Nat
  | b0 :: b1 :: b2 :: b3 :: rest => le4 b0 b1 b2 b3 :: bytesToWordsLE rest
  | _ => []

/-- Little-endian serialization of 32-bit words into bytes. -/
def wordsToBytesLE (ws : List Nat) : List Nat :=
  ws.foldr (fun word acc => u32le word ++ acc) []

/-- ChaCha state constants, the ASCII of "expand 32-byte k". -/
def chachaConsts : List Nat := [0x61707865, 0x3320646e, 0x79622d32, 0x6b206574]

/-- Initial ChaCha20 state from a 32-byte key, block counter and 12-byte nonce. -/
def chachaInit (key : List Nat) (counter : Nat) (nonce : List Nat) : List Nat :=
  chachaConsts ++ bytesToWordsLE key ++ [w32 counter] ++ bytesToWordsLE nonce

/-- One 64-byte ChaCha20 keystream block. -/
def chachaBlock (key : List Nat) (counter : Nat) (nonce : List Nat) : List Nat :=
  let st := chachaInit key counter nonce
  wordsToBytesLE (List.zipWith (fun x y => w32 (x + y)) st (rounds20 st))

/-- HChaCha20: twenty rounds without the final add; output words 0-3 and
12-15 as the 32-byte subkey. -/
def hchacha20 (key nonce16 : List Nat) : List Nat :=
  let st := chachaConsts ++ bytesToWordsLE key ++ bytesToWordsLE nonce16
  let r := rounds20 st
  wordsToBytesLE (r.take 4 ++ (r.drop 12).take 4)

/-- Byte `i` of the ChaCha20 keystream used for the payload, whose block
counter starts at 1. -/
def chachaKeystreamByte (key nonce : List Nat) (i : Nat) : Nat :=
  lget (chachaBlock key (1 + i / 64) nonce) (i % 64)

/-- XOR of a message with the payload keystream. -/
def xorStream (key nonce msg : List Nat) : List Nat :=
  List.zipWith Nat.xor msg ((List.range msg.length).map (chachaKeystreamByte key nonce))

/-- Little-endian value of a byte list. -/
def leNum (l : List Nat) : Nat := l.foldr (fun b acc => b + 256 * acc) 0

/-- Little-endian 16-byte encoding of a 128-bit value. -/
def le128 (n : Nat) : List Nat := (List.range 16).map (fun i => n / 256 ^ i % 256)

/-- Poly1305 clamp of the `r` part of the key. -/
def clampR (r : Nat) : Nat := r &&& 0x0ffffffc0ffffffc0ffffffc0fffffff

/-- Fuel-driven Poly1305 accumulation over 16-byte chunks. -/
def polyBlocksAux : Nat → Nat → Nat → List Nat → Nat
  | _, acc, _, [] => acc
  | 0, acc, _, _ :: _ => acc
  | fuel + 1, acc, r, b :: l =>
    polyBlocksAux fuel
      (((acc + (leNum ((b :: l).take 16) + 2 ^ (8 * ((b :: l).take 16).length))) * r) %
        (2 ^ 130 - 5))
      r ((b :: l).drop 16)

/-- Poly1305 MAC of a message under a 32-byte one-time key. -/
def poly1305 (pkey msg : List Nat) : List Nat :=
  let r := clampR (leNum (pkey.take 16))
  let s := leNum ((pkey.drop 16).take 16)
  le128 ((polyBlocksAux msg.length 0 r msg + s) % 2 ^ 128)

/-- Zero padding of a byte list to a 16-byte boundary. -/
def pad16 (l : List Nat) : List Nat := List.replicate ((16 - l.length % 16) % 16) 0

/-- ChaCha20-Poly1305 authentication tag over AAD and ciphertext, keyed by
keystream block 0. -/
def chachaPolyTag (key nonce aad ct : List Nat) : List Nat :=
  poly1305 ((chachaBlock key 0 nonce).take 32)
    (aad ++ pad16 aad ++ ct ++ pad16 ct ++ u64le aad.length ++ u64le ct.length)

/-- XChaCha20-Poly1305 seal (`cipher.encrypt`): ciphertext followed by the
16-byte tag. -/
def xchachaSeal (key nonce24 aad msg : List Nat) : List Nat :=
  let sub := hchacha20 key (nonce24.take 16)
  let n12 := [0, 0, 0, 0] ++ nonce24.drop 16
  let ct := xorStream sub n12 msg
  ct ++ chachaPolyTag sub n12 aad ct

/-- XChaCha20-Poly1305 open (`cipher.decrypt`): verify the trailing tag and
return the decrypted payload, or `none` on authentication failure. -/
def xchachaOpen (key nonce24 aad data : List Nat) : Option (List Nat) :=
  if data.length < 16 then none
  else
    let sub := hchacha20 key (nonce24.take 16)
    let n12 := [0, 0, 0, 0] ++ nonce24.drop 16
    let ct := data.take (data.length - 16)
    let tag := data.drop (data.length - 16)
    if tag = chachaPolyTag sub n12 aad ct then some (xorStream sub n12 ct)
    else none

theorem xorStream_length (key nonce msg : List Nat) :
    (xorStream key nonce msg).length = msg.length := by
  unfold xorStream
  simp

theorem zipWith_xor_cancel (msg : List Nat) :
    ∀ ks : List Nat, msg.length ≤ ks.length →
      List.zipWith Nat.xor (List.zipWith Nat.xor msg ks) ks = msg := by
  induction msg with
  | nil => intro ks h; simp
  | cons m ms ih =>
    intro ks h
    match ks with
    | [] => simp at h
    | k :: kt =>
      simp only [List.zipWith_cons_cons, List.cons.injEq]
      refine ⟨?_, ih kt (by simpa using h)⟩
      show m ^^^ k ^^^ k = m
      rw [Nat.xor_assoc, Nat.xor_self, Nat.xor_zero]

theorem xorStream_involutive (key nonce msg : List Nat) :
    xorStream key nonce (xorStream key nonce msg) = msg := by
  unfold xorStream
  rw [show (List.zipWith Nat.xor msg
      ((List.range msg.length).map (chachaKeystreamByte key nonce))).length =
      msg.length from by simp]
  exact zipWith_xor_cancel msg _ (by simp)

theorem le128_length (n : Nat) : (le128 n).length = 16 := by
  unfold le128
  simp

theorem chachaPolyTag_length (key nonce aad ct : List Nat) :
    (chachaPolyTag key nonce aad ct).length = 16 := le128_length _

theorem xchachaOpen_seal (key nonce24 aad msg : List Nat) :
    xchachaOpen key nonce24 aad (xchachaSeal key nonce24 aad msg) = some msg := by
  unfold xchachaSeal xchachaOpen
  simp only
  set sub := hchacha20 key (nonce24.take 16) with hsub
  set n12 := [0, 0, 0, 0] ++ nonce24.drop 16 with hn12
  set ct := xorStream sub n12 msg with hct
  have hctlen : ct.length = msg.length := xorStream_length _ _ _
  have htaglen : (chachaPolyTag sub n12 aad ct).length = 16 := chachaPolyTag_length _ _ _ _
  have hlen : (ct ++ chachaPolyTag sub n12 aad ct).length = msg.length + 16 := by
    simp [hctlen, htaglen]
  rw [hlen]
  have hnotlt : ¬ (msg.length + 16 < 16) := by omega
  rw [if_neg hnotlt]
  have hctl : ct.length = msg.length + 16 - 16 := by omega
  have htake : (ct ++ chachaPolyTag sub n12 aad ct).take (msg.length + 16 - 16) = ct :=
    List.take_left' hctl
  have hdrop : (ct ++ chachaPolyTag sub n12 aad ct).drop (msg.length + 16 - 16) =
      chachaPolyTag sub n12 aad ct := List.drop_left' hctl
  rw [htake, hdrop, if_pos rfl, hct, xorStream_involutive]

/-! ## Association lists (model of `std::collections::HashMap`)
Only cardinality and per-key lookup are observable in the claims, so the
iteration order of the Rust hash map is irrelevant. -/

/-- Lookup in an association list. -/
def alookup {α β : Type} [DecidableEq α] : List (α × β) → α → Option β
  | [], _ => none
  | (k2, v) :: t, k => if k2 = k then some v else alookup t k

/-- Insert-or-replace in an association list (`HashMap::insert`). -/
def ainsert {α β : Type} [DecidableEq α] : List (α × β) → α → β → List (α × β)
  | [], k, v => [(k, v)]
  | (k2, v2) :: t, k, v =>
    if k2 = k then (k, v) :: t else (k2, v2) :: ainsert t k v

/-- Remove a key from an association list (`HashMap::remove`). -/
def aremove {α β : Type} [DecidableEq α] : List (α × β) → α → List (α × β)
  | [], _ => []
  | (k2, v2) :: t, k => if k2 = k then t else (k2, v2) :: aremove t k

/-- Keys of an association list. -/
def akeys {α β : Type} (m : List (α × β)) : List α := m.map Prod.fst

theorem alookup_ainsert_self {α β : Type} [DecidableEq α]
    (m : List (α × β)) (k : α) (v : β) : alookup (ainsert m k v) k = some v := by
  induction m with
  | nil => simp [ainsert, alookup]
  | cons kv t ih =>
    obtain ⟨k2, v2⟩ := kv
    by_cases h : k2 = k
    · subst h; simp [ainsert, alookup]
    · simp [ainsert, alookup, h, ih]

theorem alookup_ainsert_ne {α β : Type} [DecidableEq α]
    (m : List (α × β)) (k k2 : α) (v : β) (h : k ≠ k2) :
    alookup (ainsert m k v) k2 = alookup m k2 := by
  induction m with
  | nil => simp [ainsert, alookup, h]
  | cons kv t ih =>
    obtain ⟨k3, v3⟩ := kv
    by_cases h3 : k3 = k
    · subst h3; simp [ainsert, alookup, h]
    · by_cases h4 : k3 = k2 <;> simp [ainsert, alookup, h3, h4, Ne.symm h, ih]

/-! ## ASCII helpers -/

/-- Codepoints of an ASCII literal. -/
def ascii (s : String) : List Nat := s.toList.map (fun c => c.toNat)

/-- Decimal digit bytes, fuel-driven so the kernel can evaluate it
(`fuel > n` suffices: the digit count never exceeds the value). -/
def natLitAux : Nat → Nat → List Nat
  | 0, _ => []
  | fuel + 1, n =>
    if n < 10 then [48 + n] else natLitAux fuel (n / 10) ++ [48 + n % 10]

/-- Decimal digit bytes of a natural number, most significant first
(the output of Rust by-value `Display` for unsigned integers and of
`serde_json` for `u64`). -/
def natLit (n : Nat) : List Nat := natLitAux (n + 1) n

theorem natLitAux_irrel :
    ∀ (fuel fuel2 n : Nat), n < fuel → n < fuel2 →
      natLitAux fuel n = natLitAux fuel2 n := by
  intro fuel
  induction fuel with
  | zero => intro fuel2 n h _; omega
  | succ f ih =>
    intro fuel2 n h h2
    obtain ⟨f2, rfl⟩ : ∃ f2, fuel2 = f2 + 1 := ⟨fuel2 - 1, by omega⟩
    show (if n < 10 then [48 + n] else natLitAux f (n / 10) ++ [48 + n % 10]) =
      (if n < 10 then [48 + n] else natLitAux f2 (n / 10) ++ [48 + n % 10])
    by_cases h10 : n < 10
    · rw [if_pos h10, if_pos h10]
    · rw [if_neg h10, if_neg h10]
      have hdiv : n / 10 < n := Nat.div_lt_self (by omega) (by omega)
      rw [ih f2 (n / 10) (by omega) (by omega)]

/-- The defining recurrence of `natLit`. -/
theorem natLit_eq (n : Nat) : natLit n =
    if n < 10 then [48 + n] else natLit (n / 10) ++ [48 + n % 10] := by
  show (if n < 10 then [48 + n] else natLitAux n (n / 10) ++ [48 + n % 10]) = _
  by_cases h10 : n < 10
  · rw [if_pos h10, if_pos h10]
  · rw [if_neg h10, if_neg h10]
    have hdiv : n / 10 < n := Nat.div_lt_self (by omega) (by omega)
    rw [natLitAux_irrel n (n / 10 + 1) (n / 10) (by omega) (by omega)]
    rfl

/-- Decimal value of digit bytes. -/
def digitsVal (l : List Nat) : Nat := l.foldl (fun a d => a * 10 + (d - 48)) 0

theorem digitsVal_append (xs : List Nat) (d : Nat) :
    digitsVal (xs ++ [d]) = digitsVal xs * 10 + (d - 48) := by
  unfold digitsVal
  rw [List.foldl_append]
  rfl

theorem natLit_val (n : Nat) : digitsVal (natLit n) = n := by
  induction n using Nat.strong_induction_on with
  | _ n ih =>
    by_cases h : n < 10
    · rw [natLit_eq, if_pos h]
      show (0 * 10 + (48 + n - 48)) = n
      omega
    · rw [natLit_eq, if_neg h]
      rw [digitsVal_append, ih (n / 10) (Nat.div_lt_self (by omega) (by omega))]
      omega

theorem natLit_inj {m n : Nat} (h : natLit m = natLit n) : m = n := by
  have hm := natLit_val m
  have hn := natLit_val n
  rw [h] at hm
  omega

theorem natLit_digits (n : Nat) : ∀ b ∈ natLit n, 48 ≤ b ∧ b ≤ 57 := by
  induction n using Nat.strong_induction_on with
  | _ n ih =>
    by_cases h : n < 10
    · rw [natLit_eq, if_pos h]
      intro b hb
      simp only [List.mem_singleton] at hb
      omega
    · rw [natLit_eq, if_neg h]
      intro b hb
      rcases List.mem_append.mp hb with hb | hb
      · exact ih (n / 10) (Nat.div_lt_self (by omega) (by omega)) b hb
      · simp only [List.mem_singleton] at hb
        omega

/-- Lowercase hex digit byte. -/
def hexDigitL (d : Nat) : Nat := if d < 10 then 48 + d else 87 + d

/-- Lowercase hex encoding of a byte list (the `hex` crate's `encode`). -/
def hexEncode : List Nat → List Nat
  | [] => []
  | b :: t => hexDigitL (b / 16) :: hexDigitL (b % 16) :: hexEncode t

/-! ## cliprelay-core data model -/

/-- Error type of cliprelay-core (`CoreError`). The `Serialization` message
string is not inspected by any caller and is dropped in the model. -/
inductive CoreError : Type
  | emptyRoomCode
  | invalidMime
  | clipboardTooLarge
  | invalidFrameLength
  | unsupportedMessageType (t : Nat)
  | serialization
  | decryptionFailed
  | payloadIdentityMismatch
  | keyDerivationFailed
  | replayRejected (sender : List Nat) (counter : Nat) (last_seen : Nat)
deriving DecidableEq

/-- Plaintext clipboard event (`ClipboardEventPlaintext`). Strings are
codepoint lists. -/
structure ClipboardEventPlaintext : Type where
  sender_device_id : List Nat
  counter : Nat
  timestamp_unix_ms : Nat
  mime : List Nat
  text_utf8 : List Nat
deriving DecidableEq

/-- Encrypted envelope (`EncryptedPayload`); the ciphertext is a byte list. -/
structure EncryptedPayload : Type where
  sender_device_id : List Nat
  counter : Nat
  ciphertext : List Nat
deriving DecidableEq

/-- The HKDF info constant `b"cliprelay v1 room key"`. -/
def ROOM_KEY_INFO : List Nat := ascii "cliprelay v1 room key"

/-- The AAD constant `b"cliprelay:v1"`. -/
def AAD : List Nat := ascii "cliprelay:v1"

/-- Sort device ids as Rust `Vec::sort` does on `String`. Rust compares the
UTF-8 bytes lexicographically, which on valid scalar-value strings coincides
with lexicographic order on the codepoint lists used here. -/
def sortStrings (l : List (List Nat)) : List (List Nat) :=
  l.mergeSort (fun a b => decide (a ≤ b))

/-- Concatenation of the UTF-8 bytes of a list of strings, in order, as fed
to the hasher in `compute_device_list_hash`. -/
def concatBytes : List (List Nat) → List Nat
  | [] => []
  | s :: t => utf8Enc s ++ concatBytes t

/-- Model of `compute_device_list_hash`: SHA-256 of the sorted device ids. -/
def compute_device_list_hash (device_ids : List (List Nat)) : List Nat :=
  sha256 (concatBytes (sortStrings device_ids))

/-- Model of `derive_room_key`: reject an empty (after trim) room code, then
HKDF-SHA-256 with the device-list hash as salt and the hash of the room code
as input keying material. The expand step cannot fail for a 32-byte output. -/
def derive_room_key (room_code : List Nat) (device_ids : List (List Nat)) :
    Except CoreError (List Nat) :=
  if trimStr room_code = [] then .error .emptyRoomCode
  else
    .ok (hkdfExpand32
      (hkdfExtract (compute_device_list_hash device_ids) (sha256 (utf8Enc room_code)))
      ROOM_KEY_INFO)

/-- Model of `build_nonce`: first 16 bytes of SHA-256 of the sender id,
followed by the counter as 8 little-endian bytes. -/
def build_nonce (sender_device_id : List Nat) (counter : Nat) : List Nat :=
  (sha256 (utf8Enc sender_device_id)).take 16 ++ u64le counter

/-- Model of `validate_counter` over an association-list replay table,
returning the updated table on acceptance. -/
def validate_counter (last_seen_by_sender : List (List Nat × Nat))
    (sender_device_id : List Nat) (counter : Nat) :
    Except CoreError (List (List Nat × Nat)) :=
  match alookup last_seen_by_sender sender_device_id with
  | some previous =>
    if counter ≤ previous then
      .error (.replayRejected sender_device_id counter previous)
    else .ok (ainsert last_seen_by_sender sender_device_id counter)
  | none => .ok (ainsert last_seen_by_sender sender_device_id counter)

theorem sortStrings_perm_eq {l l2 : List (List Nat)} (h : l.Perm l2) :
    sortStrings l = sortStrings l2 := by
  unfold sortStrings
  apply List.eq_of_perm_of_sorted (r := fun a b : List Nat => a ≤ b)
  · exact (List.mergeSort_perm l _).trans (h.trans (List.mergeSort_perm l2 _).symm)
  all_goals
    apply List.Pairwise.imp (fun hab => of_decide_eq_true hab)
    apply List.sorted_mergeSort
    · intro a b c hab hbc
      exact decide_eq_true (le_trans (of_decide_eq_true hab) (of_decide_eq_true hbc))
    · intro a b
      rcases le_total a b with h2 | h2 <;> simp [h2]

/-- Claim C2: for every room code that is non-empty after trimming and every
permutation of the device-id list, `derive_room_key` succeeds and returns the
same 32-byte key. -/
theorem derive_room_key_order_independent (room_code : List Nat)
    (ids ids2 : List (List Nat)) (hperm : ids.Perm ids2)
    (hcode : trimStr room_code ≠ []) :
    derive_room_key room_code ids = derive_room_key room_code ids2 ∧
    ∃ k, derive_room_key room_code ids = .ok k ∧ k.length = 32 := by
  have hhash : compute_device_list_hash ids = compute_device_list_hash ids2 := by
    unfold compute_device_list_hash
    rw [sortStrings_perm_eq hperm]
  constructor
  · unfold derive_room_key
    rw [hhash]
  · unfold derive_room_key
    rw [if_neg hcode]
    exact ⟨_, rfl, hkdfExpand32_length _ _⟩

/-- Witness for claim C2 at the concrete inputs of the repository test
`key_derivation_determinism`, shrunk to two device ids. -/
theorem derive_room_key_order_independent_witness :
    derive_room_key [114] [[98], [97]] = derive_room_key [114] [[97], [98]] ∧
    ∃ k, derive_room_key [114] [[98], [97]] = .ok k ∧ k.length = 32 :=
  derive_room_key_order_independent [114] [[98], [97]] [[97], [98]]
    (by decide) (by decide)

/-- Claim C3 counterexample: the negation of nonce uniqueness over all
distinct `(sender, counter)` pairs. Infinitely many senders share the same
16-byte SHA-256 prefix by pigeonhole, and two such senders with equal
counters collide. -/
theorem build_nonce_not_injective :
    ¬ (∀ (s s2 : List Nat) (c c2 : Nat), ValidStr s → ValidStr s2 →
        c < 18446744073709551616 → c2 < 18446744073709551616 →
        (s, c) ≠ (s2, c2) → build_nonce s c ≠ build_nonce s2 c2) := by
  intro h
  obtain ⟨x, y, hxy, hf⟩ := Finite.exists_ne_map_eq_of_infinite
    (fun n : Nat => (fun i : Fin 16 =>
      (⟨(sha256 (utf8Enc (natLit n))).getD i.val 0 % 256,
        Nat.mod_lt _ (by omega)⟩ : Fin 256)))
  have hval : ∀ n : Nat, ValidStr (natLit n) := by
    intro n b hb
    have := natLit_digits n b hb
    exact Or.inl (by omega)
  have hne : (natLit x, (0 : Nat)) ≠ (natLit y, 0) := by
    intro hp
    exact hxy (natLit_inj (congrArg Prod.fst hp))
  have htake : (sha256 (utf8Enc (natLit x))).take 16 =
      (sha256 (utf8Enc (natLit y))).take 16 := by
    apply List.ext_getElem
    · simp [sha256_length]
    · intro i h1 h2
      have hi : i < 16 := by
        have := (sha256 (utf8Enc (natLit x))).length_take_le 16
        simp [sha256_length] at h1
        omega
      have hxlen : i < (sha256 (utf8Enc (natLit x))).length := by
        rw [sha256_length]; omega
      have hylen : i < (sha256 (utf8Enc (natLit y))).length := by
        rw [sha256_length]; omega
      have hfi := congrFun hf ⟨i, hi⟩
      have hfx : (sha256 (utf8Enc (natLit x))).getD i 0 % 256 =
          (sha256 (utf8Enc (natLit y))).getD i 0 % 256 :=
        congrArg Fin.val hfi
      rw [List.getD_eq_getElem _ _ hxlen, List.getD_eq_getElem _ _ hylen] at hfx
      have hbx : (sha256 (utf8Enc (natLit x)))[i] < 256 :=
        sha256_lt_256 _ _ (List.getElem_mem hxlen)
      have hby : (sha256 (utf8Enc (natLit y)))[i] < 256 :=
        sha256_lt_256 _ _ (List.getElem_mem hylen)
      rw [Nat.mod_eq_of_lt hbx, Nat.mod_eq_of_lt hby] at hfx
      simpa using hfx
  have heq : build_nonce (natLit x) 0 = build_nonce (natLit y) 0 := by
    unfold build_nonce
    rw [htake]
  exact h (natLit x) (natLit y) 0 0 (hval x) (hval y) (by omega) (by omega) hne heq

/-- Claim C3 amended: distinct pairs give distinct nonces whenever the sender
is the same and the (64-bit) counters differ, or the 16-byte SHA-256 prefixes
of the two senders differ. -/
theorem build_nonce_inj (s s2 : List Nat) (c c2 : Nat)
    (hc : c < 18446744073709551616) (hc2 : c2 < 18446744073709551616)
    (h : (s = s2 ∧ c ≠ c2) ∨
      (sha256 (utf8Enc s)).take 16 ≠ (sha256 (utf8Enc s2)).take 16) :
    build_nonce s c ≠ build_nonce s2 c2 := by
  intro heq
  unfold build_nonce at heq
  have hlen : ((sha256 (utf8Enc s)).take 16).length =
      ((sha256 (utf8Enc s2)).take 16).length := by
    simp [sha256_length]
  obtain ⟨hpre, hsuf⟩ := List.append_inj heq hlen
  rcases h with ⟨hs, hcne⟩ | hpne
  · exact hcne (u64le_inj hc hc2 hsuf)
  · exact hpne hpre

/-- Witness for the amended claim C3: same sender, counters 0 and 1. -/
theorem build_nonce_inj_witness : build_nonce [97] 0 ≠ build_nonce [97] 1 :=
  build_nonce_inj [97] [97] 0 1 (by omega) (by omega)
    (Or.inl ⟨rfl, by omega⟩)

/-- Claim C4: `validate_counter` accepts and records the counter exactly when
the sender is new or the counter strictly exceeds the recorded one, and a
second call with the same sender and the same or a lower counter fails with
`ReplayRejected` carrying that sender, the offered counter, and the counter
recorded by the earlier accepted call. -/
theorem validate_counter_spec (t : List (List Nat × Nat)) (s : List Nat) (c : Nat) :
    ((alookup t s = none ∨ ∃ p, alookup t s = some p ∧ p < c) →
      validate_counter t s c = .ok (ainsert t s c) ∧
      alookup (ainsert t s c) s = some c) ∧
    (∀ t2, validate_counter t s c = .ok t2 →
      ∀ c2, c2 ≤ c →
        validate_counter t2 s c2 = .error (.replayRejected s c2 c)) := by
  constructor
  · intro h
    refine ⟨?_, alookup_ainsert_self t s c⟩
    rcases h with h | ⟨p, hp, hlt⟩
    · simp [validate_counter, h]
    · simp [validate_counter, hp, show ¬ c ≤ p by omega]
  · intro t2 hok c2 hle
    have ht2 : t2 = ainsert t s c := by
      rcases halo : alookup t s with _ | p <;>
        simp [validate_counter, halo] at hok
      · exact hok.symm
      · by_cases hc : c ≤ p
        · simp [hc] at hok
        · simp [hc] at hok
          exact hok.symm
    subst ht2
    simp [validate_counter, alookup_ainsert_self, hle]

/-- Witness for claim C4: accept counter 5 from a fresh sender, then reject
the replayed counter 5 with the recorded value 5. -/
theorem validate_counter_spec_witness :
    validate_counter [([97], 5)] [97] 5 = .error (.replayRejected [97] 5 5) :=
  (validate_counter_spec [] [97] 5).2 [([97], 5)] rfl 5 (le_refl 5)

/-! ## JSON codec
The serializer below reproduces `serde_json::to_vec` byte for byte on the
message types of the repository: compact output, fields in declaration
order, strings escaped exactly as `serde_json` escapes them. The parsers
model `serde_json::from_slice` on this canonical grammar: they accept
exactly the serializer output followed by nothing else, which is the only
use the round-trip claims make of the deserializer. -/

/-- JSON escape of one codepoint, exactly the `serde_json` escape table:
quote and backslash get two-byte escapes, the five short control escapes are
used where they exist, other control characters become lowercase
`\u00xx`, and everything else is emitted as its UTF-8 bytes. -/
def escChar (c : Nat) : List Nat :=
  if c = 34 then [92, 34]
  else if c = 92 then [92, 92]
  else if c < 32 then
    if c = 8 then [92, 98]
    else if c = 9 then [92, 116]
    else if c = 10 then [92, 110]
    else if c = 12 then [92, 102]
    else if c = 13 then [92, 114]
    else [92, 117, 48, 48, hexDigitL (c / 16), hexDigitL (c % 16)]
  else utf8EncChar c

/-- JSON escape of a whole string body. -/
def escStr : List Nat → List Nat
  | [] => []
  | c :: t => escChar c ++ escStr t

/-- JSON string literal: quote, escaped body, quote. -/
def jsonStr (s : List Nat) : List Nat := 34 :: (escStr s ++ [34])

/-- Value of one hex digit byte. -/
def hexVal (b : Nat) : Option Nat :=
  if 48 ≤ b ∧ b ≤ 57 then some (b - 48)
  else if 97 ≤ b ∧ b ≤ 102 then some (b - 87)
  else if 65 ≤ b ∧ b ≤ 70 then some (b - 55)
  else none

/-- Fuel-driven parse of a JSON string body up to the closing quote,
decoding the escapes the canonical serializer emits. -/
def parseStrAux : Nat → List Nat → Option (List Nat × List Nat)
  | _, [] => none
  | 0, _ :: _ => none
  | fuel + 1, b :: r =>
    if b = 34 then some ([], r)
    else if b = 92 then
      match r with
      | [] => none
      | e :: r2 =>
        if e = 34 then (parseStrAux fuel r2).map (fun p => (34 :: p.1, p.2))
        else if e = 92 then (parseStrAux fuel r2).map (fun p => (92 :: p.1, p.2))
        else if e = 47 then (parseStrAux fuel r2).map (fun p => (47 :: p.1, p.2))
        else if e = 98 then (parseStrAux fuel r2).map (fun p => (8 :: p.1, p.2))
        else if e = 116 then (parseStrAux fuel r2).map (fun p => (9 :: p.1, p.2))
        else if e = 110 then (parseStrAux fuel r2).map (fun p => (10 :: p.1, p.2))
        else if e = 102 then (parseStrAux fuel r2).map (fun p => (12 :: p.1, p.2))
        else if e = 114 then (parseStrAux fuel r2).map (fun p => (13 :: p.1, p.2))
        else if e = 117 then
          match r2 with
          | h1 :: h2 :: h3 :: h4 :: r3 =>
            match hexVal h1, hexVal h2, hexVal h3, hexVal h4 with
            | some v1, some v2, some v3, some v4 =>
              (parseStrAux fuel r3).map
                (fun p => ((((v1 * 16 + v2) * 16 + v3) * 16 + v4) :: p.1, p.2))
            | _, _, _, _ => none
          | _ => none
        else none
    else
      match utf8DecChar (b :: r) with
      | some (c, rest) => (parseStrAux fuel rest).map (fun p => (c :: p.1, p.2))
      | none => none

/-- Parse a JSON string literal, consuming the opening quote. -/
def parseJString : List Nat → Option (List Nat × List Nat)
  | 34 :: r => parseStrAux r.length r
  | _ => none

/-- Digit predicate for JSON numbers. -/
def isDigitB (b : Nat) : Bool := decide (48 ≤ b ∧ b ≤ 57)

/-- Parse a JSON unsigned integer by maximal munch. -/
def parseNat (l : List Nat) : Option (Nat × List Nat) :=
  if (l.takeWhile isDigitB) = [] then none
  else some (digitsVal (l.takeWhile isDigitB), l.dropWhile isDigitB)

/-- Expect a literal byte pattern and return the remainder. -/
def expectLit (pat l : List Nat) : Option (List Nat) :=
  if l.take pat.length = pat then some (l.drop pat.length) else none

theorem expectLit_append (pat rest : List Nat) :
    expectLit pat (pat ++ rest) = some rest := by
  unfold expectLit
  rw [List.take_left, List.drop_left, if_pos rfl]

theorem escStr_length_ge (s : List Nat) : s.length ≤ (escStr s).length := by
  induction s with
  | nil => simp [escStr]
  | cons c t ih =>
    have h1 : 1 ≤ (escChar c).length := by
      unfold escChar
      split_ifs <;>
        first
          | simp
          | (rw [utf8EncChar_length]; exact utf8Len_pos c)
    simp only [escStr, List.length_append, List.length_cons]
    omega

theorem hexVal_hexDigitL (d : Nat) (h : d < 16) : hexVal (hexDigitL d) = some d := by
  unfold hexVal hexDigitL
  split_ifs <;> first | (congr 1; omega) | omega

theorem parseStrAux_cons (fuel : Nat) (b : Nat) (r : List Nat) :
    parseStrAux (fuel + 1) (b :: r) =
      (if b = 34 then some ([], r)
       else if b = 92 then
         match r with
         | [] => none
         | e :: r2 =>
           if e = 34 then (parseStrAux fuel r2).map (fun p => (34 :: p.1, p.2))
           else if e = 92 then (parseStrAux fuel r2).map (fun p => (92 :: p.1, p.2))
           else if e = 47 then (parseStrAux fuel r2).map (fun p => (47 :: p.1, p.2))
           else if e = 98 then (parseStrAux fuel r2).map (fun p => (8 :: p.1, p.2))
           else if e = 116 then (parseStrAux fuel r2).map (fun p => (9 :: p.1, p.2))
           else if e = 110 then (parseStrAux fuel r2).map (fun p => (10 :: p.1, p.2))
           else if e = 102 then (parseStrAux fuel r2).map (fun p => (12 :: p.1, p.2))
           else if e = 114 then (parseStrAux fuel r2).map (fun p => (13 :: p.1, p.2))
           else if e = 117 then
             match r2 with
             | h1 :: h2 :: h3 :: h4 :: r3 =>
               match hexVal h1, hexVal h2, hexVal h3, hexVal h4 with
               | some v1, some v2, some v3, some v4 =>
                 (parseStrAux fuel r3).map
                   (fun p => ((((v1 * 16 + v2) * 16 + v3) * 16 + v4) :: p.1, p.2))
               | _, _, _, _ => none
             | _ => none
           else none
       else
         match utf8DecChar (b :: r) with
         | some (c, rest) => (parseStrAux fuel rest).map (fun p => (c :: p.1, p.2))
         | none => none) := rfl

theorem parseStrAux_esc (s : List Nat) (h : ValidStr s) :
    ∀ (fuel : Nat) (rest : List Nat), s.length < fuel →
      parseStrAux fuel (escStr s ++ (34 :: rest)) = some (s, rest) := by
  induction s with
  | nil =>
    intro fuel rest hfuel
    match fuel with
    | f + 1 =>
      show parseStrAux (f + 1) (34 :: rest) = some ([], rest)
      rw [parseStrAux_cons]
      norm_num
  | cons c cs ih =>
    intro fuel rest hfuel
    have hvc : ValidChar c := h c (by simp)
    have hvs : ValidStr cs := fun x hx => h x (by simp [hx])
    match fuel with
    | f + 1 =>
      have hcs : cs.length < f := by
        have : (c :: cs).length = cs.length + 1 := rfl
        omega
      have hrest := ih hvs f rest hcs
      show parseStrAux (f + 1) ((escChar c ++ escStr cs) ++ (34 :: rest)) = _
      rw [List.append_assoc]
      by_cases h34 : c = 34
      · subst h34
        show parseStrAux (f + 1) (92 :: 34 :: (escStr cs ++ (34 :: rest))) = _
        rw [parseStrAux_cons]
        norm_num [hrest]
      · by_cases h92 : c = 92
        · subst h92
          show parseStrAux (f + 1) (92 :: 92 :: (escStr cs ++ (34 :: rest))) = _
          rw [parseStrAux_cons]
          norm_num [hrest]
        · by_cases hctl : c < 32
          · unfold escChar
            rw [if_neg h34, if_neg h92, if_pos hctl]
            by_cases h8 : c = 8
            · subst h8
              rw [if_pos rfl]
              show parseStrAux (f + 1) (92 :: 98 :: (escStr cs ++ (34 :: rest))) = _
              rw [parseStrAux_cons]
              norm_num [hrest]
            · rw [if_neg h8]
              by_cases h9 : c = 9
              · subst h9
                rw [if_pos rfl]
                show parseStrAux (f + 1) (92 :: 116 :: (escStr cs ++ (34 :: rest))) = _
                rw [parseStrAux_cons]
                norm_num [hrest]
              · rw [if_neg h9]
                by_cases h10 : c = 10
                · subst h10
                  rw [if_pos rfl]
                  show parseStrAux (f + 1) (92 :: 110 :: (escStr cs ++ (34 :: rest))) = _
                  rw [parseStrAux_cons]
                  norm_num [hrest]
                · rw [if_neg h10]
                  by_cases h12 : c = 12
                  · subst h12
                    rw [if_pos rfl]
                    show parseStrAux (f + 1)
                      (92 :: 102 :: (escStr cs ++ (34 :: rest))) = _
                    rw [parseStrAux_cons]
                    norm_num [hrest]
                  · rw [if_neg h12]
                    by_cases h13 : c = 13
                    · subst h13
                      rw [if_pos rfl]
                      show parseStrAux (f + 1)
                        (92 :: 114 :: (escStr cs ++ (34 :: rest))) = _
                      rw [parseStrAux_cons]
                      norm_num [hrest]
                    · rw [if_neg h13]
                      show parseStrAux (f + 1)
                        (92 :: 117 :: 48 :: 48 :: hexDigitL (c / 16) ::
                          hexDigitL (c % 16) :: (escStr cs ++ (34 :: rest))) = _
                      rw [parseStrAux_cons]
                      have hh1 : hexVal (hexDigitL (c / 16)) = some (c / 16) :=
                        hexVal_hexDigitL _ (by omega)
                      have hh2 : hexVal (hexDigitL (c % 16)) = some (c % 16) :=
                        hexVal_hexDigitL _ (by omega)
                      norm_num [hh1, hh2, show hexVal 48 = some 0 from rfl, hrest]
                      omega
          · have hb : ∃ b t2, utf8EncChar c = b :: t2 ∧ b ≠ 34 ∧ b ≠ 92 := by
              unfold utf8EncChar
              split_ifs with hc1 hc2 hc3
              · exact ⟨c, [], rfl, h34, h92⟩
              · exact ⟨0xC0 + c / 64, _, rfl, by omega, by omega⟩
              · exact ⟨0xE0 + c / 4096, _, rfl, by omega, by omega⟩
              · exact ⟨0xF0 + c / 262144, _, rfl, by omega, by omega⟩
            obtain ⟨b, t2, hbt, hb34, hb92⟩ := hb
            have hesc : escChar c = utf8EncChar c := by
              unfold escChar
              rw [if_neg h34, if_neg h92, if_neg hctl]
            rw [hesc, hbt]
            show parseStrAux (f + 1) (b :: (t2 ++ (escStr cs ++ (34 :: rest)))) = _
            rw [parseStrAux_cons]
            rw [if_neg hb34, if_neg hb92]
            have hdec : utf8DecChar (b :: (t2 ++ (escStr cs ++ (34 :: rest)))) =
                some (c, escStr cs ++ (34 :: rest)) := by
              have hde := utf8DecChar_enc c hvc (escStr cs ++ (34 :: rest))
              rw [hbt] at hde
              simpa using hde
            rw [hdec]
            simp [hrest]

theorem parseJString_ser (s : List Nat) (rest : List Nat) (h : ValidStr s) :
    parseJString (jsonStr s ++ rest) = some (s, rest) := by
  show parseJString (34 :: ((escStr s ++ [34]) ++ rest)) = some (s, rest)
  unfold parseJString
  rw [List.append_assoc]
  apply parseStrAux_esc s h
  have := escStr_length_ge s
  simp only [List.length_append, List.length_cons]
  omega

theorem takeWhile_append_of (xs rest : List Nat) (p : Nat → Bool)
    (hall : ∀ b ∈ xs, p b = true)
    (hrest : ∀ r t, rest = r :: t → p r = false) :
    (xs ++ rest).takeWhile p = xs ∧ (xs ++ rest).dropWhile p = rest := by
  induction xs with
  | nil =>
    match rest with
    | [] => simp
    | r :: t =>
      have hr := hrest r t rfl
      simp [List.takeWhile_cons, List.dropWhile_cons, hr]
  | cons x xt ih =>
    have hx : p x = true := hall x (by simp)
    have ih2 := ih (fun b hb => hall b (by simp [hb]))
    simp [List.takeWhile_cons, List.dropWhile_cons, hx, ih2.1, ih2.2]

theorem natLit_ne_nil (n : Nat) : natLit n ≠ [] := by
  rw [natLit_eq]
  split_ifs <;> simp

theorem parseNat_natLit (n : Nat) (rest : List Nat)
    (hrest : ∀ r t, rest = r :: t → isDigitB r = false) :
    parseNat (natLit n ++ rest) = some (n, rest) := by
  have hall : ∀ b ∈ natLit n, isDigitB b = true := by
    intro b hb
    have := natLit_digits n b hb
    unfold isDigitB
    simp only [decide_eq_true_eq]
    omega
  obtain ⟨htake, hdrop⟩ := takeWhile_append_of (natLit n) rest isDigitB hall hrest
  unfold parseNat
  rw [htake, hdrop, if_neg (natLit_ne_nil n), natLit_val]

/-! ## Clipboard event JSON codec and the AEAD pipeline -/

/-- JSON prefix for the first event field. -/
def evKey1 : List Nat := [123] ++ jsonStr (ascii "sender_device_id") ++ [58]

/-- JSON separator before the `counter` field. -/
def evKey2 : List Nat := [44] ++ jsonStr (ascii "counter") ++ [58]

/-- JSON separator before the `timestamp_unix_ms` field. -/
def evKey3 : List Nat := [44] ++ jsonStr (ascii "timestamp_unix_ms") ++ [58]

/-- JSON separator before the `mime` field. -/
def evKey4 : List Nat := [44] ++ jsonStr (ascii "mime") ++ [58]

/-- JSON separator before the `text_utf8` field. -/
def evKey5 : List Nat := [44] ++ jsonStr (ascii "text_utf8") ++ [58]

/-- Serialization of a clipboard event, byte for byte the output of
`serde_json::to_vec` on `ClipboardEventPlaintext`: compact JSON with the
five fields in declaration order. -/
def serEventBytes (e : ClipboardEventPlaintext) : List Nat :=
  evKey1 ++ (jsonStr e.sender_device_id ++ (evKey2 ++ (natLit e.counter ++
    (evKey3 ++ (natLit e.timestamp_unix_ms ++ (evKey4 ++ (jsonStr e.mime ++
      (evKey5 ++ (jsonStr e.text_utf8 ++ [125])))))))))

/-- Parse of a clipboard event, modelling `serde_json::from_slice` on the
canonical encoding produced by `serEventBytes`. -/
def parseEventBytes (l : List Nat) : Option ClipboardEventPlaintext :=
  (expectLit evKey1 l).bind fun l1 =>
  (parseJString l1).bind fun p1 =>
  (expectLit evKey2 p1.2).bind fun l2 =>
  (parseNat l2).bind fun p2 =>
  (expectLit evKey3 p2.2).bind fun l3 =>
  (parseNat l3).bind fun p3 =>
  (expectLit evKey4 p3.2).bind fun l4 =>
  (parseJString l4).bind fun p4 =>
  (expectLit evKey5 p4.2).bind fun l5 =>
  (parseJString l5).bind fun p5 =>
  if p5.2 = [125] then some ⟨p1.1, p2.1, p3.1, p4.1, p5.1⟩ else none

theorem evKey3_head (x : List Nat) : ∀ r t, evKey3 ++ x = r :: t → isDigitB r = false := by
  intro r t h
  have : (44 : Nat) :: ((jsonStr (ascii "timestamp_unix_ms") ++ [58]) ++ x) = r :: t := by
    simpa [evKey3, List.append_assoc] using h
  have hr : r = 44 := ((List.cons.injEq _ _ _ _).mp this).1.symm
  subst hr
  decide

theorem evKey4_head (x : List Nat) : ∀ r t, evKey4 ++ x = r :: t → isDigitB r = false := by
  intro r t h
  have : (44 : Nat) :: ((jsonStr (ascii "mime") ++ [58]) ++ x) = r :: t := by
    simpa [evKey4, List.append_assoc] using h
  have hr : r = 44 := ((List.cons.injEq _ _ _ _).mp this).1.symm
  subst hr
  decide

theorem parseEventBytes_ser (e : ClipboardEventPlaintext)
    (h1 : ValidStr e.sender_device_id) (h2 : ValidStr e.mime)
    (h3 : ValidStr e.text_utf8) :
    parseEventBytes (serEventBytes e) = some e := by
  obtain ⟨sid, cnt, ts, mm, tx⟩ := e
  simp only at h1 h2 h3
  unfold serEventBytes parseEventBytes
  rw [expectLit_append]
  simp only [Option.some_bind]
  rw [parseJString_ser _ _ h1]
  simp only [Option.some_bind]
  rw [expectLit_append]
  simp only [Option.some_bind]
  rw [parseNat_natLit _ _ (evKey3_head _)]
  simp only [Option.some_bind]
  rw [expectLit_append]
  simp only [Option.some_bind]
  rw [parseNat_natLit _ _ (evKey4_head _)]
  simp only [Option.some_bind]
  rw [expectLit_append]
  simp only [Option.some_bind]
  rw [parseJString_ser _ _ h2]
  simp only [Option.some_bind]
  rw [expectLit_append]
  simp only [Option.some_bind]
  rw [parseJString_ser _ _ h3]
  simp only [Option.some_bind]
  simp

/-- The clipboard size cap `MAX_CLIPBOARD_TEXT_BYTES` (256 KiB). -/
def MAX_CLIPBOARD_TEXT_BYTES : Nat := 262144

/-- The MIME length cap `MAX_MIME_LEN`. -/
def MAX_MIME_LEN : Nat := 128

/-- Model of `encrypt_clipboard_event`: validate the trimmed MIME and the
text size, then seal the JSON plaintext under the deterministic nonce with
AAD `cliprelay:v1`. -/
def encrypt_clipboard_event (room_key : List Nat)
    (event : ClipboardEventPlaintext) : Except CoreError EncryptedPayload :=
  if trimStr event.mime = [] ∨ strByteLen (trimStr event.mime) > MAX_MIME_LEN then
    .error .invalidMime
  else if strByteLen event.text_utf8 > MAX_CLIPBOARD_TEXT_BYTES then
    .error .clipboardTooLarge
  else
    .ok ⟨event.sender_device_id, event.counter,
      xchachaSeal room_key (build_nonce event.sender_device_id event.counter)
        AAD (serEventBytes event)⟩

/-- Model of `decrypt_clipboard_event`: open the AEAD, parse the JSON,
check the inner identity against the envelope, then re-check the MIME and
size bounds. -/
def decrypt_clipboard_event (room_key : List Nat) (payload : EncryptedPayload) :
    Except CoreError ClipboardEventPlaintext :=
  match xchachaOpen room_key
      (build_nonce payload.sender_device_id payload.counter) AAD
      payload.ciphertext with
  | none => .error .decryptionFailed
  | some plaintext =>
    match parseEventBytes plaintext with
    | none => .error .serialization
    | some event =>
      if event.sender_device_id ≠ payload.sender_device_id ∨
          event.counter ≠ payload.counter then
        .error .payloadIdentityMismatch
      else if trimStr event.mime = [] ∨
          strByteLen (trimStr event.mime) > MAX_MIME_LEN then
        .error .invalidMime
      else if strByteLen event.text_utf8 > MAX_CLIPBOARD_TEXT_BYTES then
        .error .clipboardTooLarge
      else .ok event

/-- Claim C1: for every room code and device-id list for which key derivation
succeeds, and every clipboard event whose trimmed MIME is non-empty and at
most 128 bytes and whose text is at most 256 KiB, decrypting the encryption
of the event under the derived key returns exactly the original event. -/
theorem encrypt_decrypt_roundtrip (room_code : List Nat) (ids : List (List Nat))
    (e : ClipboardEventPlaintext) (k : List Nat)
    (hs1 : ValidStr e.sender_device_id) (hs2 : ValidStr e.mime)
    (hs3 : ValidStr e.text_utf8)
    (hkey : derive_room_key room_code ids = .ok k)
    (hmime1 : trimStr e.mime ≠ []) (hmime2 : strByteLen (trimStr e.mime) ≤ 128)
    (htext : strByteLen e.text_utf8 ≤ 262144) :
    ∃ p, encrypt_clipboard_event k e = .ok p ∧
      decrypt_clipboard_event k p = .ok e := by
  have hc1 : ¬ (trimStr e.mime = [] ∨ strByteLen (trimStr e.mime) > MAX_MIME_LEN) := by
    push_neg
    exact ⟨hmime1, by unfold MAX_MIME_LEN; omega⟩
  have hc2 : ¬ (strByteLen e.text_utf8 > MAX_CLIPBOARD_TEXT_BYTES) := by
    unfold MAX_CLIPBOARD_TEXT_BYTES; omega
  refine ⟨⟨e.sender_device_id, e.counter,
    xchachaSeal k (build_nonce e.sender_device_id e.counter) AAD (serEventBytes e)⟩,
    ?_, ?_⟩
  · unfold encrypt_clipboard_event
    rw [if_neg hc1, if_neg hc2]
  · unfold decrypt_clipboard_event
    simp only
    rw [xchachaOpen_seal]
    simp only
    rw [parseEventBytes_ser e hs1 hs2 hs3]
    simp only
    rw [if_neg (by push_neg; exact ⟨rfl, rfl⟩), if_neg hc1, if_neg hc2]

/-- Witness for claim C1 at a concrete room code, empty device list and a
small `text/plain` event; the hypotheses are discharged by computation. -/
theorem encrypt_decrypt_roundtrip_witness :
    ∃ p, encrypt_clipboard_event
        (hkdfExpand32 (hkdfExtract (compute_device_list_hash [])
          (sha256 (utf8Enc [114]))) ROOM_KEY_INFO)
        ⟨[97], 1, 2, [116, 101, 120, 116, 47, 112, 108, 97, 105, 110], [104, 105]⟩ =
        .ok p ∧
      decrypt_clipboard_event
        (hkdfExpand32 (hkdfExtract (compute_device_list_hash [])
          (sha256 (utf8Enc [114]))) ROOM_KEY_INFO) p =
        .ok ⟨[97], 1, 2, [116, 101, 120, 116, 47, 112, 108, 97, 105, 110], [104, 105]⟩ :=
  encrypt_decrypt_roundtrip [114] []
    ⟨[97], 1, 2, [116, 101, 120, 116, 47, 112, 108, 97, 105, 110], [104, 105]⟩
    _ (by decide) (by decide) (by decide) rfl (by decide) (by decide) (by decide)

/-- Claim C5: whenever the AEAD open and the JSON parse both succeed but the
inner `sender_device_id` or `counter` differs from the envelope, decryption
fails with exactly `PayloadIdentityMismatch`. -/
theorem decrypt_identity_mismatch (k : List Nat) (p : EncryptedPayload)
    (pt : List Nat) (ev : ClipboardEventPlaintext)
    (hopen : xchachaOpen k (build_nonce p.sender_device_id p.counter) AAD
      p.ciphertext = some pt)
    (hparse : parseEventBytes pt = some ev)
    (hmm : ev.sender_device_id ≠ p.sender_device_id ∨ ev.counter ≠ p.counter) :
    decrypt_clipboard_event k p = .error .payloadIdentityMismatch := by
  unfold decrypt_clipboard_event
  rw [hopen]
  simp only
  rw [hparse]
  simp only
  rw [if_pos hmm]

/-- Witness for claim C5: a payload whose envelope counter is 2 but whose
sealed inner event carries counter 1. -/
theorem decrypt_identity_mismatch_witness :
    decrypt_clipboard_event (List.replicate 32 0)
      ⟨[97], 2, xchachaSeal (List.replicate 32 0) (build_nonce [97] 2) AAD
        (serEventBytes
          ⟨[97], 1, 2, [116, 101, 120, 116, 47, 112, 108, 97, 105, 110],
            [104, 105]⟩)⟩ =
      .error .payloadIdentityMismatch :=
  decrypt_identity_mismatch (List.replicate 32 0)
    ⟨[97], 2, xchachaSeal (List.replicate 32 0) (build_nonce [97] 2) AAD
      (serEventBytes
        ⟨[97], 1, 2, [116, 101, 120, 116, 47, 112, 108, 97, 105, 110],
          [104, 105]⟩)⟩
    (serEventBytes
      ⟨[97], 1, 2, [116, 101, 120, 116, 47, 112, 108, 97, 105, 110], [104, 105]⟩)
    ⟨[97], 1, 2, [116, 101, 120, 116, 47, 112, 108, 97, 105, 110], [104, 105]⟩
    (xchachaOpen_seal _ _ _ _)
    (parseEventBytes_ser _ (by decide) (by decide) (by decide))
    (Or.inr (by decide))

/-! ## Control messages and their JSON codec -/

/-- Peer description (`PeerInfo`). -/
structure PeerInfo : Type where
  device_id : List Nat
  device_name : List Nat
deriving DecidableEq

/-- Hello control body (`Hello`). -/
structure Hello : Type where
  room_id : List Nat
  peer : PeerInfo
deriving DecidableEq

/-- Peer list control body (`PeerList`). -/
structure PeerList : Type where
  room_id : List Nat
  peers : List PeerInfo
deriving DecidableEq

/-- Peer joined control body (`PeerJoined`). -/
structure PeerJoined : Type where
  room_id : List Nat
  peer : PeerInfo
deriving DecidableEq

/-- Peer left control body (`PeerLeft`). -/
structure PeerLeft : Type where
  room_id : List Nat
  device_id : List Nat
deriving DecidableEq

/-- Salt exchange control body (`SaltExchange`). -/
structure SaltExchange : Type where
  room_id : List Nat
  device_ids : List (List Nat)
deriving DecidableEq

/-- Control message union (`ControlMessage`), serialized adjacently tagged
with tag field `type` and content field `data`. -/
inductive ControlMessage : Type
  | hello (h : Hello)
  | peerList (p : PeerList)
  | peerJoined (p : PeerJoined)
  | peerLeft (p : PeerLeft)
  | saltExchange (s : SaltExchange)
  | errorMsg (message : List Nat)
deriving DecidableEq

/-- Wire message union (`WireMessage`). -/
inductive WireMessage : Type
  | control (c : ControlMessage)
  | encrypted (p : EncryptedPayload)
deriving DecidableEq

/-- Comma-separated serialization of JSON array elements. -/
def serJoin {α : Type} (f : α → List Nat) : List α → List Nat
  | [] => []
  | [x] => f x
  | x :: y :: t => f x ++ ([44] ++ serJoin f (y :: t))

/-- JSON array serialization. -/
def serArr {α : Type} (f : α → List Nat) (l : List α) : List Nat :=
  [91] ++ (serJoin f l ++ [93])

/-- Fuel-driven parse of the elements of a non-empty JSON array, after the
opening bracket. -/
def parseArrAux {α : Type} (pf : List Nat → Option (α × List Nat)) :
    Nat → List Nat → Option (List α × List Nat)
  | 0, _ => none
  | fuel + 1, l =>
    (pf l).bind fun p =>
      match p.2 with
      | 44 :: r2 => (parseArrAux pf fuel r2).map (fun q => (p.1 :: q.1, q.2))
      | 93 :: r2 => some ([p.1], r2)
      | _ => none

/-- Parse a JSON array with the given element parser. -/
def parseArr {α : Type} (pf : List Nat → Option (α × List Nat))
    (l : List Nat) : Option (List α × List Nat) :=
  match l with
  | 91 :: r =>
    if r.take 1 = [93] then some ([], r.drop 1)
    else parseArrAux pf (r.length + 1) r
  | _ => none

/-- JSON prefix for the first `PeerInfo` field. -/
def pKey1 : List Nat := [123] ++ jsonStr (ascii "device_id") ++ [58]

/-- JSON separator before the `device_name` field. -/
def pKey2 : List Nat := [44] ++ jsonStr (ascii "device_name") ++ [58]

/-- Serialization of a `PeerInfo` object. -/
def serPeerInfo (p : PeerInfo) : List Nat :=
  pKey1 ++ (jsonStr p.device_id ++ (pKey2 ++ (jsonStr p.device_name ++ [125])))

/-- Parse of a `PeerInfo` object. -/
def parsePeerInfo (l : List Nat) : Option (PeerInfo × List Nat) :=
  (expectLit pKey1 l).bind fun l1 =>
  (parseJString l1).bind fun p1 =>
  (expectLit pKey2 p1.2).bind fun l2 =>
  (parseJString l2).bind fun p2 =>
  (expectLit [125] p2.2).map fun r => (⟨p1.1, p2.1⟩, r)

/-- JSON prefix for a `room_id` first field. -/
def rKey1 : List Nat := [123] ++ jsonStr (ascii "room_id") ++ [58]

/-- JSON separator before a `peer` field. -/
def rKeyPeer : List Nat := [44] ++ jsonStr (ascii "peer") ++ [58]

/-- JSON separator before a `peers` field. -/
def rKeyPeers : List Nat := [44] ++ jsonStr (ascii "peers") ++ [58]

/-- JSON separator before a `device_id` field. -/
def rKeyDevice : List Nat := [44] ++ jsonStr (ascii "device_id") ++ [58]

/-- JSON separator before a `device_ids` field. -/
def rKeyDevices : List Nat := [44] ++ jsonStr (ascii "device_ids") ++ [58]

/-- JSON prefix for an `Error` body. -/
def eKey1 : List Nat := [123] ++ jsonStr (ascii "message") ++ [58]

/-- Serialization of a `Hello` body. -/
def serHello (h : Hello) : List Nat :=
  rKey1 ++ (jsonStr h.room_id ++ (rKeyPeer ++ (serPeerInfo h.peer ++ [125])))

/-- Parse of a `Hello` body. -/
def parseHello (l : List Nat) : Option (Hello × List Nat) :=
  (expectLit rKey1 l).bind fun l1 =>
  (parseJString l1).bind fun p1 =>
  (expectLit rKeyPeer p1.2).bind fun l2 =>
  (parsePeerInfo l2).bind fun p2 =>
  (expectLit [125] p2.2).map fun r => (⟨p1.1, p2.1⟩, r)

/-- Serialization of a `PeerList` body. -/
def serPeerList (p : PeerList) : List Nat :=
  rKey1 ++ (jsonStr p.room_id ++ (rKeyPeers ++ (serArr serPeerInfo p.peers ++ [125])))

/-- Parse of a `PeerList` body. -/
def parsePeerList (l : List Nat) : Option (PeerList × List Nat) :=
  (expectLit rKey1 l).bind fun l1 =>
  (parseJString l1).bind fun p1 =>
  (expectLit rKeyPeers p1.2).bind fun l2 =>
  (parseArr parsePeerInfo l2).bind fun p2 =>
  (expectLit [125] p2.2).map fun r => (⟨p1.1, p2.1⟩, r)

/-- Serialization of a `PeerJoined` body. -/
def serPeerJoined (p : PeerJoined) : List Nat :=
  rKey1 ++ (jsonStr p.room_id ++ (rKeyPeer ++ (serPeerInfo p.peer ++ [125])))

/-- Parse of a `PeerJoined` body. -/
def parsePeerJoined (l : List Nat) : Option (PeerJoined × List Nat) :=
  (expectLit rKey1 l).bind fun l1 =>
  (parseJString l1).bind fun p1 =>
  (expectLit rKeyPeer p1.2).bind fun l2 =>
  (parsePeerInfo l2).bind fun p2 =>
  (expectLit [125] p2.2).map fun r => (⟨p1.1, p2.1⟩, r)

/-- Serialization of a `PeerLeft` body. -/
def serPeerLeft (p : PeerLeft) : List Nat :=
  rKey1 ++ (jsonStr p.room_id ++ (rKeyDevice ++ (jsonStr p.device_id ++ [125])))

/-- Parse of a `PeerLeft` body. -/
def parsePeerLeft (l : List Nat) : Option (PeerLeft × List Nat) :=
  (expectLit rKey1 l).bind fun l1 =>
  (parseJString l1).bind fun p1 =>
  (expectLit rKeyDevice p1.2).bind fun l2 =>
  (parseJString l2).bind fun p2 =>
  (expectLit [125] p2.2).map fun r => (⟨p1.1, p2.1⟩, r)

/-- Serialization of a `SaltExchange` body. -/
def serSaltExchange (s : SaltExchange) : List Nat :=
  rKey1 ++ (jsonStr s.room_id ++ (rKeyDevices ++ (serArr jsonStr s.device_ids ++ [125])))

/-- Parse of a `SaltExchange` body. -/
def parseSaltExchange (l : List Nat) : Option (SaltExchange × List Nat) :=
  (expectLit rKey1 l).bind fun l1 =>
  (parseJString l1).bind fun p1 =>
  (expectLit rKeyDevices p1.2).bind fun l2 =>
  (parseArr parseJString l2).bind fun p2 =>
  (expectLit [125] p2.2).map fun r => (⟨p1.1, p2.1⟩, r)

/-- JSON prefix of the adjacently tagged wrapper, up to the tag string. -/
def tagHdr : List Nat := [123] ++ jsonStr (ascii "type") ++ [58]

/-- JSON separator between the tag string and the `data` field. -/
def dataHdr : List Nat := [44] ++ jsonStr (ascii "data") ++ [58]

/-- Serialization of a tagged control message, byte for byte the output of
`serde_json::to_vec` on `ControlMessage`. -/
def serControl (c : ControlMessage) : List Nat :=
  match c with
  | .hello h =>
    tagHdr ++ (jsonStr (ascii "Hello") ++ (dataHdr ++ (serHello h ++ [125])))
  | .peerList p =>
    tagHdr ++ (jsonStr (ascii "PeerList") ++ (dataHdr ++ (serPeerList p ++ [125])))
  | .peerJoined p =>
    tagHdr ++ (jsonStr (ascii "PeerJoined") ++ (dataHdr ++ (serPeerJoined p ++ [125])))
  | .peerLeft p =>
    tagHdr ++ (jsonStr (ascii "PeerLeft") ++ (dataHdr ++ (serPeerLeft p ++ [125])))
  | .saltExchange s =>
    tagHdr ++ (jsonStr (ascii "SaltExchange") ++ (dataHdr ++ (serSaltExchange s ++ [125])))
  | .errorMsg m =>
    tagHdr ++ (jsonStr (ascii "Error") ++
      (dataHdr ++ ((eKey1 ++ (jsonStr m ++ [125])) ++ [125])))

/-- Parse of a tagged control message, modelling `serde_json::from_slice` on
the canonical encoding; the whole input must be consumed. -/
def parseControl (l : List Nat) : Option ControlMessage :=
  (expectLit tagHdr l).bind fun l1 =>
  (parseJString l1).bind fun ptag =>
  (expectLit dataHdr ptag.2).bind fun body =>
  if ptag.1 = ascii "Hello" then
    (parseHello body).bind fun p =>
      if p.2 = [125] then some (.hello p.1) else none
  else if ptag.1 = ascii "PeerList" then
    (parsePeerList body).bind fun p =>
      if p.2 = [125] then some (.peerList p.1) else none
  else if ptag.1 = ascii "PeerJoined" then
    (parsePeerJoined body).bind fun p =>
      if p.2 = [125] then some (.peerJoined p.1) else none
  else if ptag.1 = ascii "PeerLeft" then
    (parsePeerLeft body).bind fun p =>
      if p.2 = [125] then some (.peerLeft p.1) else none
  else if ptag.1 = ascii "SaltExchange" then
    (parseSaltExchange body).bind fun p =>
      if p.2 = [125] then some (.saltExchange p.1) else none
  else if ptag.1 = ascii "Error" then
    ((expectLit eKey1 body).bind fun l2 =>
      (parseJString l2).bind fun p2 =>
      (expectLit [125] p2.2).map fun r => (p2.1, r)).bind fun p =>
      if p.2 = [125] then some (.errorMsg p.1) else none
  else none

/-- Validity (as Rust strings) of the fields of a `PeerInfo`. -/
def ValidPeer (p : PeerInfo) : Prop := ValidStr p.device_id ∧ ValidStr p.device_name

instance (p : PeerInfo) : Decidable (ValidPeer p) := by unfold ValidPeer; infer_instance

/-- Validity of the strings of a control message. -/
def ValidControl : ControlMessage → Prop
  | .hello h => ValidStr h.room_id ∧ ValidPeer h.peer
  | .peerList p => ValidStr p.room_id ∧ ∀ q ∈ p.peers, ValidPeer q
  | .peerJoined p => ValidStr p.room_id ∧ ValidPeer p.peer
  | .peerLeft p => ValidStr p.room_id ∧ ValidStr p.device_id
  | .saltExchange s => ValidStr s.room_id ∧ ∀ d ∈ s.device_ids, ValidStr d
  | .errorMsg m => ValidStr m

instance (c : ControlMessage) : Decidable (ValidControl c) := by
  cases c <;> (unfold ValidControl; infer_instance)

/-- Validity of a wire message as a Rust value: valid strings and a 64-bit
counter. -/
def ValidWire : WireMessage → Prop
  | .control c => ValidControl c
  | .encrypted p => ValidStr p.sender_device_id ∧ p.counter < 18446744073709551616

instance (m : WireMessage) : Decidable (ValidWire m) := by
  cases m <;> (unfold ValidWire; infer_instance)

theorem serJoin_length_ge {α : Type} (f : α → List Nat) (l : List α)
    (h : ∀ x ∈ l, 1 ≤ (f x).length) : l.length ≤ (serJoin f l).length := by
  induction l with
  | nil => simp
  | cons x t ih =>
    match t with
    | [] =>
      have := h x (by simp)
      simpa [serJoin] using this
    | y :: t2 =>
      have hx := h x (by simp)
      have ht := ih (fun z hz => h z (by simp [hz]))
      show (x :: y :: t2).length ≤ (f x ++ ([44] ++ serJoin f (y :: t2))).length
      simp only [List.length_append, List.length_cons, List.length_nil] at *
      omega

theorem parseArrAux_ser {α : Type} (pf : List Nat → Option (α × List Nat))
    (f : α → List Nat) (l : List α)
    (hrt : ∀ x ∈ l, ∀ r : List Nat, pf (f x ++ r) = some (x, r)) :
    ∀ (fuel : Nat) (rest : List Nat), l ≠ [] → l.length ≤ fuel →
      parseArrAux pf fuel (serJoin f l ++ (93 :: rest)) = some (l, rest) := by
  induction l with
  | nil => intro fuel rest hne; exact absurd rfl hne
  | cons x t ih =>
    intro fuel rest _ hfuel
    match fuel with
    | 0 => simp at hfuel
    | fu + 1 =>
      match t with
      | [] =>
        show parseArrAux pf (fu + 1) (f x ++ (93 :: rest)) = some ([x], rest)
        unfold parseArrAux
        rw [hrt x (by simp) (93 :: rest)]
        rfl
      | y :: t2 =>
        have hrt2 : ∀ z ∈ y :: t2, ∀ r : List Nat, pf (f z ++ r) = some (z, r) :=
          fun z hz => hrt z (by simp [hz])
        have hih := ih hrt2 fu rest (by simp) (by simp at hfuel ⊢; omega)
        show parseArrAux pf (fu + 1)
          ((f x ++ ([44] ++ serJoin f (y :: t2))) ++ (93 :: rest)) = _
        rw [List.append_assoc, List.append_assoc]
        unfold parseArrAux
        rw [hrt x (by simp) ([44] ++ (serJoin f (y :: t2) ++ (93 :: rest)))]
        simp only [Option.some_bind, List.cons_append, List.nil_append]
        rw [hih]
        rfl

theorem parseArr_ser {α : Type} (pf : List Nat → Option (α × List Nat))
    (f : α → List Nat) (l : List α) (rest : List Nat)
    (hrt : ∀ x ∈ l, ∀ r : List Nat, pf (f x ++ r) = some (x, r))
    (hhead : ∀ x ∈ l, ∃ b t2, f x = b :: t2 ∧ b ≠ 93) :
    parseArr pf (serArr f l ++ rest) = some (l, rest) := by
  match l with
  | [] =>
    show parseArr pf (([91] ++ ([] ++ [93])) ++ rest) = some ([], rest)
    simp [parseArr]
  | x :: t =>
    obtain ⟨b, t2, hbt, hb93⟩ := hhead x (by simp)
    have hlen : ∀ z ∈ x :: t, 1 ≤ (f z).length := by
      intro z hz
      obtain ⟨b2, t3, hbt2, _⟩ := hhead z hz
      simp [hbt2]
    show parseArr pf (([91] ++ (serJoin f (x :: t) ++ [93])) ++ rest) = _
    have hshape : ([91] ++ (serJoin f (x :: t) ++ [93])) ++ rest =
        91 :: (serJoin f (x :: t) ++ (93 :: rest)) := by
      simp
    rw [hshape]
    show parseArr pf (91 :: (serJoin f (x :: t) ++ (93 :: rest))) = _
    have hjoin : ∃ jt, serJoin f (x :: t) = b :: jt := by
      match t with
      | [] => exact ⟨t2, by simp [serJoin, hbt]⟩
      | y :: t3 =>
        refine ⟨t2 ++ ([44] ++ serJoin f (y :: t3)), ?_⟩
        show f x ++ ([44] ++ serJoin f (y :: t3)) = _
        rw [hbt]
        simp
    obtain ⟨jt, hj⟩ := hjoin
    unfold parseArr
    rw [hj]
    simp only [List.cons_append, List.take_succ_cons, List.take_zero]
    rw [if_neg (by simp [hb93])]
    rw [← List.cons_append, ← hj]
    apply parseArrAux_ser pf f (x :: t) hrt
    · simp
    · have h1 := serJoin_length_ge f (x :: t) hlen
      simp only [List.length_cons] at h1
      simp only [List.length_append, List.length_cons]
      omega

theorem parsePeerInfo_ser (p : PeerInfo) (rest : List Nat) (h : ValidPeer p) :
    parsePeerInfo (serPeerInfo p ++ rest) = some (p, rest) := by
  obtain ⟨did, dn⟩ := p
  obtain ⟨h1, h2⟩ := h
  unfold serPeerInfo parsePeerInfo
  simp only [List.append_assoc]
  rw [expectLit_append]
  simp only [Option.some_bind]
  rw [parseJString_ser _ _ h1]
  simp only [Option.some_bind]
  rw [expectLit_append]
  simp only [Option.some_bind]
  rw [parseJString_ser _ _ h2]
  simp only [Option.some_bind]
  rw [show ([125] : List Nat) ++ rest = [125] ++ rest from rfl, expectLit_append]
  rfl

theorem serPeerInfo_head (p : PeerInfo) :
    ∃ b t2, serPeerInfo p = b :: t2 ∧ b ≠ 93 := by
  have hshape : serPeerInfo p = 123 :: ((jsonStr (ascii "device_id") ++ [58]) ++
      (jsonStr p.device_id ++ (pKey2 ++ (jsonStr p.device_name ++ [125])))) := by
    simp [serPeerInfo, pKey1]
  exact ⟨123, _, hshape, by omega⟩

theorem jsonStr_head (s : List Nat) : ∃ b t2, jsonStr s = b :: t2 ∧ b ≠ 93 :=
  ⟨34, _, rfl, by omega⟩

theorem parseHello_ser (h : Hello) (rest : List Nat)
    (hv : ValidStr h.room_id ∧ ValidPeer h.peer) :
    parseHello (serHello h ++ rest) = some (h, rest) := by
  obtain ⟨rid, peer⟩ := h
  obtain ⟨h1, h2⟩ := hv
  unfold serHello parseHello
  simp only [List.append_assoc]
  rw [expectLit_append]
  simp only [Option.some_bind]
  rw [parseJString_ser _ _ h1]
  simp only [Option.some_bind]
  rw [expectLit_append]
  simp only [Option.some_bind]
  rw [parsePeerInfo_ser _ _ h2]
  simp only [Option.some_bind]
  rw [expectLit_append]
  rfl

theorem parsePeerJoined_ser (p : PeerJoined) (rest : List Nat)
    (hv : ValidStr p.room_id ∧ ValidPeer p.peer) :
    parsePeerJoined (serPeerJoined p ++ rest) = some (p, rest) := by
  obtain ⟨rid, peer⟩ := p
  obtain ⟨h1, h2⟩ := hv
  unfold serPeerJoined parsePeerJoined
  simp only [List.append_assoc]
  rw [expectLit_append]
  simp only [Option.some_bind]
  rw [parseJString_ser _ _ h1]
  simp only [Option.some_bind]
  rw [expectLit_append]
  simp only [Option.some_bind]
  rw [parsePeerInfo_ser _ _ h2]
  simp only [Option.some_bind]
  rw [expectLit_append]
  rfl

theorem parsePeerLeft_ser (p : PeerLeft) (rest : List Nat)
    (hv : ValidStr p.room_id ∧ ValidStr p.device_id) :
    parsePeerLeft (serPeerLeft p ++ rest) = some (p, rest) := by
  obtain ⟨rid, did⟩ := p
  obtain ⟨h1, h2⟩ := hv
  unfold serPeerLeft parsePeerLeft
  simp only [List.append_assoc]
  rw [expectLit_append]
  simp only [Option.some_bind]
  rw [parseJString_ser _ _ h1]
  simp only [Option.some_bind]
  rw [expectLit_append]
  simp only [Option.some_bind]
  rw [parseJString_ser _ _ h2]
  simp only [Option.some_bind]
  rw [expectLit_append]
  rfl

theorem parsePeerList_ser (p : PeerList) (rest : List Nat)
    (hv : ValidStr p.room_id ∧ ∀ q ∈ p.peers, ValidPeer q) :
    parsePeerList (serPeerList p ++ rest) = some (p, rest) := by
  obtain ⟨rid, peers⟩ := p
  obtain ⟨h1, h2⟩ := hv
  unfold serPeerList parsePeerList
  simp only [List.append_assoc]
  rw [expectLit_append]
  simp only [Option.some_bind]
  rw [parseJString_ser _ _ h1]
  simp only [Option.some_bind]
  rw [expectLit_append]
  simp only [Option.some_bind]
  rw [parseArr_ser parsePeerInfo serPeerInfo peers _
    (fun q hq r => parsePeerInfo_ser q r (h2 q hq))
    (fun q _ => serPeerInfo_head q)]
  simp only [Option.some_bind]
  rw [expectLit_append]
  rfl

theorem parseSaltExchange_ser (s : SaltExchange) (rest : List Nat)
    (hv : ValidStr s.room_id ∧ ∀ d ∈ s.device_ids, ValidStr d) :
    parseSaltExchange (serSaltExchange s ++ rest) = some (s, rest) := by
  obtain ⟨rid, ids⟩ := s
  obtain ⟨h1, h2⟩ := hv
  unfold serSaltExchange parseSaltExchange
  simp only [List.append_assoc]
  rw [expectLit_append]
  simp only [Option.some_bind]
  rw [parseJString_ser _ _ h1]
  simp only [Option.some_bind]
  rw [expectLit_append]
  simp only [Option.some_bind]
  rw [parseArr_ser parseJString jsonStr ids _
    (fun d hd r => parseJString_ser d r (h2 d hd))
    (fun d _ => jsonStr_head d)]
  simp only [Option.some_bind]
  rw [expectLit_append]
  rfl

theorem parseControl_ser (c : ControlMessage) (h : ValidControl c) :
    parseControl (serControl c) = some c := by
  cases c with
  | hello b =>
    unfold serControl parseControl
    simp only [List.append_assoc]
    rw [expectLit_append]
    simp only [Option.some_bind]
    rw [parseJString_ser _ _ (by decide)]
    simp only [Option.some_bind]
    rw [expectLit_append]
    simp only [Option.some_bind, reduceIte]
    rw [parseHello_ser b [125] h]
    simp
  | peerList b =>
    unfold serControl parseControl
    simp only [List.append_assoc]
    rw [expectLit_append]
    simp only [Option.some_bind]
    rw [parseJString_ser _ _ (by decide)]
    simp only [Option.some_bind]
    rw [expectLit_append]
    simp only [Option.some_bind]
    rw [if_neg (by decide)]
    simp only [reduceIte]
    rw [parsePeerList_ser b [125] h]
    simp
  | peerJoined b =>
    unfold serControl parseControl
    simp only [List.append_assoc]
    rw [expectLit_append]
    simp only [Option.some_bind]
    rw [parseJString_ser _ _ (by decide)]
    simp only [Option.some_bind]
    rw [expectLit_append]
    simp only [Option.some_bind]
    rw [if_neg (by decide), if_neg (by decide)]
    simp only [reduceIte]
    rw [parsePeerJoined_ser b [125] h]
    simp
  | peerLeft b =>
    unfold serControl parseControl
    simp only [List.append_assoc]
    rw [expectLit_append]
    simp only [Option.some_bind]
    rw [parseJString_ser _ _ (by decide)]
    simp only [Option.some_bind]
    rw [expectLit_append]
    simp only [Option.some_bind]
    rw [if_neg (by decide), if_neg (by decide), if_neg (by decide)]
    simp only [reduceIte]
    rw [parsePeerLeft_ser b [125] h]
    simp
  | saltExchange b =>
    unfold serControl parseControl
    simp only [List.append_assoc]
    rw [expectLit_append]
    simp only [Option.some_bind]
    rw [parseJString_ser _ _ (by decide)]
    simp only [Option.some_bind]
    rw [expectLit_append]
    simp only [Option.some_bind]
    rw [if_neg (by decide), if_neg (by decide), if_neg (by decide), if_neg (by decide)]
    simp only [reduceIte]
    rw [parseSaltExchange_ser b [125] h]
    simp
  | errorMsg m =>
    unfold serControl parseControl
    simp only [List.append_assoc]
    rw [expectLit_append]
    simp only [Option.some_bind]
    rw [parseJString_ser _ _ (by decide)]
    simp only [Option.some_bind]
    rw [expectLit_append]
    simp only [Option.some_bind]
    rw [if_neg (by decide), if_neg (by decide), if_neg (by decide),
      if_neg (by decide), if_neg (by decide)]
    simp only [reduceIte]
    rw [expectLit_append]
    simp only [Option.some_bind]
    rw [parseJString_ser _ _ h]
    simp only [Option.some_bind]
    rw [show ([125] : List Nat) ++ [125] = [125] ++ [125] from rfl, expectLit_append]
    simp

/-! ## Length-prefixed frame codec -/

/-- Assemble a frame: little-endian `u32` length (type byte plus payload),
the type byte, then the payload; fail when the length exceeds `u32`. -/
def mkFrame (t : Nat) (payload : List Nat) : Except CoreError (List Nat) :=
  if 1 + payload.length ≥ 4294967296 then .error .invalidFrameLength
  else .ok (u32le (1 + payload.length) ++ t :: payload)

/-- Model of `encode_encrypted_payload`: compact binary sub-encoding of an
encrypted envelope. -/
def encode_encrypted_payload (p : EncryptedPayload) : Except CoreError (List Nat) :=
  if (utf8Enc p.sender_device_id).length ≥ 65536 then .error .invalidFrameLength
  else if p.ciphertext.length ≥ 4294967296 then .error .invalidFrameLength
  else
    .ok (u16le (utf8Enc p.sender_device_id).length ++
      (utf8Enc p.sender_device_id ++
        (u64le p.counter ++ (u32le p.ciphertext.length ++ p.ciphertext))))

/-- Model of `encode_frame`: type byte 0 for control (JSON payload), 1 for
encrypted (compact payload). -/
def encode_frame : WireMessage → Except CoreError (List Nat)
  | .control c => mkFrame 0 (serControl c)
  | .encrypted p => (encode_encrypted_payload p).bind (mkFrame 1)

/-- Model of `decode_encrypted_payload`: strict parse of the compact
sub-encoding, requiring exact byte consumption. -/
def decode_encrypted_payload (bytes : List Nat) : Except CoreError EncryptedPayload :=
  if bytes.length < 14 then .error .invalidFrameLength
  else
    if (bytes.drop 2).length < leNum (bytes.take 2) + 12 then .error .invalidFrameLength
    else
      match utf8Dec ((bytes.drop 2).take (leNum (bytes.take 2))) with
      | none => .error .serialization
      | some did =>
        if ((((bytes.drop 2).drop (leNum (bytes.take 2))).drop 8).drop 4).length ≠
            leNum ((((bytes.drop 2).drop (leNum (bytes.take 2))).drop 8).take 4) then
          .error .invalidFrameLength
        else
          .ok ⟨did, leNum (((bytes.drop 2).drop (leNum (bytes.take 2))).take 8),
            (((bytes.drop 2).drop (leNum (bytes.take 2))).drop 8).drop 4⟩

/-- Model of `decode_frame`: check the length header, then dispatch on the
type byte. -/
def decode_frame (frame : List Nat) : Except CoreError WireMessage :=
  if frame.length < 5 then .error .invalidFrameLength
  else if leNum (frame.take 4) + 4 ≠ frame.length then .error .invalidFrameLength
  else if frame.getD 4 0 = 0 then
    match parseControl (frame.drop 5) with
    | none => .error .serialization
    | some c => .ok (.control c)
  else if frame.getD 4 0 = 1 then
    (decode_encrypted_payload (frame.drop 5)).map .encrypted
  else .error (.unsupportedMessageType (frame.getD 4 0))

theorem leNum_cons (b : Nat) (t : List Nat) : leNum (b :: t) = b + 256 * leNum t := rfl

theorem leNum_u16le (n : Nat) (h : n < 65536) : leNum (u16le n) = n := by
  simp only [u16le, leNum, List.foldr]
  omega

theorem leNum_u32le (n : Nat) (h : n < 4294967296) : leNum (u32le n) = n := by
  simp only [u32le, leNum, List.foldr]
  omega

theorem leNum_u64le (n : Nat) (h : n < 18446744073709551616) :
    leNum (u64le n) = n := by
  simp only [u64le, leNum, List.foldr]
  omega

theorem u16le_leNum (l : List Nat) (hlen : l.length = 2) (hb : ∀ x ∈ l, x < 256) :
    u16le (leNum l) = l := by
  match l, hlen with
  | [a, b], _ =>
    have ha : a < 256 := hb a (by simp)
    have hbb : b < 256 := hb b (by simp)
    simp only [u16le, leNum, List.foldr, List.cons.injEq, and_true]
    constructor <;> omega

theorem u32le_leNum (l : List Nat) (hlen : l.length = 4) (hb : ∀ x ∈ l, x < 256) :
    u32le (leNum l) = l := by
  match l, hlen with
  | [a, b, c, d], _ =>
    have ha : a < 256 := hb a (by simp)
    have hbb : b < 256 := hb b (by simp)
    have hc : c < 256 := hb c (by simp)
    have hd : d < 256 := hb d (by simp)
    simp only [u32le, leNum, List.foldr, List.cons.injEq, and_true]
    refine ⟨?_, ?_, ?_, ?_⟩ <;> omega

theorem u64le_leNum (l : List Nat) (hlen : l.length = 8) (hb : ∀ x ∈ l, x < 256) :
    u64le (leNum l) = l := by
  match l, hlen with
  | [a, b, c, d, e, f, g, h], _ =>
    have ha : a < 256 := hb a (by simp)
    have hbb : b < 256 := hb b (by simp)
    have hc : c < 256 := hb c (by simp)
    have hd : d < 256 := hb d (by simp)
    have he : e < 256 := hb e (by simp)
    have hf : f < 256 := hb f (by simp)
    have hg : g < 256 := hb g (by simp)
    have hh : h < 256 := hb h (by simp)
    simp only [u64le, leNum, List.foldr, List.cons.injEq, and_true]
    refine ⟨?_, ?_, ?_, ?_, ?_, ?_, ?_, ?_⟩ <;> omega

theorem leNum_lt (l : List Nat) (hb : ∀ x ∈ l, x < 256) :
    leNum l < 256 ^ l.length := by
  induction l with
  | nil => simp [leNum]
  | cons b t ih =>
    have hbb : b < 256 := hb b (by simp)
    have ht := ih (fun x hx => hb x (by simp [hx]))
    rw [leNum_cons]
    have : 256 ^ (b :: t).length = 256 * 256 ^ t.length := by
      rw [List.length_cons, pow_succ, Nat.mul_comm]
    rw [this]
    omega

theorem list_take4_getD_drop5 (b : List Nat) (h : 5 ≤ b.length) :
    b = b.take 4 ++ b.getD 4 0 :: b.drop 5 := by
  match b, h with
  | b0 :: b1 :: b2 :: b3 :: b4 :: rest, _ => rfl

theorem decode_encode_encrypted (p : EncryptedPayload) (payload : List Nat)
    (hs : ValidStr p.sender_device_id) (hc : p.counter < 18446744073709551616)
    (henc : encode_encrypted_payload p = .ok payload) :
    decode_encrypted_payload payload = .ok p := by
  obtain ⟨sid, ctr, ct⟩ := p
  simp only at hs hc
  unfold encode_encrypted_payload at henc
  simp only at henc
  split_ifs at henc with hd1 hd2
  have hpl : payload = u16le (utf8Enc sid).length ++
      (utf8Enc sid ++ (u64le ctr ++ (u32le ct.length ++ ct))) :=
    (Except.ok.inj henc).symm
  subst hpl
  have hdl : (utf8Enc sid).length < 65536 := by omega
  have hcl : ct.length < 4294967296 := by omega
  have htake2 : (u16le (utf8Enc sid).length ++
      (utf8Enc sid ++ (u64le ctr ++ (u32le ct.length ++ ct)))).take 2 =
      u16le (utf8Enc sid).length := List.take_left' (u16le_length _)
  have hdrop2 : (u16le (utf8Enc sid).length ++
      (utf8Enc sid ++ (u64le ctr ++ (u32le ct.length ++ ct)))).drop 2 =
      utf8Enc sid ++ (u64le ctr ++ (u32le ct.length ++ ct)) :=
    List.drop_left' (u16le_length _)
  have hleNum2 : leNum ((u16le (utf8Enc sid).length ++
      (utf8Enc sid ++ (u64le ctr ++ (u32le ct.length ++ ct)))).take 2) =
      (utf8Enc sid).length := by
    rw [htake2, leNum_u16le _ hdl]
  have hlen14 : ¬ (u16le (utf8Enc sid).length ++
      (utf8Enc sid ++ (u64le ctr ++ (u32le ct.length ++ ct)))).length < 14 := by
    simp [u16le, u64le, u32le]
    omega
  have hlen12 : ¬ ((u16le (utf8Enc sid).length ++
      (utf8Enc sid ++ (u64le ctr ++ (u32le ct.length ++ ct)))).drop 2).length <
      leNum ((u16le (utf8Enc sid).length ++
        (utf8Enc sid ++ (u64le ctr ++ (u32le ct.length ++ ct)))).take 2) + 12 := by
    rw [hleNum2, hdrop2]
    simp [u64le, u32le]
  unfold decode_encrypted_payload
  rw [if_neg hlen14, if_neg hlen12, hleNum2, hdrop2]
  rw [List.take_left, List.drop_left]
  rw [utf8Dec_enc sid hs]
  have htk8 : (u64le ctr ++ (u32le ct.length ++ ct)).take 8 = u64le ctr :=
    List.take_left' (u64le_length _)
  have hdp8 : (u64le ctr ++ (u32le ct.length ++ ct)).drop 8 =
      u32le ct.length ++ ct := List.drop_left' (u64le_length _)
  rw [htk8, hdp8, List.take_left' (u32le_length _), List.drop_left' (u32le_length _)]
  rw [leNum_u32le _ hcl]
  simp [leNum_u64le _ hc]

theorem decode_encode_frame (m : WireMessage) (b : List Nat)
    (hv : ValidWire m) (henc : encode_frame m = .ok b) :
    decode_frame b = .ok m := by
  have hmk : ∀ (t : Nat) (payload : List Nat),
      mkFrame t payload = .ok b → t ≤ 1 →
      b = u32le (1 + payload.length) ++ t :: payload ∧
      1 + payload.length < 4294967296 := by
    intro t payload hb ht
    unfold mkFrame at hb
    split_ifs at hb with hlt
    exact ⟨(Except.ok.inj hb).symm, by omega⟩
  have hdec : ∀ (t : Nat) (payload : List Nat), t ≤ 1 →
      mkFrame t payload = .ok b →
      b.length = 5 + payload.length ∧
      leNum (b.take 4) = 1 + payload.length ∧
      b.getD 4 0 = t ∧ b.drop 5 = payload := by
    intro t payload ht hb
    obtain ⟨hbeq, hlen⟩ := hmk t payload hb ht
    subst hbeq
    refine ⟨by simp [u32le]; omega, ?_, ?_, ?_⟩
    · rw [List.take_left' (u32le_length _), leNum_u32le _ hlen]
    · simp [u32le, List.getD]
    · simp [u32le]
  cases m with
  | control c =>
    obtain ⟨hblen, hle, hgd, hdp⟩ := hdec 0 (serControl c) (by omega) henc
    unfold decode_frame
    rw [if_neg (by omega), if_neg (by omega), if_pos hgd, hdp,
      parseControl_ser c hv]
  | encrypted p =>
    simp only [encode_frame] at henc
    match hep : encode_encrypted_payload p with
    | .error e => rw [hep] at henc; simp [Except.bind] at henc
    | .ok payload =>
      rw [hep] at henc
      simp only [Except.bind] at henc
      obtain ⟨hblen, hle, hgd, hdp⟩ := hdec 1 payload (by omega) henc
      unfold decode_frame
      rw [if_neg (by omega), if_neg (by omega), if_neg (by omega), if_pos hgd, hdp,
        decode_encode_encrypted p payload hv.1 hv.2 hep]
      rfl

theorem decode_frame_len_error (d : List Nat)
    (h : leNum (d.take 4) + 4 ≠ d.length) :
    ∃ err, decode_frame d = .error err := by
  unfold decode_frame
  by_cases h5 : d.length < 5
  · rw [if_pos h5]
    exact ⟨_, rfl⟩
  · rw [if_neg h5, if_pos h]
    exact ⟨_, rfl⟩

theorem decode_frame_eraseIdx (m : WireMessage) (b : List Nat) (i : Nat)
    (henc : encode_frame m = .ok b) (h1 : 1 ≤ i) (h2 : i < b.length) :
    ∃ err, decode_frame (b.eraseIdx i) = .error err := by
  have hshape : ∃ (t : Nat) (payload : List Nat),
      b = u32le (1 + payload.length) ++ t :: payload ∧
      1 + payload.length < 4294967296 := by
    cases m with
    | control c =>
      simp only [encode_frame] at henc
      unfold mkFrame at henc
      split_ifs at henc with hlt
      exact ⟨0, serControl c, (Except.ok.inj henc).symm, by omega⟩
    | encrypted p =>
      simp only [encode_frame] at henc
      match hep : encode_encrypted_payload p with
      | .error e => rw [hep] at henc; simp [Except.bind] at henc
      | .ok payload =>
        rw [hep] at henc
        simp only [Except.bind] at henc
        unfold mkFrame at henc
        split_ifs at henc with hlt
        exact ⟨1, payload, (Except.ok.inj henc).symm, by omega⟩
  obtain ⟨t, payload, hbeq, hL⟩ := hshape
  subst hbeq
  set L := 1 + payload.length with hLdef
  have hblen : (u32le L ++ t :: payload).length = 4 + L := by
    simp [u32le]
    omega
  apply decode_frame_len_error
  have herlen : ((u32le L ++ t :: payload).eraseIdx i).length = 3 + L := by
    rw [List.length_eraseIdx, if_pos h2, hblen]
    omega
  rw [herlen]
  match i, h1 with
  | 1, _ =>
    have he : (u32le L ++ t :: payload).eraseIdx 1 =
        (L % 256) :: (L / 65536 % 256) :: (L / 16777216 % 256) :: t :: payload := by
      simp [u32le, List.eraseIdx]
    rw [he]
    show L % 256 + 256 * (L / 65536 % 256 + 256 * (L / 16777216 % 256 +
      256 * t)) + 4 ≠ 3 + L
    omega
  | 2, _ =>
    have he : (u32le L ++ t :: payload).eraseIdx 2 =
        (L % 256) :: (L / 256 % 256) :: (L / 16777216 % 256) :: t :: payload := by
      simp [u32le, List.eraseIdx]
    rw [he]
    show L % 256 + 256 * (L / 256 % 256 + 256 * (L / 16777216 % 256 +
      256 * t)) + 4 ≠ 3 + L
    omega
  | 3, _ =>
    have he : (u32le L ++ t :: payload).eraseIdx 3 =
        (L % 256) :: (L / 256 % 256) :: (L / 65536 % 256) :: t :: payload := by
      simp [u32le, List.eraseIdx]
    rw [he]
    show L % 256 + 256 * (L / 256 % 256 + 256 * (L / 65536 % 256 +
      256 * t)) + 4 ≠ 3 + L
    omega
  | 4, _ =>
    have he : (u32le L ++ t :: payload).eraseIdx 4 = u32le L ++ payload := by
      simp [u32le, List.eraseIdx]
    rw [he, List.take_left' (u32le_length _), leNum_u32le _ hL]
    omega
  | j + 5, _ =>
    have he : (u32le L ++ t :: payload).eraseIdx (j + 5) =
        u32le L ++ t :: payload.eraseIdx j := by
      simp [u32le, List.eraseIdx]
    rw [he, List.take_left' (u32le_length _), leNum_u32le _ hL]
    omega

/-- Claim C6 (amended): for every well-formed wire message, decoding the
encoded frame returns the message, and deleting any single byte at a
position other than the first (in particular any one-byte truncation from
the end) makes decoding fail. Deleting the very first byte is excluded: a
specially crafted large encrypted frame survives it (see the
counterexample). -/
theorem codec_roundtrip_and_deletion (m : WireMessage) (b : List Nat)
    (hv : ValidWire m) (henc : encode_frame m = .ok b) :
    decode_frame b = .ok m ∧
    ∀ i, 1 ≤ i → i < b.length →
      ∃ err, decode_frame (b.eraseIdx i) = .error err :=
  ⟨decode_encode_frame m b hv henc,
   fun i hi1 hi2 => decode_frame_eraseIdx m b i henc hi1 hi2⟩

/-- Witness for the amended claim C6 at a concrete encrypted message:
decoding its frame returns it, and deleting byte 1 breaks decoding. -/
theorem codec_roundtrip_and_deletion_witness :
    decode_frame
      [17, 0, 0, 0, 1, 1, 0, 97, 1, 0, 0, 0, 0, 0, 0, 0, 1, 0, 0, 0, 5] =
      .ok (.encrypted ⟨[97], 1, [5]⟩) ∧
    ∃ err, decode_frame
      ([17, 0, 0, 0, 1, 1, 0, 97, 1, 0, 0, 0, 0, 0, 0, 0, 1, 0, 0, 0, 5].eraseIdx 1) =
      .error err :=
  ⟨(codec_roundtrip_and_deletion (.encrypted ⟨[97], 1, [5]⟩)
      [17, 0, 0, 0, 1, 1, 0, 97, 1, 0, 0, 0, 0, 0, 0, 0, 1, 0, 0, 0, 5]
      (by decide) rfl).1,
   (codec_roundtrip_and_deletion (.encrypted ⟨[97], 1, [5]⟩)
      [17, 0, 0, 0, 1, 1, 0, 97, 1, 0, 0, 0, 0, 0, 0, 0, 1, 0, 0, 0, 5]
      (by decide) rfl).2 1 (by omega) (by decide)⟩

/-- Ciphertext of the counterexample message: 16842994 zero bytes, kept
behind a definition so that proofs never expand it. -/
def bigCt : List Nat := List.replicate 16842994 0

theorem bigCt_length : bigCt.length = 16842994 :=
  List.length_replicate _ _

/-- Message used to refute the claim that deleting any single byte from an
encoded frame breaks decoding: an encrypted envelope whose device id is the
single NUL character and whose ciphertext has exactly 16842994 bytes. -/
def bigMsg : WireMessage := .encrypted ⟨[0], 0, bigCt⟩

/-- Frame bytes of `bigMsg`. -/
def bigFrame : List Nat :=
  u32le 16843010 ++
    (1 :: (u16le 1 ++ ([0] ++ (u64le 0 ++ (u32le 16842994 ++ bigCt)))))

theorem encode_bigPayload :
    encode_encrypted_payload ⟨[0], 0, bigCt⟩ =
      .ok (u16le 1 ++ ([0] ++ (u64le 0 ++ (u32le 16842994 ++ bigCt)))) := by
  unfold encode_encrypted_payload
  simp only
  have henc0 : utf8Enc [0] = [0] := rfl
  rw [henc0]
  rw [if_neg (by norm_num), if_neg (by rw [bigCt_length]; norm_num)]
  rw [bigCt_length]
  norm_num

theorem mkFrame_bigPayload :
    mkFrame 1 (u16le 1 ++ ([0] ++ (u64le 0 ++ (u32le 16842994 ++ bigCt)))) =
      .ok bigFrame := by
  have hplen : (u16le 1 ++
      ([0] ++ (u64le 0 ++ (u32le 16842994 ++ bigCt)))).length = 16843009 := by
    rw [List.length_append, List.length_append, List.length_append,
      List.length_append, u16le_length, u64le_length, u32le_length, bigCt_length]
    rfl
  unfold mkFrame
  rw [if_neg (by rw [hplen]; norm_num)]
  unfold bigFrame
  rw [hplen]

theorem encode_frame_encrypted_eq (p : EncryptedPayload) :
    encode_frame (.encrypted p) = (encode_encrypted_payload p).bind (mkFrame 1) :=
  rfl

theorem except_ok_bind {α β γ : Type} (a : α) (f : α → Except γ β) :
    (Except.ok a : Except γ α).bind f = f a := rfl

theorem encode_bigMsg : encode_frame bigMsg = .ok bigFrame := by
  rw [show bigMsg = .encrypted ⟨[0], 0, bigCt⟩ from rfl]
  rw [encode_frame_encrypted_eq, encode_bigPayload, except_ok_bind]
  exact mkFrame_bigPayload

theorem decode_bigPayloadBytes :
    decode_encrypted_payload (0 :: 0 :: (u64le 0 ++ (u32le 16842994 ++ bigCt))) =
      .ok ⟨[], 0, bigCt⟩ := by
  have htail : (u64le 0 ++ (u32le 16842994 ++ bigCt)).length = 16843006 := by
    rw [List.length_append, List.length_append, u64le_length, u32le_length,
      bigCt_length]
  have hl2 : (0 :: 0 :: (u64le 0 ++ (u32le 16842994 ++ bigCt))).length =
      16843008 := by
    rw [List.length_cons, List.length_cons, htail]
  unfold decode_encrypted_payload
  rw [hl2]
  rw [if_neg (by norm_num)]
  have htk2 : (0 :: 0 :: (u64le 0 ++ (u32le 16842994 ++ bigCt))).take 2 =
      [0, 0] := rfl
  have hdp2 : (0 :: 0 :: (u64le 0 ++ (u32le 16842994 ++ bigCt))).drop 2 =
      u64le 0 ++ (u32le 16842994 ++ bigCt) := rfl
  rw [htk2, hdp2]
  have hle0 : leNum [0, 0] = 0 := rfl
  rw [hle0]
  rw [if_neg (by rw [htail]; norm_num)]
  rw [List.take_zero, List.drop_zero]
  rw [show utf8Dec [] = some [] from rfl]
  have htk8 : (u64le 0 ++ (u32le 16842994 ++ bigCt)).take 8 = u64le 0 :=
    List.take_left' (u64le_length _)
  have hdp8 : (u64le 0 ++ (u32le 16842994 ++ bigCt)).drop 8 =
      u32le 16842994 ++ bigCt := List.drop_left' (u64le_length _)
  rw [htk8, hdp8]
  rw [List.take_left' (u32le_length _), List.drop_left' (u32le_length _)]
  rw [leNum_u32le 16842994 (by norm_num)]
  show (if bigCt.length ≠ 16842994 then
      (Except.error CoreError.invalidFrameLength : Except CoreError EncryptedPayload)
    else Except.ok ⟨[], leNum (u64le 0), bigCt⟩) = Except.ok ⟨[], 0, bigCt⟩
  rw [if_neg (show ¬ (bigCt.length ≠ 16842994) from by rw [bigCt_length]; omega)]
  rw [leNum_u64le 0 (by norm_num)]

theorem decode_bigFrame_tail :
    decode_frame (bigFrame.eraseIdx 0) = .ok (.encrypted ⟨[], 0, bigCt⟩) := by
  have h1 : bigFrame.eraseIdx 0 =
      1 :: 1 :: 1 :: 1 :: 1 :: 0 :: 0 ::
        (u64le 0 ++ (u32le 16842994 ++ bigCt)) := by
    show (u32le 16843010 ++ _).eraseIdx 0 = _
    norm_num [u32le, u16le, List.eraseIdx]
  rw [h1]
  have htail : (u64le 0 ++ (u32le 16842994 ++ bigCt)).length = 16843006 := by
    rw [List.length_append, List.length_append, u64le_length, u32le_length,
      bigCt_length]
  have hdlen : (1 :: 1 :: 1 :: 1 :: 1 :: 0 :: 0 ::
      (u64le 0 ++ (u32le 16842994 ++ bigCt))).length = 16843013 := by
    rw [List.length_cons, List.length_cons, List.length_cons, List.length_cons,
      List.length_cons, List.length_cons, List.length_cons, htail]
  unfold decode_frame
  rw [hdlen]
  rw [if_neg (by norm_num)]
  have htk4 : (1 :: 1 :: 1 :: 1 :: 1 :: 0 :: 0 ::
      (u64le 0 ++ (u32le 16842994 ++ bigCt))).take 4 = [1, 1, 1, 1] := rfl
  rw [htk4]
  rw [if_neg (by norm_num [leNum])]
  have hgd : (1 :: 1 :: 1 :: 1 :: 1 :: 0 :: 0 ::
      (u64le 0 ++ (u32le 16842994 ++ bigCt))).getD 4 0 = 1 := rfl
  rw [hgd]
  rw [if_neg (by norm_num), if_pos rfl]
  have hdp5 : (1 :: 1 :: 1 :: 1 :: 1 :: 0 :: 0 ::
      (u64le 0 ++ (u32le 16842994 ++ bigCt))).drop 5 =
      0 :: 0 :: (u64le 0 ++ (u32le 16842994 ++ bigCt)) := rfl
  rw [hdp5, decode_bigPayloadBytes]
  rfl

/-- Claim C6 counterexample: the negation of the claim as frozen. For the
concrete message `bigMsg`, deleting the first byte of its encoded frame
still decodes successfully (to a different message), because the shifted
length header happens to match and the shifted payload reparses. -/
theorem codec_deletion_counterexample :
    ¬ (∀ (m : WireMessage) (b : List Nat), ValidWire m →
        encode_frame m = .ok b →
        decode_frame b = .ok m ∧
        ∀ i, i < b.length → ∃ err, decode_frame (b.eraseIdx i) = .error err) := by
  intro h
  have hv : ValidWire bigMsg := by
    constructor
    · intro c hc
      simp only [List.mem_singleton] at hc
      subst hc
      exact Or.inl (by norm_num)
    · norm_num
  have hlen : 0 < bigFrame.length := by
    have hbl : bigFrame.length = 16843014 := by
      show (u32le 16843010 ++
        (1 :: (u16le 1 ++ ([0] ++ (u64le 0 ++ (u32le 16842994 ++ bigCt)))))).length =
        16843014
      rw [List.length_append, List.length_cons, List.length_append,
        List.length_append, List.length_append, List.length_append,
        u32le_length, u16le_length, u64le_length, u32le_length, bigCt_length]
      rfl
    omega
  obtain ⟨err, herr⟩ := (h bigMsg bigFrame hv encode_bigMsg).2 0 hlen
  rw [decode_bigFrame_tail] at herr
  exact absurd herr (by simp)

/-! ## C7: the relay forward path re-encodes the decoded payload -/

/-- Model of the frame built by `forward_encrypted`: the relay wraps the
decoded payload back into `WireMessage::Encrypted` and calls `encode_frame`
on it before broadcasting. -/
def forward_frame (p : EncryptedPayload) : Except CoreError (List Nat) :=
  encode_frame (.encrypted p)

theorem encode_encrypted_payload_mk (sid : List Nat) (ctr : Nat) (ct : List Nat) :
    encode_encrypted_payload ⟨sid, ctr, ct⟩ =
    if (utf8Enc sid).length ≥ 65536 then .error .invalidFrameLength
    else if ct.length ≥ 4294967296 then .error .invalidFrameLength
    else .ok (u16le (utf8Enc sid).length ++
      (utf8Enc sid ++ (u64le ctr ++ (u32le ct.length ++ ct)))) := rfl

theorem encode_decode_encrypted (bytes : List Nat) (p : EncryptedPayload)
    (hb : ∀ x ∈ bytes, x < 256)
    (hdec : decode_encrypted_payload bytes = .ok p) :
    encode_encrypted_payload p = .ok bytes := by
  obtain ⟨sid, ctr, ct⟩ := p
  unfold decode_encrypted_payload at hdec
  split_ifs at hdec with h14 h12 hct
  · split at hdec <;> simp at hdec
  · split at hdec
    · simp at hdec
    · rename_i did hdid
      rw [not_ne_iff] at hct
      injection Except.ok.inj hdec with e1 e2 e3
      subst e1
      subst e2
      subst e3
      have h12' : (bytes.drop 2).length ≥ leNum (bytes.take 2) + 12 := by omega
      have hL2 : (bytes.drop 2).length = bytes.length - 2 := by
        rw [List.length_drop]
      have hlt2 : (bytes.take 2).length = 2 := by
        rw [List.length_take]
        omega
      have hb2 : ∀ x ∈ bytes.take 2, x < 256 :=
        fun x hx => hb x (List.take_subset _ _ hx)
      have hdl : leNum (bytes.take 2) < 65536 := by
        have h := leNum_lt (bytes.take 2) hb2
        rw [hlt2] at h
        norm_num at h
        exact h
      have hdid_enc : utf8Enc did =
          (bytes.drop 2).take (leNum (bytes.take 2)) := (utf8Dec_sound hdid).1
      have hdidlen : (utf8Enc did).length = leNum (bytes.take 2) := by
        rw [hdid_enc, List.length_take, List.length_drop]
        omega
      have hB8len :
          (((bytes.drop 2).drop (leNum (bytes.take 2))).take 8).length = 8 := by
        rw [List.length_take, List.length_drop, List.length_drop]
        omega
      have hbB8 : ∀ x ∈ ((bytes.drop 2).drop (leNum (bytes.take 2))).take 8,
          x < 256 :=
        fun x hx => hb x (List.drop_subset _ _
          (List.drop_subset _ _ (List.take_subset _ _ hx)))
      have hT8take4 :
          ((((bytes.drop 2).drop (leNum (bytes.take 2))).drop 8).take 4).length =
            4 := by
        rw [List.length_take, List.length_drop, List.length_drop,
          List.length_drop]
        omega
      have hbT8 : ∀ x ∈
          (((bytes.drop 2).drop (leNum (bytes.take 2))).drop 8).take 4,
          x < 256 :=
        fun x hx => hb x (List.drop_subset _ _ (List.drop_subset _ _
          (List.drop_subset _ _ (List.take_subset _ _ hx))))
      have hctlen :
          ((((bytes.drop 2).drop (leNum (bytes.take 2))).drop 8).drop 4).length <
            4294967296 := by
        rw [hct]
        have h := leNum_lt
          ((((bytes.drop 2).drop (leNum (bytes.take 2))).drop 8).take 4) hbT8
        rw [hT8take4, show (256 : Nat) ^ 4 = 4294967296 from by norm_num] at h
        exact h
      rw [encode_encrypted_payload_mk]
      rw [if_neg (by rw [hdidlen]; omega), if_neg (by omega)]
      refine congrArg Except.ok ?_
      rw [hdidlen, u16le_leNum (bytes.take 2) hlt2 hb2, hdid_enc,
        u64le_leNum _ hB8len hbB8, hct, u32le_leNum _ hT8take4 hbT8,
        List.take_append_drop 4
          (((bytes.drop 2).drop (leNum (bytes.take 2))).drop 8),
        List.take_append_drop 8 ((bytes.drop 2).drop (leNum (bytes.take 2))),
        List.take_append_drop (leNum (bytes.take 2)) (bytes.drop 2),
        List.take_append_drop 2 bytes]

/-- Claim C7: every byte string `b` that `decode_frame` parses as an
encrypted payload `p` is reproduced byte-for-byte by the relay's forward
path: `encode_frame (WireMessage.encrypted p)` — the frame `forward_encrypted`
broadcasts — equals `b` exactly, so re-encoding never alters the bytes. -/
theorem relay_forward_reuses_bytes (b : List Nat) (p : EncryptedPayload)
    (hb : ∀ x ∈ b, x < 256)
    (hdec : decode_frame b = .ok (.encrypted p)) :
    forward_frame p = .ok b := by
  unfold decode_frame at hdec
  split_ifs at hdec with h5 hle hgd0 hgd1
  · split at hdec
    · simp at hdec
    · simp at hdec
  · rcases hdq : decode_encrypted_payload (b.drop 5) with e | q
    · rw [hdq] at hdec
      simp [Except.map] at hdec
    · rw [hdq] at hdec
      simp only [Except.map] at hdec
      have hqp : q = p := WireMessage.encrypted.inj (Except.ok.inj hdec)
      subst hqp
      have hb5 : ∀ x ∈ b.drop 5, x < 256 :=
        fun x hx => hb x (List.drop_subset _ _ hx)
      have henc := encode_decode_encrypted (b.drop 5) q hb5 hdq
      unfold forward_frame
      rw [encode_frame_encrypted_eq, henc, except_ok_bind]
      have hle' : leNum (b.take 4) + 4 = b.length := not_ne_iff.mp hle
      have hb4 : ∀ x ∈ b.take 4, x < 256 :=
        fun x hx => hb x (List.take_subset _ _ hx)
      have ht4 : (b.take 4).length = 4 := by
        rw [List.length_take]
        omega
      have hlt : leNum (b.take 4) < 4294967296 := by
        have h := leNum_lt (b.take 4) hb4
        rw [ht4] at h
        norm_num at h
        exact h
      have hd5len : (b.drop 5).length = b.length - 5 := by
        rw [List.length_drop]
      unfold mkFrame
      rw [if_neg (by omega)]
      refine congrArg Except.ok ?_
      have h1p : 1 + (b.drop 5).length = leNum (b.take 4) := by omega
      rw [h1p, u32le_leNum (b.take 4) ht4 hb4, ← hgd1]
      exact (list_take4_getD_drop5 b (by omega)).symm

/-- Concrete check of `relay_forward_reuses_bytes` on a 22-byte frame. -/
theorem relay_forward_reuses_bytes_witness :
    forward_frame ⟨[98], 2, [7, 8]⟩ =
      .ok [18, 0, 0, 0, 1, 1, 0, 98, 2, 0, 0, 0, 0, 0, 0, 0, 2, 0, 0, 0, 7, 8] :=
  relay_forward_reuses_bytes
    [18, 0, 0, 0, 1, 1, 0, 98, 2, 0, 0, 0, 0, 0, 0, 0, 2, 0, 0, 0, 7, 8]
    ⟨[98], 2, [7, 8]⟩ (by decide) rfl

/-! ## C8: relay room bookkeeping (`register_client` / `unregister_client`) -/

/-- Hard cap on room membership (`MAX_DEVICES_PER_ROOM`). -/
def MAX_DEVICES_PER_ROOM : Nat := 10

/-- Model of the relay's per-socket `Connection` (the outbound channel is
not part of the room-membership state we reason about). -/
structure Connection : Type where
  peer : PeerInfo

/-- A room: `device_id → Connection`, as an association list. -/
abbrev Room : Type := List (List Nat × Connection)

/-- The relay's `rooms` map: `room_id → Room`. -/
abbrev RelayRooms : Type := List (List Nat × Room)

/-- Model of `register_client`: `entry(room).or_default()`, reject when the
room already has `MAX_DEVICES_PER_ROOM` members, otherwise insert (replacing
any connection already stored under the same device id). `none` models the
`Err` return, which leaves the map unchanged. -/
def register_client (rooms : RelayRooms) (room_id : List Nat)
    (conn : Connection) : Option RelayRooms :=
  let room := (alookup rooms room_id).getD []
  if room.length ≥ MAX_DEVICES_PER_ROOM then none
  else some (ainsert rooms room_id (ainsert room conn.peer.device_id conn))

/-- Model of `unregister_client`: remove the device from the room if the
room exists, and drop the room from the map when it becomes empty. -/
def unregister_client (rooms : RelayRooms) (room_id device_id : List Nat) :
    RelayRooms :=
  match alookup rooms room_id with
  | none => rooms
  | some room =>
    let room2 := aremove room device_id
    if room2.isEmpty then aremove rooms room_id
    else ainsert rooms room_id room2

/-- Relay states reachable from the empty rooms map by any interleaving of
joins and leaves. -/
inductive Reachable : RelayRooms → Prop
  | init : Reachable []
  | register (s s2 : RelayRooms) (room_id : List Nat) (conn : Connection) :
      Reachable s → register_client s room_id conn = some s2 → Reachable s2
  | unregister (s : RelayRooms) (room_id device_id : List Nat) :
      Reachable s → Reachable (unregister_client s room_id device_id)

/-- The room-map invariant: distinct room keys, and every room non-empty,
capped at `MAX_DEVICES_PER_ROOM`, with distinct device keys. -/
def RoomsInv (s : RelayRooms) : Prop :=
  (akeys s).Nodup ∧
  ∀ e ∈ s, e.2 ≠ [] ∧ e.2.length ≤ MAX_DEVICES_PER_ROOM ∧ (akeys e.2).Nodup

theorem ainsert_ne_nil {α β : Type} [DecidableEq α] (m : List (α × β))
    (k : α) (v : β) : ainsert m k v ≠ [] := by
  cases m with
  | nil => simp [ainsert]
  | cons kv t =>
    obtain ⟨k2, v2⟩ := kv
    by_cases h : k2 = k <;> simp [ainsert, h]

theorem length_ainsert_le {α β : Type} [DecidableEq α] (m : List (α × β))
    (k : α) (v : β) : (ainsert m k v).length ≤ m.length + 1 := by
  induction m with
  | nil => simp [ainsert]
  | cons kv t ih =>
    obtain ⟨k2, v2⟩ := kv
    by_cases h : k2 = k <;> simp [ainsert, h] <;> omega

theorem mem_ainsert {α β : Type} [DecidableEq α] {m : List (α × β)}
    {k : α} {v : β} {e : α × β} (h : e ∈ ainsert m k v) :
    e = (k, v) ∨ e ∈ m := by
  induction m with
  | nil => simpa [ainsert] using h
  | cons kv t ih =>
    obtain ⟨k2, v2⟩ := kv
    by_cases hk : k2 = k
    · subst hk
      simp [ainsert] at h
      tauto
    · simp [ainsert, hk] at h
      rcases h with h | h
      · right; simp [h]
      · rcases ih h with h2 | h2
        · exact Or.inl h2
        · right; simp [h2]

theorem mem_akeys_ainsert {α β : Type} [DecidableEq α] {m : List (α × β)}
    {k k2 : α} {v : β} (h : k2 ∈ akeys (ainsert m k v)) :
    k2 = k ∨ k2 ∈ akeys m := by
  rcases List.mem_map.mp h with ⟨e, he, hfst⟩
  rcases mem_ainsert he with he2 | he2
  · subst he2
    exact Or.inl hfst.symm
  · exact Or.inr (List.mem_map.mpr ⟨e, he2, hfst⟩)

theorem nodup_akeys_ainsert {α β : Type} [DecidableEq α] (m : List (α × β))
    (k : α) (v : β) (h : (akeys m).Nodup) : (akeys (ainsert m k v)).Nodup := by
  induction m with
  | nil => simp [ainsert, akeys]
  | cons kv t ih =>
    obtain ⟨k2, v2⟩ := kv
    have hcons : akeys ((k2, v2) :: t) = k2 :: akeys t := rfl
    rw [hcons, List.nodup_cons] at h
    by_cases hk : k2 = k
    · subst hk
      have hins : ainsert ((k2, v2) :: t) k2 v = (k2, v) :: t := by
        simp [ainsert]
      rw [hins]
      show (k2 :: akeys t).Nodup
      exact List.nodup_cons.mpr h
    · have hins : ainsert ((k2, v2) :: t) k v = (k2, v2) :: ainsert t k v := by
        simp [ainsert, hk]
      rw [hins]
      show (k2 :: akeys (ainsert t k v)).Nodup
      rw [List.nodup_cons]
      refine ⟨?_, ih h.2⟩
      intro hmem
      rcases mem_akeys_ainsert hmem with h2 | h2
      · exact hk h2
      · exact h.1 h2

theorem aremove_sublist {α β : Type} [DecidableEq α] (m : List (α × β))
    (k : α) : List.Sublist (aremove m k) m := by
  induction m with
  | nil => simp [aremove]
  | cons kv t ih =>
    obtain ⟨k2, v2⟩ := kv
    by_cases hk : k2 = k
    · subst hk
      have hrm : aremove ((k2, v2) :: t) k2 = t := by simp [aremove]
      rw [hrm]
      exact List.sublist_cons_self _ _
    · have hrm : aremove ((k2, v2) :: t) k = (k2, v2) :: aremove t k := by
        simp [aremove, hk]
      rw [hrm]
      exact List.Sublist.cons₂ _ ih

theorem length_aremove_le {α β : Type} [DecidableEq α] (m : List (α × β))
    (k : α) : (aremove m k).length ≤ m.length :=
  (aremove_sublist m k).length_le

theorem mem_aremove {α β : Type} [DecidableEq α] {m : List (α × β)} {k : α}
    {e : α × β} (h : e ∈ aremove m k) : e ∈ m :=
  (aremove_sublist m k).subset h

theorem nodup_akeys_aremove {α β : Type} [DecidableEq α] (m : List (α × β))
    (k : α) (h : (akeys m).Nodup) : (akeys (aremove m k)).Nodup :=
  List.Nodup.sublist (List.Sublist.map Prod.fst (aremove_sublist m k)) h

theorem alookup_mem {α β : Type} [DecidableEq α] {m : List (α × β)} {k : α}
    {v : β} (h : alookup m k = some v) : (k, v) ∈ m := by
  induction m with
  | nil => simp [alookup] at h
  | cons kv t ih =>
    obtain ⟨k2, v2⟩ := kv
    by_cases hk : k2 = k
    · subst hk
      simp [alookup] at h
      simp [h]
    · simp [alookup, hk] at h
      simp [ih h]

theorem alookup_eq_none {α β : Type} [DecidableEq α] {m : List (α × β)}
    {k : α} (h : k ∉ akeys m) : alookup m k = none := by
  induction m with
  | nil => rfl
  | cons kv t ih =>
    obtain ⟨k2, v2⟩ := kv
    simp [akeys] at h
    have h2 : ¬ k2 = k := fun hh => h.1 hh.symm
    simp [alookup, h2, ih (by simpa [akeys] using h.2)]

theorem alookup_aremove_self {α β : Type} [DecidableEq α] {m : List (α × β)}
    (k : α) (h : (akeys m).Nodup) : alookup (aremove m k) k = none := by
  induction m with
  | nil => rfl
  | cons kv t ih =>
    obtain ⟨k2, v2⟩ := kv
    simp [akeys] at h
    by_cases hk : k2 = k
    · subst hk
      have hrm : aremove ((k2, v2) :: t) k2 = t := by simp [aremove]
      rw [hrm]
      exact alookup_eq_none (by simpa [akeys] using h.1)
    · have hrm : aremove ((k2, v2) :: t) k = (k2, v2) :: aremove t k := by
        simp [aremove, hk]
      rw [hrm]
      simp [alookup, hk]
      exact ih (by simpa [akeys] using h.2)

theorem roomsInv_reachable (s : RelayRooms) (h : Reachable s) : RoomsInv s := by
  induction h with
  | init => exact ⟨List.nodup_nil, by simp⟩
  | register s s2 rid conn hs hreg ih =>
    simp only [register_client] at hreg
    split_ifs at hreg with hfull
    obtain rfl := Option.some.inj hreg
    have hroomInv : ((alookup s rid).getD []).length ≤ MAX_DEVICES_PER_ROOM ∧
        (akeys ((alookup s rid).getD [])).Nodup := by
      cases hak : alookup s rid with
      | none => simp [akeys]
      | some room =>
        have hmem := ih.2 (rid, room) (alookup_mem hak)
        simpa using ⟨hmem.2.1, hmem.2.2⟩
    refine ⟨nodup_akeys_ainsert s rid _ ih.1, ?_⟩
    intro e he
    rcases mem_ainsert he with he2 | he2
    · subst he2
      show ainsert ((alookup s rid).getD []) conn.peer.device_id conn ≠ [] ∧
        (ainsert ((alookup s rid).getD [])
          conn.peer.device_id conn).length ≤ MAX_DEVICES_PER_ROOM ∧
        (akeys (ainsert ((alookup s rid).getD [])
          conn.peer.device_id conn)).Nodup
      refine ⟨ainsert_ne_nil _ _ _, ?_, nodup_akeys_ainsert _ _ _ hroomInv.2⟩
      have h1 := length_ainsert_le ((alookup s rid).getD [])
        conn.peer.device_id conn
      omega
    · exact ih.2 e he2
  | unregister s rid did hs ih =>
    cases hak : alookup s rid with
    | none =>
      have heq : unregister_client s rid did = s := by
        unfold unregister_client
        rw [hak]
      rw [heq]
      exact ih
    | some room =>
      have heq : unregister_client s rid did =
          if (aremove room did).isEmpty = true then aremove s rid
          else ainsert s rid (aremove room did) := by
        unfold unregister_client
        rw [hak]
      rw [heq]
      have hroomInv := ih.2 (rid, room) (alookup_mem hak)
      by_cases hemp : (aremove room did).isEmpty = true
      · rw [if_pos hemp]
        exact ⟨List.Nodup.sublist (List.Sublist.map Prod.fst
            (aremove_sublist s rid)) ih.1,
          fun e he => ih.2 e (mem_aremove he)⟩
      · rw [if_neg hemp]
        refine ⟨nodup_akeys_ainsert s rid _ ih.1, ?_⟩
        intro e he
        rcases mem_ainsert he with he2 | he2
        · subst he2
          show aremove room did ≠ [] ∧
            (aremove room did).length ≤ MAX_DEVICES_PER_ROOM ∧
            (akeys (aremove room did)).Nodup
          refine ⟨?_, ?_, nodup_akeys_aremove _ _ hroomInv.2.2⟩
          · intro hnil
            rw [hnil] at hemp
            exact hemp rfl
          · have h1 := length_aremove_le room did
            have h2 : room.length ≤ MAX_DEVICES_PER_ROOM := hroomInv.2.1
            omega
        · exact ih.2 e he2

/-- Claim C8: in every relay state reachable from the empty rooms map,
every room present is non-empty, holds at most 10 devices, and stores at
most one connection per device id; `register_client` rejects exactly when
the target room already holds 10 devices (and a successful registration
maps the device id to the new connection, replacing any prior one); and a
room emptied by `unregister_client` is removed from the map. -/
theorem relay_room_invariants (s : RelayRooms) (hs : Reachable s) :
    (∀ e ∈ s, e.2 ≠ [] ∧ e.2.length ≤ MAX_DEVICES_PER_ROOM ∧
      (akeys e.2).Nodup) ∧
    (∀ room_id conn, register_client s room_id conn = none ↔
      ((alookup s room_id).getD []).length = MAX_DEVICES_PER_ROOM) ∧
    (∀ room_id conn s2, register_client s room_id conn = some s2 →
      alookup ((alookup s2 room_id).getD []) conn.peer.device_id =
        some conn) ∧
    (∀ room_id device_id room, alookup s room_id = some room →
      aremove room device_id = [] →
      alookup (unregister_client s room_id device_id) room_id = none) := by
  have hinv := roomsInv_reachable s hs
  refine ⟨hinv.2, ?_, ?_, ?_⟩
  · intro rid conn
    have hle : ((alookup s rid).getD []).length ≤ MAX_DEVICES_PER_ROOM := by
      cases hak : alookup s rid with
      | none => simp
      | some room => simpa using (hinv.2 (rid, room) (alookup_mem hak)).2.1
    constructor
    · intro hnone
      simp only [register_client] at hnone
      split_ifs at hnone with hfull
      omega
    · intro heq
      simp only [register_client]
      rw [if_pos heq.ge]
  · intro rid conn s2 hreg
    simp only [register_client] at hreg
    split_ifs at hreg with hfull
    obtain rfl := Option.some.inj hreg
    rw [alookup_ainsert_self]
    exact alookup_ainsert_self _ _ _
  · intro rid did room hak hrem
    have heq : unregister_client s rid did =
        if (aremove room did).isEmpty = true then aremove s rid
        else ainsert s rid (aremove room did) := by
      unfold unregister_client
      rw [hak]
    rw [heq, hrem]
    exact alookup_aremove_self rid hinv.1

/-- Concrete check of `relay_room_invariants`: in the one-room state built
by a single successful registration, rejection is equivalent to the room
holding 10 devices (here it holds 1, and registration is accepted). -/
theorem relay_room_invariants_witness :
    (register_client [([100], [([97], Connection.mk ⟨[97], [110]⟩)])] [100]
        (Connection.mk ⟨[98], [109]⟩) = none ↔
      ((alookup [([100], [([97], Connection.mk ⟨[97], [110]⟩)])]
        [100]).getD []).length = MAX_DEVICES_PER_ROOM) :=
  (relay_room_invariants [([100], [([97], Connection.mk ⟨[97], [110]⟩)])]
    (Reachable.register [] _ [100] (Connection.mk ⟨[97], [110]⟩)
      Reachable.init rfl)).2.1 [100] (Connection.mk ⟨[98], [109]⟩)

/-! ## C9: file chunking and reassembly -/

/-- A character of the standard base64 alphabet (`base64::engine::general_purpose::STANDARD`). -/
def b64Char (n : Nat) : Nat :=
  if n < 26 then 65 + n
  else if n < 52 then 97 + (n - 26)
  else if n < 62 then 48 + (n - 52)
  else if n = 62 then 43
  else 47

/-- Inverse of the standard base64 alphabet. -/
def b64Val (c : Nat) : Option Nat :=
  if 65 ≤ c ∧ c ≤ 90 then some (c - 65)
  else if 97 ≤ c ∧ c ≤ 122 then some (c - 97 + 26)
  else if 48 ≤ c ∧ c ≤ 57 then some (c - 48 + 52)
  else if c = 43 then some 62
  else if c = 47 then some 63
  else none

/-- Standard base64 encoding with padding, three input bytes per step
(fuel-driven for kernel reducibility; `fuel ≥ length` suffices). -/
def base64EncAux : Nat → List Nat → List Nat
  | 0, _ => []
  | fuel + 1, l =>
    match l with
    | [] => []
    | [a] => [b64Char (a / 4), b64Char (a % 4 * 16), 61, 61]
    | [a, b] =>
      [b64Char (a / 4), b64Char (a % 4 * 16 + b / 16), b64Char (b % 16 * 4), 61]
    | a :: b :: c :: t =>
      b64Char (a / 4) :: b64Char (a % 4 * 16 + b / 16) ::
        b64Char (b % 16 * 4 + c / 64) :: b64Char (c % 64) :: base64EncAux fuel t

/-- `engine.encode` of the STANDARD engine. -/
def base64Enc (l : List Nat) : List Nat := base64EncAux l.length l

/-- Strict base64 decoding (canonical padding required, trailing bits must
be zero, padding only in the final quantum), as `engine.decode` of the
STANDARD engine. -/
def base64DecAux : Nat → List Nat → Option (List Nat)
  | 0, l => if l = [] then some [] else none
  | fuel + 1, l =>
    match l with
    | [] => some []
    | c1 :: c2 :: c3 :: c4 :: t =>
      (b64Val c1).bind fun v1 =>
      (b64Val c2).bind fun v2 =>
      if c3 = 61 then
        if c4 = 61 ∧ t = [] then
          if v2 % 16 = 0 then some [v1 * 4 + v2 / 16] else none
        else none
      else
        (b64Val c3).bind fun v3 =>
        if c4 = 61 then
          if t = [] ∧ v3 % 4 = 0 then
            some [v1 * 4 + v2 / 16, v2 % 16 * 16 + v3 / 4]
          else none
        else
          (b64Val c4).bind fun v4 =>
          (base64DecAux fuel t).map
            (fun r => (v1 * 4 + v2 / 16) :: (v2 % 16 * 16 + v3 / 4) ::
              (v3 % 4 * 64 + v4) :: r)
    | _ => none

/-- `engine.decode` of the STANDARD engine. -/
def base64Dec (l : List Nat) : Option (List Nat) := base64DecAux l.length l

theorem b64Val_b64Char (n : Nat) (h : n < 64) : b64Val (b64Char n) = some n := by
  unfold b64Char b64Val
  split_ifs <;> first
  | omega
  | (simp only [Option.some.injEq]; omega)

theorem b64Char_ne_61 (n : Nat) : b64Char n ≠ 61 := by
  unfold b64Char
  split_ifs <;> omega

theorem base64DecAux_nil (fuel : Nat) : base64DecAux fuel [] = some [] := by
  cases fuel with
  | zero => rfl
  | succ f => rfl

theorem base64DecAux_encAux (fuel : Nat) :
    ∀ (raw : List Nat) (fuel2 : Nat), raw.length ≤ fuel →
      raw.length ≤ fuel2 → (∀ x ∈ raw, x < 256) →
      base64DecAux fuel2 (base64EncAux fuel raw) = some raw := by
  induction fuel with
  | zero =>
    intro raw fuel2 h1 _ _
    have hnil : raw = [] := List.length_eq_zero.mp (by omega)
    subst hnil
    exact base64DecAux_nil fuel2
  | succ f ih =>
    intro raw fuel2 h1 h2 hb
    match raw with
    | [] =>
      rw [show base64EncAux (f + 1) [] = [] from rfl]
      exact base64DecAux_nil fuel2
    | [a] =>
      have ha : a < 256 := hb a (by simp)
      simp only [List.length_cons, List.length_nil] at h2
      obtain ⟨f2, rfl⟩ : ∃ f2, fuel2 = f2 + 1 := ⟨fuel2 - 1, by omega⟩
      rw [show base64EncAux (f + 1) [a] =
        [b64Char (a / 4), b64Char (a % 4 * 16), 61, 61] from rfl]
      show ((b64Val (b64Char (a / 4))).bind fun v1 =>
        (b64Val (b64Char (a % 4 * 16))).bind fun v2 =>
        if (61 : Nat) = 61 then
          if (61 : Nat) = 61 ∧ ([] : List Nat) = [] then
            if v2 % 16 = 0 then some [v1 * 4 + v2 / 16] else none
          else none
        else
          (b64Val 61).bind fun v3 =>
          if (61 : Nat) = 61 then
            if ([] : List Nat) = [] ∧ v3 % 4 = 0 then
              some [v1 * 4 + v2 / 16, v2 % 16 * 16 + v3 / 4]
            else none
          else
            (b64Val 61).bind fun v4 =>
            (base64DecAux f2 []).map
              (fun r => (v1 * 4 + v2 / 16) :: (v2 % 16 * 16 + v3 / 4) ::
                (v3 % 4 * 64 + v4) :: r)) = some [a]
      rw [b64Val_b64Char _ (by omega), b64Val_b64Char _ (by omega)]
      simp only [Option.some_bind, reduceIte, and_self, if_true, true_and]
      rw [if_pos (by omega)]
      simp only [Option.some.injEq, List.cons.injEq, and_true]
      omega
    | [a, b] =>
      have ha : a < 256 := hb a (by simp)
      have hbb : b < 256 := hb b (by simp)
      simp only [List.length_cons, List.length_nil] at h2
      obtain ⟨f2, rfl⟩ : ∃ f2, fuel2 = f2 + 1 := ⟨fuel2 - 1, by omega⟩
      rw [show base64EncAux (f + 1) [a, b] =
        [b64Char (a / 4), b64Char (a % 4 * 16 + b / 16),
          b64Char (b % 16 * 4), 61] from rfl]
      show ((b64Val (b64Char (a / 4))).bind fun v1 =>
        (b64Val (b64Char (a % 4 * 16 + b / 16))).bind fun v2 =>
        if b64Char (b % 16 * 4) = 61 then
          if (61 : Nat) = 61 ∧ ([] : List Nat) = [] then
            if v2 % 16 = 0 then some [v1 * 4 + v2 / 16] else none
          else none
        else
          (b64Val (b64Char (b % 16 * 4))).bind fun v3 =>
          if (61 : Nat) = 61 then
            if ([] : List Nat) = [] ∧ v3 % 4 = 0 then
              some [v1 * 4 + v2 / 16, v2 % 16 * 16 + v3 / 4]
            else none
          else
            (b64Val 61).bind fun v4 =>
            (base64DecAux f2 []).map
              (fun r => (v1 * 4 + v2 / 16) :: (v2 % 16 * 16 + v3 / 4) ::
                (v3 % 4 * 64 + v4) :: r)) = some [a, b]
      rw [b64Val_b64Char _ (by omega), b64Val_b64Char _ (by omega)]
      simp only [Option.some_bind]
      rw [if_neg (b64Char_ne_61 _), b64Val_b64Char _ (by omega)]
      simp only [Option.some_bind, reduceIte, and_self, if_true, true_and]
      rw [if_pos (by omega)]
      simp only [Option.some.injEq, List.cons.injEq, and_true]
      constructor <;> omega
    | a :: b :: c :: t =>
      have ha : a < 256 := hb a (by simp)
      have hbb : b < 256 := hb b (by simp)
      have hc : c < 256 := hb c (by simp)
      have hlt : t.length ≤ f := by
        simp only [List.length_cons] at h1
        omega
      simp only [List.length_cons] at h2
      obtain ⟨f2, rfl⟩ : ∃ f2, fuel2 = f2 + 1 := ⟨fuel2 - 1, by omega⟩
      have ht2 : t.length ≤ f2 := by omega
      rw [show base64EncAux (f + 1) (a :: b :: c :: t) =
        b64Char (a / 4) :: b64Char (a % 4 * 16 + b / 16) ::
          b64Char (b % 16 * 4 + c / 64) :: b64Char (c % 64) ::
          base64EncAux f t from rfl]
      show ((b64Val (b64Char (a / 4))).bind fun v1 =>
        (b64Val (b64Char (a % 4 * 16 + b / 16))).bind fun v2 =>
        if b64Char (b % 16 * 4 + c / 64) = 61 then
          if b64Char (c % 64) = 61 ∧ base64EncAux f t = [] then
            if v2 % 16 = 0 then some [v1 * 4 + v2 / 16] else none
          else none
        else
          (b64Val (b64Char (b % 16 * 4 + c / 64))).bind fun v3 =>
          if b64Char (c % 64) = 61 then
            if base64EncAux f t = [] ∧ v3 % 4 = 0 then
              some [v1 * 4 + v2 / 16, v2 % 16 * 16 + v3 / 4]
            else none
          else
            (b64Val (b64Char (c % 64))).bind fun v4 =>
            (base64DecAux f2 (base64EncAux f t)).map
              (fun r => (v1 * 4 + v2 / 16) :: (v2 % 16 * 16 + v3 / 4) ::
                (v3 % 4 * 64 + v4) :: r)) = some (a :: b :: c :: t)
      rw [b64Val_b64Char _ (by omega), b64Val_b64Char _ (by omega)]
      simp only [Option.some_bind]
      rw [if_neg (b64Char_ne_61 _), b64Val_b64Char _ (by omega)]
      simp only [Option.some_bind]
      rw [if_neg (b64Char_ne_61 _), b64Val_b64Char _ (by omega)]
      simp only [Option.some_bind]
      rw [ih t f2 hlt ht2 (fun x hx => hb x (by simp [hx]))]
      simp only [Option.map_some', Option.some.injEq, List.cons.injEq]
      refine ⟨by omega, by omega, by omega, trivial⟩

theorem base64EncAux_length_ge (fuel : Nat) :
    ∀ raw : List Nat, raw.length ≤ fuel →
      raw.length ≤ (base64EncAux fuel raw).length := by
  induction fuel with
  | zero =>
    intro raw h
    have hnil : raw = [] := List.length_eq_zero.mp (by omega)
    subst hnil
    simp
  | succ f ih =>
    intro raw h
    match raw with
    | [] => simp
    | [a] =>
      rw [show base64EncAux (f + 1) [a] =
        [b64Char (a / 4), b64Char (a % 4 * 16), 61, 61] from rfl]
      simp
    | [a, b] =>
      rw [show base64EncAux (f + 1) [a, b] =
        [b64Char (a / 4), b64Char (a % 4 * 16 + b / 16),
          b64Char (b % 16 * 4), 61] from rfl]
      simp
    | a :: b :: c :: t =>
      have hlt : t.length ≤ f := by
        simp only [List.length_cons] at h
        omega
      have := ih t hlt
      rw [show base64EncAux (f + 1) (a :: b :: c :: t) =
        b64Char (a / 4) :: b64Char (a % 4 * 16 + b / 16) ::
          b64Char (b % 16 * 4 + c / 64) :: b64Char (c % 64) ::
          base64EncAux f t from rfl]
      simp only [List.length_cons]
      omega

theorem base64Dec_enc (raw : List Nat) (hb : ∀ x ∈ raw, x < 256) :
    base64Dec (base64Enc raw) = some raw :=
  base64DecAux_encAux raw.length raw (base64Enc raw).length le_rfl
    (base64EncAux_length_ge raw.length raw le_rfl) hb

/-- `DEFAULT_MAX_FILE_BYTES`: hard cap on transferable file size. -/
def DEFAULT_MAX_FILE_BYTES : Nat := 5 * 1024 * 1024

/-- `MAX_INFLIGHT_TRANSFERS`. -/
def MAX_INFLIGHT_TRANSFERS : Nat := 8

/-- `TRANSFER_TIMEOUT_MS`. -/
def TRANSFER_TIMEOUT_MS : Nat := 120000

/-- `MAX_TOTAL_CHUNKS`. -/
def MAX_TOTAL_CHUNKS : Nat := 256

/-- `FILE_CHUNK_RAW_BYTES`: raw bytes per chunk. -/
def FILE_CHUNK_RAW_BYTES : Nat := 64 * 1024

/-- The JSON chunk envelope (`FileChunkEnvelope`); strings as codepoint
lists, `chunk_b64` holds the base64 text. -/
structure FileChunkEnvelope : Type where
  transfer_id : List Nat
  file_name : List Nat
  total_size : Nat
  chunk_index : Nat
  total_chunks : Nat
  chunk_b64 : List Nat

/-- Raw bytes of chunk `i`: `data[i*FILE_CHUNK_RAW_BYTES .. min((i+1)*…, len)]`. -/
def chunkOf (data : List Nat) (i : Nat) : List Nat :=
  (data.drop (i * FILE_CHUNK_RAW_BYTES)).take FILE_CHUNK_RAW_BYTES

/-- `data.len().div_ceil(FILE_CHUNK_RAW_BYTES)`. -/
def chunksOf (data : List Nat) : Nat :=
  (data.length + (FILE_CHUNK_RAW_BYTES - 1)) / FILE_CHUNK_RAW_BYTES

/-- The sender's transfer id:
`hex::encode(&Sha256::digest(format!("{device_id}:{now_ms}:{file_name}"))[..16])`. -/
def transfer_id_of (device_id : List Nat) (now_ms : Nat)
    (file_name : List Nat) : List Nat :=
  hexEncode ((sha256 (utf8Enc
    (device_id ++ 58 :: (natLit now_ms ++ 58 :: file_name)))).take 16)

/-- The envelope sent for chunk `i` of a transfer. -/
def envOf (tid file_name data : List Nat) (i : Nat) : FileChunkEnvelope :=
  { transfer_id := tid
    file_name := file_name
    total_size := data.length
    chunk_index := i
    total_chunks := chunksOf data
    chunk_b64 := base64Enc (chunkOf data i) }

/-- `serde_json::to_string` of a `FileChunkEnvelope` (compact, fields in
declaration order), as a codepoint list; its UTF-8 length is the
`text_utf8.len()` the sender compares against the event budget. -/
def serFileChunkEnvelope (env : FileChunkEnvelope) : List Nat :=
  [123] ++ jsonStr (ascii "transfer_id") ++ [58] ++ jsonStr env.transfer_id ++
  ([44] ++ jsonStr (ascii "file_name") ++ [58] ++ jsonStr env.file_name ++
  ([44] ++ jsonStr (ascii "total_size") ++ [58] ++ natLit env.total_size ++
  ([44] ++ jsonStr (ascii "chunk_index") ++ [58] ++ natLit env.chunk_index ++
  ([44] ++ jsonStr (ascii "total_chunks") ++ [58] ++ natLit env.total_chunks ++
  ([44] ++ jsonStr (ascii "chunk_b64") ++ [58] ++ jsonStr env.chunk_b64 ++
   [125])))))

/-- Model of `send_file_v1` up to the transport: guards on size and chunk
count, one envelope per chunk, and the per-envelope budget check
`text_utf8.len() > MAX_CLIPBOARD_TEXT_BYTES → Err` (the envelope's
encryption itself is the clipboard-event path modelled elsewhere). -/
def send_file_v1 (device_id : List Nat) (now_ms : Nat)
    (file_name data : List Nat) : Except (List Nat) (List FileChunkEnvelope) :=
  if data.length = 0 then .error (ascii "file is empty")
  else if data.length > DEFAULT_MAX_FILE_BYTES then .error (ascii "file too large")
  else if chunksOf data = 0 then .error (ascii "file produced no chunks")
  else if chunksOf data > MAX_TOTAL_CHUNKS then .error (ascii "too many chunks")
  else if ((List.range (chunksOf data)).map
      (envOf (transfer_id_of device_id now_ms file_name) file_name data)).any
      (fun e => MAX_CLIPBOARD_TEXT_BYTES < strByteLen (serFileChunkEnvelope e))
    then .error (ascii "internal: chunk envelope exceeds max event size")
  else .ok ((List.range (chunksOf data)).map
    (envOf (transfer_id_of device_id now_ms file_name) file_name data))

/-- `char::is_control` (Unicode Cc: U+0000–U+001F and U+007F–U+009F). -/
def isCtrl (c : Nat) : Bool := decide (c < 0x20 ∨ (0x7F ≤ c ∧ c ≤ 0x9F))

/-- The per-character replacement in `sanitize_file_name`:
`\ / : * ? " < > |` and control characters become `_`. -/
def sanitizeChar (c : Nat) : Nat :=
  if c = 92 ∨ c = 47 ∨ c = 58 ∨ c = 42 ∨ c = 63 ∨ c = 34 ∨ c = 60 ∨
      c = 62 ∨ c = 124 ∨ isCtrl c then 95 else c

/-- `String::truncate new_len` on a string of more than `new_len` bytes:
keep the characters filling exactly `new_len` UTF-8 bytes; `none` models
the char-boundary assertion panic when `new_len` falls inside a character's
encoding. -/
def truncPrefix : Nat → List Nat → Option (List Nat)
  | 0, _ => some []
  | _ + 1, [] => none
  | n + 1, c :: t =>
    if utf8Len c ≤ n + 1 then
      (truncPrefix (n + 1 - utf8Len c) t).map (fun r => c :: r)
    else none

/-- Model of `sanitize_file_name`; `none` models the panic of
`out.truncate(128)` when byte offset 128 is not a character boundary
(`out.len()` is the UTF-8 byte length of the accumulated string). -/
def sanitize_file_name (name : List Nat) : Option (List Nat) :=
  if trimStr name = [] then some (ascii "file.bin")
  else
    let out := (trimStr name).map sanitizeChar
    if strByteLen out > 128 then truncPrefix 128 out
    else some out

/-- Receiver-side in-flight state (`InflightTransfer`); `file_name` holds
the sanitized display name chosen when the entry was created. -/
structure InflightTransfer : Type where
  sender_device_id : List Nat
  file_name : List Nat
  total_size : Nat
  total_chunks : Nat
  received : List (Option (List Nat))
  last_update_ms : Nat

/-- A completed transfer (`CompletedFile`); `bytes` are the reassembled
file contents handed to `write_incoming_temp_file`. -/
structure CompletedFile : Type where
  sender_device_id : List Nat
  file_name : List Nat
  size_bytes : Nat
  bytes : List Nat

/-- `format!("{}:{}", sender_device_id, transfer_id)`. -/
def keyOf (sender tid : List Nat) : List Nat := sender ++ 58 :: tid

/-- Concatenation of the stored chunks, `entry.received.iter().flatten()`. -/
def flattenOpt : List (Option (List Nat)) → List Nat
  | [] => []
  | none :: t => flattenOpt t
  | some c :: t => c ++ flattenOpt t

/-- Model of `handle_file_chunk_event`, with the global transfer map passed
and returned explicitly; `.error` models the `Err` returns (and the
out-of-bounds index panic), with the map unchanged. -/
def handle_file_chunk_event (transfers : List (List Nat × InflightTransfer))
    (now : Nat) (sender_device_id : List Nat) (env : FileChunkEnvelope) :
    Except (List Nat)
      (List (List Nat × InflightTransfer) × Option CompletedFile) :=
  if trimStr env.transfer_id = [] then .ok (transfers, none)
  else if env.total_chunks = 0 ∨ env.total_chunks > MAX_TOTAL_CHUNKS then
    .ok (transfers, none)
  else if env.chunk_index ≥ env.total_chunks then .ok (transfers, none)
  else if env.total_size = 0 ∨ env.total_size > DEFAULT_MAX_FILE_BYTES then
    .ok (transfers, none)
  else
    match base64Dec env.chunk_b64 with
    | none => .error (ascii "invalid base64")
    | some chunk =>
      if chunk = [] then .ok (transfers, none)
      else
        let key := keyOf sender_device_id env.transfer_id
        let g1 := transfers.filter
          (fun kv => now - kv.2.last_update_ms ≤ TRANSFER_TIMEOUT_MS)
        if (alookup g1 key).isNone ∧ MAX_INFLIGHT_TRANSFERS ≤ g1.length then
          .ok (g1, none)
        else
          match (match alookup g1 key with
            | some e => Except.ok e
            | none =>
              match sanitize_file_name env.file_name with
              | none =>
                Except.error (ascii "byte index 128 is not a char boundary")
              | some sfn => Except.ok
                { sender_device_id := sender_device_id
                  file_name := sfn
                  total_size := env.total_size
                  total_chunks := env.total_chunks
                  received := List.replicate env.total_chunks none
                  last_update_ms := now } :
            Except (List Nat) InflightTransfer) with
          | .error msg => .error msg
          | .ok entry0 =>
          let g2 := ainsert g1 key entry0
          if entry0.total_chunks ≠ env.total_chunks ∨
              entry0.total_size ≠ env.total_size then .ok (g2, none)
          else
            let entry1 := { entry0 with last_update_ms := now }
            if entry1.received.length ≤ env.chunk_index then
              .error (ascii "chunk index out of bounds")
            else
              let entry2 := if (entry1.received.getD env.chunk_index none).isNone
                then { entry1 with
                  received := entry1.received.set env.chunk_index (some chunk) }
                else entry1
              let g3 := ainsert g2 key entry2
              if entry2.received.any (fun c => c.isNone) then .ok (g3, none)
              else
                let out := flattenOpt entry2.received
                if out.length ≠ entry2.total_size then .ok (g3, none)
                else .ok (aremove g3 key, some
                  { sender_device_id := entry2.sender_device_id
                    file_name := entry2.file_name
                    size_bytes := entry2.total_size
                    bytes := out })

/-- Feed a sequence of chunk events through `handle_file_chunk_event`,
collecting the completions it reports. -/
def run_chunks (now : Nat) (sender : List Nat) :
    List FileChunkEnvelope → List (List Nat × InflightTransfer) →
    List (List Nat × InflightTransfer) × List CompletedFile
  | [], transfers => (transfers, [])
  | env :: rest, transfers =>
    match handle_file_chunk_event transfers now sender env with
    | .error _ => run_chunks now sender rest transfers
    | .ok (t2, none) => run_chunks now sender rest t2
    | .ok (t2, some c) =>
      let r := run_chunks now sender rest t2
      (r.1, c :: r.2)

/-- The in-flight entry for a given received-slot list; `sfn` is the
sanitized file name stored at creation. -/
def entryOf (sender sfn data : List Nat) (now : Nat)
    (recv : List (Option (List Nat))) : InflightTransfer :=
  { sender_device_id := sender
    file_name := sfn
    total_size := data.length
    total_chunks := chunksOf data
    received := recv
    last_update_ms := now }

theorem dropWhile_eq_self_of {p : Nat → Bool} {l : List Nat}
    (h : ∀ c ∈ l, p c = false) : l.dropWhile p = l := by
  cases l with
  | nil => rfl
  | cons a t =>
    rw [List.dropWhile_cons, if_neg (by simp [h a (List.mem_cons_self a t)])]

theorem trimStr_eq_self {s : List Nat} (h : ∀ c ∈ s, isWs c = false) :
    trimStr s = s := by
  unfold trimStr
  rw [dropWhile_eq_self_of h,
    dropWhile_eq_self_of (fun c hc => h c (List.mem_reverse.mp hc)),
    List.reverse_reverse]

theorem isWs_hexDigitL (d : Nat) (h : d < 16) : isWs (hexDigitL d) = false := by
  interval_cases d <;> decide

theorem mem_hexEncode {l : List Nat} (hb : ∀ b ∈ l, b < 256) :
    ∀ c ∈ hexEncode l, ∃ d, d < 16 ∧ c = hexDigitL d := by
  induction l with
  | nil => simp [hexEncode]
  | cons b t ih =>
    intro c hc
    have hblt : b < 256 := hb b (by simp)
    simp only [hexEncode, List.mem_cons] at hc
    rcases hc with rfl | rfl | hc
    · exact ⟨b / 16, by omega, rfl⟩
    · exact ⟨b % 16, by omega, rfl⟩
    · exact ih (fun x hx => hb x (by simp [hx])) c hc

theorem trimStr_hexEncode {l : List Nat} (hb : ∀ b ∈ l, b < 256) :
    trimStr (hexEncode l) = hexEncode l :=
  trimStr_eq_self (fun c hc => by
    obtain ⟨d, hd, rfl⟩ := mem_hexEncode hb c hc
    exact isWs_hexDigitL d hd)

theorem hexEncode_ne_nil {l : List Nat} (h : l ≠ []) : hexEncode l ≠ [] := by
  cases l with
  | nil => exact absurd rfl h
  | cons b t => simp [hexEncode]

theorem trimStr_transfer_id (device_id : List Nat) (now_ms : Nat)
    (file_name : List Nat) :
    trimStr (transfer_id_of device_id now_ms file_name) ≠ [] := by
  unfold transfer_id_of
  rw [trimStr_hexEncode (fun b hbm => sha256_lt_256 _ b (List.take_subset _ _ hbm))]
  apply hexEncode_ne_nil
  intro htake
  have h2 := congrArg List.length htake
  rw [List.length_take, sha256_length] at h2
  simp only [List.length_nil] at h2
  omega

theorem getD_replicate {α : Type} (a d : α) :
    ∀ (n j : Nat), j < n → (List.replicate n a).getD j d = a := by
  intro n
  induction n with
  | zero => intro j h; omega
  | succ m ih =>
    intro j hj
    cases j with
    | zero => rfl
    | succ i => exact ih i (by omega)

theorem getD_set_self {α : Type} (l : List α) (x d : α) :
    ∀ i, i < l.length → (l.set i x).getD i d = x := by
  induction l with
  | nil => intro i h; simp at h
  | cons a t ih =>
    intro i hi
    cases i with
    | zero => rfl
    | succ j =>
      refine ih j ?_
      simp only [List.length_cons] at hi
      omega

theorem getD_set_ne {α : Type} (l : List α) (x d : α) :
    ∀ i j, i ≠ j → (l.set i x).getD j d = l.getD j d := by
  induction l with
  | nil => intro i j h; rfl
  | cons a t ih =>
    intro i j hne
    cases i with
    | zero =>
      cases j with
      | zero => exact absurd rfl hne
      | succ j2 => rfl
    | succ i2 =>
      cases j with
      | zero => rfl
      | succ j2 => exact ih i2 j2 (fun hh => hne (by rw [hh]))

theorem flattenOpt_full (CH : Nat) (hCH : 0 < CH) :
    ∀ (K : Nat) (data : List Nat) (recv : List (Option (List Nat))),
      data.length ≤ K * CH → recv.length = K →
      (∀ j, j < K → recv.getD j none = some ((data.drop (j * CH)).take CH)) →
      flattenOpt recv = data := by
  intro K
  induction K with
  | zero =>
    intro data recv hlen hrlen _
    have hd : data = [] := List.length_eq_zero.mp (by omega)
    have hr : recv = [] := List.length_eq_zero.mp hrlen
    subst hd
    subst hr
    rfl
  | succ m ih =>
    intro data recv hlen hrlen hpt
    match recv, hrlen with
    | r0 :: recv2, hrlen =>
      have h0 : r0 = some (data.take CH) := by
        have h := hpt 0 (by omega)
        rwa [Nat.zero_mul, List.drop_zero] at h
      subst h0
      show data.take CH ++ flattenOpt recv2 = data
      rw [Nat.succ_mul] at hlen
      have ih2 := ih (data.drop CH) recv2
        (by rw [List.length_drop]; omega)
        (by simp only [List.length_cons] at hrlen; omega)
        ?_
      · rw [ih2, List.take_append_drop]
      · intro j hj
        have h2 := hpt (j + 1) (by omega)
        rw [Nat.succ_mul] at h2
        show recv2.getD j none = some (((data.drop CH).drop (j * CH)).take CH)
        rw [List.drop_drop, Nat.add_comm CH (j * CH)]
        exact h2

theorem chunkOf_bytes {data : List Nat} (hdata : ∀ x ∈ data, x < 256)
    (i : Nat) : ∀ x ∈ chunkOf data i, x < 256 := by
  intro x hx
  unfold chunkOf at hx
  exact hdata x (List.drop_subset _ _ (List.take_subset _ _ hx))

theorem chunkOf_ne_nil {data : List Nat} {i : Nat} (hi : i < chunksOf data) :
    chunkOf data i ≠ [] := by
  have hlen : 0 < (chunkOf data i).length := by
    unfold chunkOf FILE_CHUNK_RAW_BYTES
    rw [List.length_take, List.length_drop]
    unfold chunksOf FILE_CHUNK_RAW_BYTES at hi
    omega
  exact List.length_pos.mp hlen

theorem chunksOf_pos {data : List Nat} (hN : 0 < data.length) :
    0 < chunksOf data := by
  unfold chunksOf FILE_CHUNK_RAW_BYTES
  omega

theorem chunksOf_le {data : List Nat}
    (hNmax : data.length ≤ DEFAULT_MAX_FILE_BYTES) :
    chunksOf data ≤ MAX_TOTAL_CHUNKS := by
  unfold chunksOf FILE_CHUNK_RAW_BYTES MAX_TOTAL_CHUNKS
  unfold DEFAULT_MAX_FILE_BYTES at hNmax
  omega

theorem handle_entry_eq (sender tid fn sfn data : List Nat) (now : Nat)
    (recv : List (Option (List Nat))) (i : Nat)
    (hdata : ∀ x ∈ data, x < 256)
    (hN : 0 < data.length) (hNmax : data.length ≤ DEFAULT_MAX_FILE_BYTES)
    (htid : ¬ trimStr tid = [])
    (hi : i < chunksOf data)
    (hrlen : recv.length = chunksOf data)
    (hslot : recv.getD i none = none) :
    handle_file_chunk_event
        [(keyOf sender tid, entryOf sender sfn data now recv)]
        now sender (envOf tid fn data i) =
      (if (recv.set i (some (chunkOf data i))).any (fun c => c.isNone) then
        .ok ([(keyOf sender tid,
          entryOf sender sfn data now
            (recv.set i (some (chunkOf data i))))], none)
      else if (flattenOpt (recv.set i (some (chunkOf data i)))).length ≠
          data.length then
        .ok ([(keyOf sender tid,
          entryOf sender sfn data now
            (recv.set i (some (chunkOf data i))))], none)
      else .ok ([], some
        { sender_device_id := sender
          file_name := sfn
          size_bytes := data.length
          bytes := flattenOpt (recv.set i (some (chunkOf data i))) })) := by
  have hK1 : ¬ (chunksOf data = 0 ∨ chunksOf data > MAX_TOTAL_CHUNKS) := by
    have h1 := chunksOf_pos hN
    have h2 := chunksOf_le hNmax
    omega
  have hN1 : ¬ (data.length = 0 ∨ data.length > DEFAULT_MAX_FILE_BYTES) := by
    omega
  have hgeidx : ¬ (i ≥ chunksOf data) := by omega
  have hb64 : base64Dec (base64Enc (chunkOf data i)) = some (chunkOf data i) :=
    base64Dec_enc _ (chunkOf_bytes hdata i)
  have hchunk_ne : ¬ (chunkOf data i = []) := chunkOf_ne_nil hi
  have hnolen : ¬ (recv.length ≤ i) := by omega
  have hdec : (decide ((0 : Nat) ≤ 120000)) = true := rfl
  simp only [handle_file_chunk_event, envOf, entryOf, keyOf,
    eq_false htid, eq_false hK1, eq_false hgeidx, eq_false hN1, hb64,
    eq_false hchunk_ne, eq_false hnolen, List.filter_cons, List.filter_nil,
    Nat.sub_self, TRANSFER_TIMEOUT_MS, MAX_INFLIGHT_TRANSFERS,
    alookup, ainsert, aremove, Option.isNone_some, Option.isNone_none,
    Option.getD_some, hslot, if_true, if_false, false_and, ne_eq, or_self,
    if_neg, not_false_eq_true, List.length_nil, decide_True, reduceIte,
    hdec, Bool.false_eq_true, not_true, eq_self_iff_true]

theorem handle_nil_eq (sender tid fn sfn data : List Nat) (now : Nat)
    (i : Nat)
    (hdata : ∀ x ∈ data, x < 256)
    (hN : 0 < data.length) (hNmax : data.length ≤ DEFAULT_MAX_FILE_BYTES)
    (htid : ¬ trimStr tid = [])
    (hsan : sanitize_file_name fn = some sfn)
    (hi : i < chunksOf data) :
    handle_file_chunk_event [] now sender (envOf tid fn data i) =
      (if ((List.replicate (chunksOf data) none).set i
          (some (chunkOf data i))).any (fun c => c.isNone) then
        .ok ([(keyOf sender tid,
          entryOf sender sfn data now
            ((List.replicate (chunksOf data) none).set i
              (some (chunkOf data i))))], none)
      else if (flattenOpt ((List.replicate (chunksOf data) none).set i
          (some (chunkOf data i)))).length ≠ data.length then
        .ok ([(keyOf sender tid,
          entryOf sender sfn data now
            ((List.replicate (chunksOf data) none).set i
              (some (chunkOf data i))))], none)
      else .ok ([], some
        { sender_device_id := sender
          file_name := sfn
          size_bytes := data.length
          bytes := flattenOpt ((List.replicate (chunksOf data) none).set i
            (some (chunkOf data i))) })) := by
  have hK1 : ¬ (chunksOf data = 0 ∨ chunksOf data > MAX_TOTAL_CHUNKS) := by
    have h1 := chunksOf_pos hN
    have h2 := chunksOf_le hNmax
    omega
  have hN1 : ¬ (data.length = 0 ∨ data.length > DEFAULT_MAX_FILE_BYTES) := by
    omega
  have hgeidx : ¬ (i ≥ chunksOf data) := by omega
  have hb64 : base64Dec (base64Enc (chunkOf data i)) = some (chunkOf data i) :=
    base64Dec_enc _ (chunkOf_bytes hdata i)
  have hchunk_ne : ¬ (chunkOf data i = []) := chunkOf_ne_nil hi
  have hKi : ¬ (chunksOf data ≤ i) := by omega
  have hslotr : (List.replicate (chunksOf data) none).getD i
      (none : Option (List Nat)) = none := getD_replicate none none _ i hi
  have h80 : ¬ ((8 : Nat) ≤ 0) := by omega
  simp only [handle_file_chunk_event, envOf, entryOf, keyOf, eq_false h80,
    eq_false htid, eq_false hK1, eq_false hgeidx, eq_false hN1, hb64, hsan,
    eq_false hchunk_ne, eq_false hKi, List.filter_nil, List.length_nil,
    MAX_INFLIGHT_TRANSFERS,
    List.length_replicate, alookup, ainsert, aremove, Option.isNone_some,
    Option.isNone_none, Option.getD_some, Option.getD_none, hslotr,
    if_true, if_false, false_and, true_and, and_false, ne_eq, or_self,
    not_false_eq_true, reduceIte, Bool.false_eq_true, not_true,
    eq_self_iff_true]

theorem run_chunks_cons (now : Nat) (sender : List Nat)
    (env : FileChunkEnvelope) (rest : List FileChunkEnvelope)
    (transfers : List (List Nat × InflightTransfer)) :
    run_chunks now sender (env :: rest) transfers =
      match handle_file_chunk_event transfers now sender env with
      | .error _ => run_chunks now sender rest transfers
      | .ok (t2, none) => run_chunks now sender rest t2
      | .ok (t2, some c) =>
        ((run_chunks now sender rest t2).1,
          c :: (run_chunks now sender rest t2).2) := rfl

theorem run_chunks_cons_ok_some (now : Nat) (sender : List Nat)
    (env : FileChunkEnvelope) (rest : List FileChunkEnvelope)
    (transfers t2 : List (List Nat × InflightTransfer)) (c : CompletedFile)
    (h : handle_file_chunk_event transfers now sender env = .ok (t2, some c)) :
    run_chunks now sender (env :: rest) transfers =
      ((run_chunks now sender rest t2).1,
        c :: (run_chunks now sender rest t2).2) := by
  rw [run_chunks_cons, h]

theorem run_chunks_aux (sender tid fn sfn data : List Nat) (now : Nat)
    (hdata : ∀ x ∈ data, x < 256) (hN : 0 < data.length)
    (hNmax : data.length ≤ DEFAULT_MAX_FILE_BYTES)
    (htid : ¬ trimStr tid = [])
    (seq : List FileChunkEnvelope) :
    ∀ (recv : List (Option (List Nat))),
      (∀ e ∈ seq, ∃ i, i < chunksOf data ∧ e = envOf tid fn data i) →
      (seq.map FileChunkEnvelope.chunk_index).Nodup →
      recv.length = chunksOf data →
      (∀ j, j < chunksOf data →
        recv.getD j none = none ∨ recv.getD j none = some (chunkOf data j)) →
      (∀ e ∈ seq, recv.getD e.chunk_index none = none) →
      (∀ j, j < chunksOf data → recv.getD j none = none →
        ∃ e ∈ seq, e.chunk_index = j) →
      (∃ j, j < chunksOf data ∧ recv.getD j none = none) →
      run_chunks now sender seq
          [(keyOf sender tid, entryOf sender sfn data now recv)] =
        ([], [{ sender_device_id := sender, file_name := sfn,
                size_bytes := data.length, bytes := data }]) := by
  induction seq with
  | nil =>
    intro recv hseq hnodup hrlen hrecv hdisj hcov hmiss
    obtain ⟨j, hj, hjn⟩ := hmiss
    obtain ⟨e, he, _⟩ := hcov j hj hjn
    exact absurd he (List.not_mem_nil e)
  | cons e rest ih =>
    intro recv hseq hnodup hrlen hrecv hdisj hcov hmiss
    obtain ⟨i, hi, rfl⟩ := hseq e (List.mem_cons_self e rest)
    have hslot : recv.getD i none = none :=
      hdisj _ (List.mem_cons_self _ rest)
    simp only [List.map_cons] at hnodup
    have hnd := List.nodup_cons.mp hnodup
    have hnd1 : i ∉ rest.map FileChunkEnvelope.chunk_index := hnd.1
    rw [run_chunks_cons,
      handle_entry_eq sender tid fn sfn data now recv i hdata hN hNmax htid
        hi hrlen hslot]
    by_cases hany :
        ((recv.set i (some (chunkOf data i))).any (fun c => c.isNone)) = true
    · rw [if_pos hany]
      refine ih (recv.set i (some (chunkOf data i)))
        (fun e2 he2 => hseq e2 (List.mem_cons_of_mem _ he2)) hnd.2
        (by rw [List.length_set]; exact hrlen) ?_ ?_ ?_ ?_
      · intro j hj
        by_cases hij : i = j
        · subst hij
          rw [getD_set_self _ _ _ _ (by rw [hrlen]; exact hi)]
          exact Or.inr rfl
        · rw [getD_set_ne _ _ _ _ _ hij]
          exact hrecv j hj
      · intro e2 he2
        have hmem : e2.chunk_index ∈ rest.map FileChunkEnvelope.chunk_index :=
          List.mem_map_of_mem _ he2
        rw [getD_set_ne _ _ _ _ _ (fun hh : i = e2.chunk_index =>
          hnd1 (hh ▸ hmem))]
        exact hdisj e2 (List.mem_cons_of_mem _ he2)
      · intro j hj hjn
        have hjne : ¬ (i = j) := by
          intro hh
          subst hh
          rw [getD_set_self _ _ _ _ (by rw [hrlen]; exact hi)] at hjn
          exact Option.noConfusion hjn
        rw [getD_set_ne _ _ _ _ _ hjne] at hjn
        obtain ⟨e2, he2, hidx⟩ := hcov j hj hjn
        rcases List.mem_cons.mp he2 with rfl | h2
        · exact absurd hidx hjne
        · exact ⟨e2, h2, hidx⟩
      · rcases List.any_eq_true.mp hany with ⟨x, hxmem, hxn⟩
        have hxe : x = none := Option.isNone_iff_eq_none.mp hxn
        subst hxe
        obtain ⟨j, hj, hget⟩ := List.getElem_of_mem hxmem
        refine ⟨j, ?_, ?_⟩
        · rw [List.length_set, hrlen] at hj
          exact hj
        · rw [List.getD_eq_getElem _ _ hj, hget]
    · rw [if_neg hany]
      have hfull : ∀ j, j < chunksOf data →
          (recv.set i (some (chunkOf data i))).getD j none =
            some (chunkOf data j) := by
        intro j hj
        by_cases hij : i = j
        · subst hij
          rw [getD_set_self _ _ _ _ (by rw [hrlen]; exact hi)]
        · rw [getD_set_ne _ _ _ _ _ hij]
          rcases hrecv j hj with hn | hs
          · exfalso
            apply hany
            refine List.any_eq_true.mpr ⟨none, ?_, rfl⟩
            have hjlen : j < (recv.set i (some (chunkOf data i))).length := by
              rw [List.length_set, hrlen]
              exact hj
            have hg : (recv.set i (some (chunkOf data i))).getD j none =
                none := by
              rw [getD_set_ne _ _ _ _ _ hij]
              exact hn
            rw [List.getD_eq_getElem _ _ hjlen] at hg
            rw [← hg]
            exact List.getElem_mem hjlen
          · exact hs
      have hflat : flattenOpt (recv.set i (some (chunkOf data i))) = data := by
        refine flattenOpt_full FILE_CHUNK_RAW_BYTES
          (by unfold FILE_CHUNK_RAW_BYTES; omega) (chunksOf data) data _
          ?_ (by rw [List.length_set]; exact hrlen) (fun j hj => hfull j hj)
        unfold chunksOf FILE_CHUNK_RAW_BYTES
        omega
      rw [if_neg (by rw [hflat]; simp)]
      cases rest with
      | nil =>
        rw [hflat]
        rfl
      | cons e2 t2 =>
        exfalso
        obtain ⟨i2, hi2, he2eq⟩ := hseq e2 (by simp)
        have hd2 := hdisj e2 (by simp)
        have hidx : e2.chunk_index = i2 := by
          rw [he2eq]
          simp [envOf]
        have hne : ¬ (i2 = i) := by
          intro hh
          apply hnd1
          refine List.mem_map.mpr ⟨e2, List.mem_cons_self _ _, ?_⟩
          rw [hidx, hh]
        have hrn : recv.getD i2 none = none := by
          rw [← hidx]
          exact hd2
        have hsome := hfull i2 hi2
        rw [getD_set_ne _ _ _ _ _ (fun hh : i = i2 => hne hh.symm), hrn]
          at hsome
        exact Option.noConfusion hsome

/-- Claim C9 (amended): for a non-empty file of `N ≤ 5 MiB` bytes, the
sender emits `ceil(N / 65536)` chunk envelopes sharing one transfer id and
`total_size = N`; feeding the receiver each envelope exactly once, in any
order, completes the transfer exactly once, returning the original bytes
with `size_bytes = N`. (Duplicate deliveries are stored idempotently only
while the transfer is in flight; a duplicate arriving after completion
re-creates the entry, so duplicates can complete a transfer twice.) -/
theorem file_transfer_roundtrip (device_id file_name sfn data : List Nat)
    (now_ms now : Nat) (envs seq : List FileChunkEnvelope)
    (hb : ∀ x ∈ data, x < 256) (hN : 0 < data.length)
    (hmax : data.length ≤ DEFAULT_MAX_FILE_BYTES)
    (hsan : sanitize_file_name file_name = some sfn)
    (hsend : send_file_v1 device_id now_ms file_name data = .ok envs)
    (hperm : seq.Perm envs) :
    envs.length =
      (data.length + (FILE_CHUNK_RAW_BYTES - 1)) / FILE_CHUNK_RAW_BYTES ∧
    (∀ e ∈ envs, e.transfer_id = transfer_id_of device_id now_ms file_name ∧
      e.total_size = data.length) ∧
    run_chunks now device_id seq [] =
      ([], [{ sender_device_id := device_id, file_name := sfn,
              size_bytes := data.length, bytes := data }]) := by
  have hKpos := chunksOf_pos hN
  have hKle := chunksOf_le hmax
  unfold send_file_v1 at hsend
  split_ifs at hsend with hc1 hc2 hc3 hc4 hc5
  obtain rfl := Except.ok.inj hsend
  refine ⟨?_, ?_, ?_⟩
  · rw [List.length_map, List.length_range]
    rfl
  · intro e he
    obtain ⟨i, _, rfl⟩ := List.mem_map.mp he
    exact ⟨rfl, rfl⟩
  · have htid : ¬ trimStr (transfer_id_of device_id now_ms file_name) = [] :=
      trimStr_transfer_id device_id now_ms file_name
    have henvmap : (List.map (envOf (transfer_id_of device_id now_ms
        file_name) file_name data) (List.range (chunksOf data))).map
        FileChunkEnvelope.chunk_index = List.range (chunksOf data) := by
      rw [List.map_map]
      rw [show FileChunkEnvelope.chunk_index ∘ envOf (transfer_id_of
        device_id now_ms file_name) file_name data = id from rfl]
      exact List.map_id _
    cases seq with
    | nil =>
      exfalso
      have hnil := List.Perm.eq_nil hperm.symm
      have hlen := congrArg List.length hnil
      simp only [List.length_map, List.length_range, List.length_nil] at hlen
      omega
    | cons e0 rest =>
      obtain ⟨i0, hi0m, rfl⟩ :=
        List.mem_map.mp (hperm.subset (List.mem_cons_self e0 rest))
      have hi0 : i0 < chunksOf data := List.mem_range.mp hi0m
      have hstep1 := handle_nil_eq device_id
        (transfer_id_of device_id now_ms file_name) file_name sfn data now i0
        hb hN hmax htid hsan hi0
      have hstep2 := handle_entry_eq device_id
        (transfer_id_of device_id now_ms file_name) file_name sfn data now
        (List.replicate (chunksOf data) none) i0 hb hN hmax htid hi0
        (List.length_replicate _ _)
        (getD_replicate none none _ i0 hi0)
      have haux := run_chunks_aux device_id
        (transfer_id_of device_id now_ms file_name) file_name sfn data now
        hb hN hmax htid
        (envOf (transfer_id_of device_id now_ms file_name) file_name data i0
          :: rest)
        (List.replicate (chunksOf data) none)
        ?_ ?_ (List.length_replicate _ _) ?_ ?_ ?_ ?_
      · rw [run_chunks_cons, hstep2] at haux
        rw [run_chunks_cons, hstep1]
        by_cases hany : (((List.replicate (chunksOf data) none).set i0
            (some (chunkOf data i0))).any fun c => c.isNone) = true
        · rw [if_pos hany] at haux ⊢
          exact haux
        · rw [if_neg hany] at haux ⊢
          by_cases hlen : (flattenOpt ((List.replicate (chunksOf data)
              none).set i0 (some (chunkOf data i0)))).length ≠ data.length
          · rw [if_pos hlen] at haux ⊢
            exact haux
          · rw [if_neg hlen] at haux ⊢
            exact haux
      · intro e he
        obtain ⟨i, him, heq⟩ := List.mem_map.mp (hperm.subset he)
        exact ⟨i, List.mem_range.mp him, heq.symm⟩
      · have hp := hperm.map FileChunkEnvelope.chunk_index
        rw [henvmap] at hp
        exact hp.nodup_iff.mpr (List.nodup_range _)
      · intro j hj
        exact Or.inl (getD_replicate none none _ j hj)
      · intro e he
        obtain ⟨i, him, rfl⟩ := List.mem_map.mp (hperm.subset he)
        exact getD_replicate none none _ _
          (by simpa [envOf] using List.mem_range.mp him)
      · intro j hj _
        refine ⟨envOf (transfer_id_of device_id now_ms file_name)
          file_name data j, ?_, by simp [envOf]⟩
        exact hperm.symm.subset
          (List.mem_map_of_mem _ (List.mem_range.mpr hj))
      · exact ⟨i0, hi0, getD_replicate none none _ i0 hi0⟩

/-- Concrete check of `file_transfer_roundtrip` on a two-byte file sent as
one chunk. -/
theorem file_transfer_roundtrip_witness :
    ([envOf (transfer_id_of [97] 3 [102]) [102] [104, 105] 0].length =
      (([104, 105] : List Nat).length + (FILE_CHUNK_RAW_BYTES - 1)) /
        FILE_CHUNK_RAW_BYTES) ∧
    (∀ e ∈ [envOf (transfer_id_of [97] 3 [102]) [102] [104, 105] 0],
      e.transfer_id = transfer_id_of [97] 3 [102] ∧
      e.total_size = ([104, 105] : List Nat).length) ∧
    run_chunks 5 [97]
        [envOf (transfer_id_of [97] 3 [102]) [102] [104, 105] 0] [] =
      ([], [{ sender_device_id := [97], file_name := [102],
              size_bytes := ([104, 105] : List Nat).length,
              bytes := [104, 105] }]) :=
  file_transfer_roundtrip [97] [102] [102] [104, 105] 3 5
    [envOf (transfer_id_of [97] 3 [102]) [102] [104, 105] 0]
    [envOf (transfer_id_of [97] 3 [102]) [102] [104, 105] 0]
    (by decide) (by decide) (by decide) (by decide)
    (by
      unfold send_file_v1
      rw [if_neg (by decide), if_neg (by decide), if_neg (by decide),
        if_neg (by decide), if_neg (by decide)]
      rfl)
    (List.Perm.refl _)

/-- Claim C9 counterexample: the claim as frozen — every delivery schedule
that feeds all chunk envelopes, duplicates allowed, completes exactly once
— fails. A completed transfer is removed from the map, so a duplicate
arriving after completion re-creates the entry; for a single-chunk file
delivered twice the transfer completes twice. -/
theorem file_transfer_exactly_once_counterexample :
    ¬ (∀ (device_id file_name data : List Nat) (now_ms now : Nat)
        (envs seq : List FileChunkEnvelope),
        (∀ x ∈ data, x < 256) → 0 < data.length →
        data.length ≤ DEFAULT_MAX_FILE_BYTES →
        send_file_v1 device_id now_ms file_name data = .ok envs →
        (∀ e ∈ envs, e ∈ seq) → (∀ e ∈ seq, e ∈ envs) →
        (run_chunks now device_id seq []).2.length = 1) := by
  intro h
  have h2 := h [97] [102] [104] 0 0
    [envOf (transfer_id_of [97] 0 [102]) [102] [104] 0]
    [envOf (transfer_id_of [97] 0 [102]) [102] [104] 0,
      envOf (transfer_id_of [97] 0 [102]) [102] [104] 0]
    (by decide) (by decide) (by decide)
    (by
      unfold send_file_v1
      rw [if_neg (by decide), if_neg (by decide), if_neg (by decide),
        if_neg (by decide), if_neg (by decide)]
      rfl)
    (by simp) (by simp)
  have hh1 : handle_file_chunk_event [] 0 [97]
      (envOf (transfer_id_of [97] 0 [102]) [102] [104] 0) =
      .ok ([], some
        { sender_device_id := [97], file_name := [102],
          size_bytes := ([104] : List Nat).length,
          bytes := flattenOpt ((List.replicate (chunksOf [104]) none).set 0
            (some (chunkOf [104] 0))) }) := by
    rw [handle_nil_eq [97] (transfer_id_of [97] 0 [102])
      [102] [102] [104] 0 0 (by decide) (by decide) (by decide)
      (trimStr_transfer_id [97] 0 [102]) (by decide) (by decide)]
    rw [if_neg (by decide), if_neg (by decide)]
  have hrun : (run_chunks 0 [97]
      [envOf (transfer_id_of [97] 0 [102]) [102] [104] 0,
        envOf (transfer_id_of [97] 0 [102]) [102] [104] 0] []).2.length = 2 := by
    rw [run_chunks_cons_ok_some _ _ _ _ _ _ _ hh1,
      run_chunks_cons_ok_some _ _ _ _ _ _ _ hh1]
    rfl
  rw [hrun] at h2
  exact absurd h2 (by decide)

/-! ## C10: `sanitize_file_name` -/

/-- Claim C10 (code bug): `sanitize_file_name` does not always return a
truncated name — `out.truncate(128)` counts bytes, not characters, and
panics when byte offset 128 is not a character boundary. Concretely, 127
ASCII `a`s followed by `é` (U+00E9, 2 UTF-8 bytes) survive trimming and
replacement unchanged, have byte length 129 > 128, and offset 128 falls
inside the encoding of `é`. -/
theorem sanitize_file_name_panics :
    sanitize_file_name (List.replicate 127 97 ++ [233]) = none := by decide

end ClipRelay
